import Mathlib

/-!
# int512: fixed-width 512-bit unsigned and signed integer arithmetic

A shallow embedding of `int512.c` / `int512.h`.

* A 64-bit machine word is a natural number below `2 ^ 64`; every wrapping
  operation of the source carries an explicit `% 2 ^ 64`.
* `uint512_t` and `int512_t` are the two structs of the header, each holding the
  array `words[8]` (least-significant word first) as a list of words.
* In the definitions that carry the name of a source function, pointer arguments
  are non-null and address distinct storage; an output parameter of the source
  is a component of the returned value, and it is `none` on the paths of the
  source that return before writing it.
* The definitions with the suffix `_call` add the null test that opens the source
  function: a pointer is an `Option`, and the content of the output storage
  after the call is returned.
* The definitions with the suffix `_mem` run the unsigned arithmetic on addressed
  storage, where an output pointer may address the storage of an input.
* A function whose source contains a `while` loop returns an `Option`; `none`
  stands for an execution that leaves the defined behaviour of the source
  (a shift by a negative amount, a write past the end of a scratch array).
-/

namespace Int512

set_option exponentiation.threshold 1024
set_option maxRecDepth 100000

/-! ## Data model -/

/-- Error codes (`int512_error_t` of `int512.h`). -/
inductive int512_error_t where
  | INT512_OK
  | INT512_ERR_OVERFLOW
  | INT512_ERR_UNDERFLOW
  | INT512_ERR_DIVIDE_BY_ZERO
  | INT512_ERR_INVALID_STRING
  | INT512_ERR_INVALID_BASE
  | INT512_ERR_NULL_POINTER
  deriving DecidableEq, Repr

open int512_error_t

/-- The 512-bit unsigned integer: `uint64_t words[8]`, `words[0]` is the least
significant word. -/
structure uint512_t where
  words : List Nat
  deriving DecidableEq, Repr

/-- The 512-bit signed integer (two's complement), same layout as `uint512_t`. -/
structure int512_t where
  words : List Nat
  deriving DecidableEq, Repr

/-- The constant `UINT64_MAX` of `stdint.h`. -/
def UINT64_MAX : Nat := 2 ^ 64 - 1

/-- The constant `INT64_MAX` of `stdint.h`. -/
def INT64_MAX : Nat := 2 ^ 63 - 1

/-- The bit pattern `(uint64_t)INT64_MIN`. -/
def INT64_MIN_BITS : Nat := 2 ^ 63

def UINT512_ZERO : uint512_t := ⟨[0, 0, 0, 0, 0, 0, 0, 0]⟩
def UINT512_ONE : uint512_t := ⟨[1, 0, 0, 0, 0, 0, 0, 0]⟩
def UINT512_MAX : uint512_t :=
  ⟨[UINT64_MAX, UINT64_MAX, UINT64_MAX, UINT64_MAX,
    UINT64_MAX, UINT64_MAX, UINT64_MAX, UINT64_MAX]⟩

def INT512_ZERO : int512_t := ⟨[0, 0, 0, 0, 0, 0, 0, 0]⟩
def INT512_ONE : int512_t := ⟨[1, 0, 0, 0, 0, 0, 0, 0]⟩
def INT512_MAX : int512_t :=
  ⟨[UINT64_MAX, UINT64_MAX, UINT64_MAX, UINT64_MAX,
    UINT64_MAX, UINT64_MAX, UINT64_MAX, INT64_MAX]⟩
def INT512_MIN : int512_t := ⟨[0, 0, 0, 0, 0, 0, 0, INT64_MIN_BITS]⟩

/-- The pointer casts `(const uint512_t *)a` of the source: same words. -/
def int512_t.toU (a : int512_t) : uint512_t := ⟨a.words⟩

/-- The pointer casts `(int512_t *)a` of the source: same words. -/
def uint512_t.toI (a : uint512_t) : int512_t := ⟨a.words⟩

/-! ## Interpretation of word arrays (specification side) -/

/-- The natural number denoted by a little-endian list of 64-bit words. -/
def wordsVal : List Nat → Nat
  | [] => 0
  | w :: ws => w + 2 ^ 64 * wordsVal ws

/-- A well-formed word array: exactly eight words, each below `2 ^ 64`. -/
def WordsWF (ws : List Nat) : Prop := ws.length = 8 ∧ ∀ w ∈ ws, w < 2 ^ 64

instance (ws : List Nat) : Decidable (WordsWF ws) := by
  unfold WordsWF; infer_instance

/-- The value of an unsigned 512-bit integer. -/
def uint512_t.val (a : uint512_t) : Nat := wordsVal a.words

/-- Well-formedness of a `uint512_t`: what the C type guarantees. -/
def uint512_t.WF (a : uint512_t) : Prop := WordsWF a.words

instance (a : uint512_t) : Decidable a.WF := by
  unfold uint512_t.WF; infer_instance

/-- The two's-complement value of a signed 512-bit integer. -/
def int512_t.val (a : int512_t) : Int :=
  if wordsVal a.words < 2 ^ 511 then (wordsVal a.words : Int)
  else (wordsVal a.words : Int) - 2 ^ 512

/-- Well-formedness of an `int512_t`: what the C type guarantees. -/
def int512_t.WF (a : int512_t) : Prop := WordsWF a.words

instance (a : int512_t) : Decidable a.WF := by
  unfold int512_t.WF; infer_instance

/-! ## Utility functions -/

/-- Source `uint512_is_zero`: every word is zero. -/
def uint512_is_zero (a : uint512_t) : Bool :=
  a.words.all (fun w => w == 0)

/-- Source `int512_is_zero`. -/
def int512_is_zero (a : int512_t) : Bool :=
  uint512_is_zero a.toU

/-- Source `int512_is_negative`: `(a->words[7] & ((uint64_t)1 << 63)) != 0`. -/
def int512_is_negative (a : int512_t) : Bool :=
  (a.words.getD 7 0 &&& ((1 <<< 63) % 2 ^ 64)) != 0

/-- The loop of `uint512_compare`: `for (i = n - 1; i >= 0; i--)`. -/
def uint512_compare_loop (a b : List Nat) : Nat → Int
  | 0 => 0
  | i + 1 =>
    if a.getD i 0 > b.getD i 0 then 1
    else if a.getD i 0 < b.getD i 0 then -1
    else uint512_compare_loop a b i

/-- Source `uint512_compare`. -/
def uint512_compare (a b : uint512_t) : Int :=
  uint512_compare_loop a.words b.words 8

/-- Source `int512_compare`. -/
def int512_compare (a b : int512_t) : Int :=
  let a_neg := int512_is_negative a
  let b_neg := int512_is_negative b
  if a_neg != b_neg then (if a_neg then -1 else 1)
  else uint512_compare a.toU b.toU

/-! ## Unsigned arithmetic -/

/-- The loop of `uint512_add` over the words of `a` and `b` from index 0 upwards,
with the running `carry`; returns the result words and the final carry. -/
def uint512_add_loop : List Nat → List Nat → Nat → List Nat × Nat
  | a :: as, b :: bs, carry =>
    let sum := (a + carry) % 2 ^ 64
    let carry := if sum < carry then 1 else 0
    let sum := (sum + b) % 2 ^ 64
    let carry := carry + (if sum < b then 1 else 0)
    let rest := uint512_add_loop as bs carry
    (sum :: rest.1, rest.2)
  | _, _, carry => ([], carry)

/-- Source `uint512_add`. -/
def uint512_add (a b : uint512_t) : int512_error_t × uint512_t :=
  let r := uint512_add_loop a.words b.words 0
  (if r.2 ≠ 0 then INT512_ERR_OVERFLOW else INT512_OK, ⟨r.1⟩)

/-- The loop of `uint512_sub` over the words of `a` and `b` from index 0 upwards,
with the running `borrow`; returns the result words and the final borrow. -/
def uint512_sub_loop : List Nat → List Nat → Nat → List Nat × Nat
  | a :: as, b :: bs, borrow =>
    let diff := (a + 2 ^ 64 - borrow) % 2 ^ 64
    let borrow := if diff > a then 1 else 0
    let temp := (diff + 2 ^ 64 - b) % 2 ^ 64
    let borrow := borrow + (if temp > diff then 1 else 0)
    let rest := uint512_sub_loop as bs borrow
    (temp :: rest.1, rest.2)
  | _, _, borrow => ([], borrow)

/-- Source `uint512_sub`. -/
def uint512_sub (a b : uint512_t) : int512_error_t × uint512_t :=
  let r := uint512_sub_loop a.words b.words 0
  (if r.2 ≠ 0 then INT512_ERR_UNDERFLOW else INT512_OK, ⟨r.1⟩)

/-- One iteration (index `j`) of the inner loop of `uint512_mul`, for row `i`
with `bi = b->words[i]`. The state is `(temp.words, carry, overflow)`. -/
def uint512_mul_inner (a : List Nat) (bi i : Nat)
    (st : List Nat × Nat × Bool) (j : Nat) : List Nat × Nat × Bool :=
  if i + j ≥ 8 then
    (st.1, st.2.1, if a.getD j 0 ≠ 0 then true else st.2.2)
  else
    let prod := (a.getD j 0 * bi + st.1.getD (i + j) 0 + st.2.1) % 2 ^ 128
    (st.1.set (i + j) (prod % 2 ^ 64), (prod >>> 64) % 2 ^ 64, st.2.2)

/-- One iteration (index `i`) of the outer loop of `uint512_mul`. The state is
`(temp.words, overflow)`. -/
def uint512_mul_outer (a b : List Nat) (st : List Nat × Bool) (i : Nat) :
    List Nat × Bool :=
  if b.getD i 0 = 0 then st
  else
    let r := (List.range 8).foldl (uint512_mul_inner a (b.getD i 0) i) (st.1, 0, st.2)
    (r.1, if r.2.1 ≠ 0 then true else r.2.2)

/-- Source `uint512_mul`. -/
def uint512_mul (a b : uint512_t) : int512_error_t × uint512_t :=
  let r := (List.range 8).foldl (uint512_mul_outer a.words b.words)
    (UINT512_ZERO.words, false)
  (if r.2 then INT512_ERR_OVERFLOW else INT512_OK, ⟨r.1⟩)

/-- The bit scan `while (!(word & ((uint64_t)1 << (bits % 64)))) bits--;` of
`uint512_div`. When the scan would step below bit 0 the source shifts by a
negative amount, which is undefined: `none`. -/
def highest_bit_scan (word : Nat) : Nat → Option Nat
  | 0 => if word &&& ((1 <<< (0 % 64)) % 2 ^ 64) ≠ 0 then some 0 else none
  | bits + 1 =>
    if word &&& ((1 <<< ((bits + 1) % 64)) % 2 ^ 64) ≠ 0 then some (bits + 1)
    else highest_bit_scan word bits

/-- The search `for (i = n - 1; i >= 0; i--) if (words[i] != 0) { ...; break; }`
of `uint512_div` for the highest set bit; the initial value 512 is kept when
every word is zero. -/
def highest_bit : List Nat → Nat → Option Nat
  | _, 0 => some 512
  | ws, i + 1 =>
    if ws.getD i 0 ≠ 0 then highest_bit_scan (ws.getD i 0) (i * 64 + 63)
    else highest_bit ws i

/-- The loop "shift current left by 1" of `uint512_div`, over the words from
index 0 upwards with the running `carry`. -/
def shift_left_one : List Nat → Nat → List Nat
  | [], _ => []
  | w :: ws, carry =>
    let new_carry := w >>> 63
    (((w <<< 1) % 2 ^ 64) ||| carry) :: shift_left_one ws new_carry

/-- The long-division loop `for (i = n - 1; i >= 0; i--)` of `uint512_div`;
the state is `(current.words, quotient->words)`. The call
`uint512_sub(&current, b, &current)` stores into its first operand: `uint512_sub`
reads word `i` of both operands before it writes word `i` of the result, so what
is stored is the result of `uint512_sub` on the old `current`. -/
def uint512_div_loop (a : List Nat) (b : uint512_t) :
    Nat → List Nat × List Nat → List Nat × List Nat
  | 0, st => st
  | i + 1, st =>
    let current := shift_left_one st.1 0
    let word_idx := i / 64
    let bit_idx := i % 64
    let current :=
      if a.getD word_idx 0 &&& ((1 <<< bit_idx) % 2 ^ 64) ≠ 0 then
        current.set 0 (current.getD 0 0 ||| 1)
      else current
    if uint512_compare ⟨current⟩ b ≥ 0 then
      let current := (uint512_sub ⟨current⟩ b).2.words
      let quotient :=
        st.2.set word_idx (st.2.getD word_idx 0 ||| ((1 <<< bit_idx) % 2 ^ 64))
      uint512_div_loop a b i (current, quotient)
    else
      uint512_div_loop a b i (current, st.2)

/-- Source `uint512_div`. The second component is `(quotient, remainder)`, which
are not written when the divisor is zero. -/
def uint512_div (a b : uint512_t) :
    Option (int512_error_t × Option (uint512_t × uint512_t)) :=
  if uint512_is_zero b then some (INT512_ERR_DIVIDE_BY_ZERO, none)
  else if uint512_compare a b < 0 then some (INT512_OK, some (UINT512_ZERO, a))
  else
    match highest_bit a.words 8, highest_bit b.words 8 with
    | some dividend_bits, some _ =>
      let r := uint512_div_loop a.words b (dividend_bits + 1)
        (UINT512_ZERO.words, UINT512_ZERO.words)
      some (INT512_OK, some (⟨r.2⟩, ⟨r.1⟩))
    | _, _ => none

/-! ## Signed arithmetic -/

/-- The second loop of `int512_negate`: add 1 with ripple carry. -/
def int512_negate_loop : List Nat → Nat → List Nat
  | [], _ => []
  | w :: ws, carry =>
    let sum := (w + carry) % 2 ^ 64
    let carry := if sum < w then 1 else 0
    sum :: int512_negate_loop ws carry

/-- Source `int512_negate`: complement every word (`~w` is `UINT64_MAX - w` on
64-bit words), then add 1. -/
def int512_negate (a : int512_t) : int512_t :=
  ⟨int512_negate_loop (a.words.map (fun w => UINT64_MAX - w)) 1⟩

/-- Source `int512_add`. -/
def int512_add (a b : int512_t) : int512_error_t × int512_t :=
  let a_neg := int512_is_negative a
  let b_neg := int512_is_negative b
  let result := (uint512_add a.toU b.toU).2.toI
  let result_neg := int512_is_negative result
  if a_neg == b_neg && a_neg != result_neg then
    (if a_neg then INT512_ERR_UNDERFLOW else INT512_ERR_OVERFLOW, result)
  else (INT512_OK, result)

/-- Source `int512_sub`. -/
def int512_sub (a b : int512_t) : int512_error_t × int512_t :=
  let a_neg := int512_is_negative a
  let b_neg := int512_is_negative b
  let result := (uint512_sub a.toU b.toU).2.toI
  let result_neg := int512_is_negative result
  if a_neg != b_neg && a_neg != result_neg then
    (if a_neg then INT512_ERR_UNDERFLOW else INT512_ERR_OVERFLOW, result)
  else (INT512_OK, result)

/-- Source `int512_mul`. -/
def int512_mul (a b : int512_t) : int512_error_t × int512_t :=
  let abs_a := if int512_is_negative a then int512_negate a else a
  let negate_result := if int512_is_negative a then true else false
  let abs_b := if int512_is_negative b then int512_negate b else b
  let negate_result := if int512_is_negative b then !negate_result else negate_result
  let r := uint512_mul abs_a.toU abs_b.toU
  let err := r.1
  let result := if negate_result then int512_negate r.2.toI else r.2.toI
  if err = INT512_ERR_OVERFLOW then (INT512_ERR_OVERFLOW, result)
  else if !negate_result && int512_is_negative result then (INT512_ERR_OVERFLOW, result)
  else if negate_result && !int512_is_negative result && !int512_is_zero result then
    (INT512_ERR_OVERFLOW, result)
  else (INT512_OK, result)

/-- Source `int512_div`. The second component is `(quotient, remainder)`, which
are not written when the divisor is zero. -/
def int512_div (a b : int512_t) :
    Option (int512_error_t × Option (int512_t × int512_t)) :=
  if int512_is_zero b then some (INT512_ERR_DIVIDE_BY_ZERO, none)
  else
    let abs_a := if int512_is_negative a then int512_negate a else a
    let negate_quotient := if int512_is_negative a then true else false
    let negate_remainder := if int512_is_negative a then true else false
    let abs_b := if int512_is_negative b then int512_negate b else b
    let negate_quotient := if int512_is_negative b then !negate_quotient else negate_quotient
    match uint512_div abs_a.toU abs_b.toU with
    | none => none
    | some (err, out) =>
      if err ≠ INT512_OK then some (err, out.map (fun p => (p.1.toI, p.2.toI)))
      else
        match out with
        | none => none
        | some (q, r) =>
          let quotient := if negate_quotient then int512_negate q.toI else q.toI
          let remainder := if negate_remainder then int512_negate r.toI else r.toI
          some (INT512_OK, some (quotient, remainder))

/-! ## String conversion

A C string is the list of its characters before the terminating NUL; reading
`*str` at the end of the list gives `'\0'`. The text a `to_string` function
leaves in the caller's buffer is returned as such a list when the function
returns `INT512_OK`. -/

/-- The conversion `(uint64_t)x` of an `int`. -/
def u64_of_int (x : Int) : Nat := (x % 2 ^ 64).toNat

/-- The conversion `(int)w` of a 64-bit word: its low 32 bits, two's complement. -/
def int_of_u64 (w : Nat) : Int :=
  if w % 2 ^ 32 < 2 ^ 31 then ((w % 2 ^ 32 : Nat) : Int)
  else ((w % 2 ^ 32 : Nat) : Int) - 2 ^ 32

/-- The digit character `(digit < 10) ? ('0' + digit) : ('a' + digit - 10)`. -/
def digit_char (digit : Int) : Char :=
  if digit < 10 then Char.ofNat (('0'.toNat : Int) + digit).toNat
  else Char.ofNat (('a'.toNat : Int) + digit - 10).toNat

/-- The digit-collection loop `while (!uint512_is_zero(&num))` of
`uint512_to_string`. `temp` lists the characters written so far into the scratch
array `char temp[600]` and the first argument is the number of free slots left
in it: writing with no slot left is out of bounds, `none`. -/
def uint512_to_string_loop (base : Int) : Nat → uint512_t → List Char → Option (List Char)
  | 0, num, temp => if uint512_is_zero num then some temp else none
  | free + 1, num, temp =>
    if uint512_is_zero num then some temp
    else
      let base_val : uint512_t := ⟨[u64_of_int base, 0, 0, 0, 0, 0, 0, 0]⟩
      match uint512_div num base_val with
      | some (_, some (quotient, remainder)) =>
        let digit := int_of_u64 (remainder.words.getD 0 0)
        uint512_to_string_loop base free quotient (temp ++ [digit_char digit])
      | _ => none

/-- Source `uint512_to_string`. -/
def uint512_to_string (value : uint512_t) (buffer_size : Nat) (base : Int) :
    Option (int512_error_t × Option (List Char)) :=
  if buffer_size = 0 then some (INT512_ERR_NULL_POINTER, none)
  else if base < 2 ∨ base > 36 then some (INT512_ERR_INVALID_BASE, none)
  else if uint512_is_zero value then
    if buffer_size < 2 then some (INT512_ERR_INVALID_STRING, none)
    else some (INT512_OK, some ['0'])
  else
    match uint512_to_string_loop base 600 value [] with
    | none => none
    | some temp =>
      let pos := temp.length
      if pos + 1 > buffer_size then some (INT512_ERR_INVALID_STRING, none)
      else some (INT512_OK, some ((List.range pos).map (fun i => temp.getD (pos - 1 - i) '\x00')))

/-- The loop `while (*str == ' ' || *str == '\t') str++;`. -/
def skip_blanks : List Char → List Char
  | [] => []
  | c :: cs => if c = ' ' ∨ c = '\t' then skip_blanks cs else c :: cs

/-- The digit value of a character in `uint512_from_string`, `none` for a
character outside `0-9`, `a-z`, `A-Z`. -/
def char_digit (c : Char) : Option Int :=
  if '0' ≤ c ∧ c ≤ '9' then some ((c.toNat : Int) - ('0'.toNat : Int))
  else if 'a' ≤ c ∧ c ≤ 'z' then some ((c.toNat : Int) - ('a'.toNat : Int) + 10)
  else if 'A' ≤ c ∧ c ≤ 'Z' then some ((c.toNat : Int) - ('A'.toNat : Int) + 10)
  else none

/-- The accumulation loop `while (*str)` of `uint512_from_string`; returns the
status and the content of `*result`. -/
def uint512_from_string_loop (base : Int) : List Char → uint512_t → int512_error_t × uint512_t
  | [], result => (INT512_OK, result)
  | c :: cs, result =>
    if c = '\x00' then (INT512_OK, result)
    else
      match char_digit c with
      | none => (INT512_ERR_INVALID_STRING, result)
      | some digit =>
        if digit ≥ base then (INT512_ERR_INVALID_STRING, result)
        else
          let base_val : uint512_t := ⟨[u64_of_int base, 0, 0, 0, 0, 0, 0, 0]⟩
          let m := uint512_mul result base_val
          if m.1 ≠ INT512_OK then (m.1, result)
          else
            let digit_val : uint512_t := ⟨[u64_of_int digit, 0, 0, 0, 0, 0, 0, 0]⟩
            let s := uint512_add m.2 digit_val
            if s.1 ≠ INT512_OK then (s.1, s.2)
            else uint512_from_string_loop base cs s.2

/-- Source `uint512_from_string`. The second component is `*result`, not written
when the base is invalid. -/
def uint512_from_string (str : List Char) (base : Int) : int512_error_t × Option uint512_t :=
  if base < 2 ∨ base > 36 then (INT512_ERR_INVALID_BASE, none)
  else
    let str := skip_blanks str
    let str := if str.headD '\x00' = '+' then str.tail else str
    if str.headD '\x00' = '\x00' then (INT512_ERR_INVALID_STRING, some UINT512_ZERO)
    else
      let r := uint512_from_string_loop base str UINT512_ZERO
      (r.1, some r.2)

/-- Source `int512_to_string`. For a negative value the source writes `'-'` into
`buffer[0]` and lets `uint512_to_string` write the magnitude at `buffer + 1`, with
`buffer_size - 1` bytes left. -/
def int512_to_string (value : int512_t) (buffer_size : Nat) (base : Int) :
    Option (int512_error_t × Option (List Char)) :=
  if buffer_size = 0 then some (INT512_ERR_NULL_POINTER, none)
  else if base < 2 ∨ base > 36 then some (INT512_ERR_INVALID_BASE, none)
  else if int512_is_zero value then
    if buffer_size < 2 then some (INT512_ERR_INVALID_STRING, none)
    else some (INT512_OK, some ['0'])
  else if int512_is_negative value then
    if buffer_size < 2 then some (INT512_ERR_INVALID_STRING, none)
    else
      match uint512_to_string (int512_negate value).toU (buffer_size - 1) base with
      | none => none
      | some (err, out) => some (err, out.map (fun digits => '-' :: digits))
  else uint512_to_string value.toU buffer_size base

/-- Source `int512_from_string`. The second component is `*result`, not written
when the base is invalid. -/
def int512_from_string (str : List Char) (base : Int) : int512_error_t × Option int512_t :=
  if base < 2 ∨ base > 36 then (INT512_ERR_INVALID_BASE, none)
  else
    let str := skip_blanks str
    let negative : Bool := if str.headD '\x00' = '-' then true else false
    let str :=
      if str.headD '\x00' = '-' then str.tail
      else if str.headD '\x00' = '+' then str.tail
      else str
    let r := uint512_from_string str base
    if r.1 ≠ INT512_OK then (r.1, r.2.map uint512_t.toI)
    else if negative then (INT512_OK, r.2.map (fun x => int512_negate x.toI))
    else (INT512_OK, r.2.map uint512_t.toI)

/-! ## Texts (specification side) -/

/-- The symbol of the digit `d < 36`: `0`-`9`, then `a`-`z` or `A`-`Z`. -/
def digitSymbol (upper : Bool) (d : Nat) : Char :=
  (if upper then "0123456789ABCDEFGHIJKLMNOPQRSTUVWXYZ".toList
    else "0123456789abcdefghijklmnopqrstuvwxyz".toList).getD d '?'

/-- The positional value in base `b` of a list of digits, most significant first. -/
def positionalValue (b : Nat) (ds : List Nat) : Nat :=
  ds.foldl (fun x d => x * b + d) 0

/-- A run of spaces and tabs. -/
def IsBlanks (cs : List Char) : Prop := ∀ c ∈ cs, c = ' ' ∨ c = '\t'

/-- The 512-bit unsigned integer of value `n mod 2 ^ 512`. -/
def uint512_t.ofNat (n : Nat) : uint512_t :=
  ⟨(List.range 8).map (fun i => n / 2 ^ (64 * i) % 2 ^ 64)⟩

/-! ## Calls with pointer arguments that may be null

The definitions above describe each function after the null test that opens its
body. In this section a pointer argument is an `Option`: `none` is the null pointer
and `some x` points to storage that holds `x` when the call is made. A call returns
the status together with the content of every output storage after the call. -/

/-- Source `uint512_add`, from its first line
`if (!a || !b || !result) return INT512_ERR_NULL_POINTER;`. -/
def uint512_add_call (a b result : Option uint512_t) : int512_error_t × Option uint512_t :=
  match a, b, result with
  | some a, some b, some _ => ((uint512_add a b).1, some (uint512_add a b).2)
  | _, _, _ => (INT512_ERR_NULL_POINTER, result)

/-- Source `uint512_sub`, from its null test. -/
def uint512_sub_call (a b result : Option uint512_t) : int512_error_t × Option uint512_t :=
  match a, b, result with
  | some a, some b, some _ => ((uint512_sub a b).1, some (uint512_sub a b).2)
  | _, _, _ => (INT512_ERR_NULL_POINTER, result)

/-- Source `uint512_mul`, from its null test. -/
def uint512_mul_call (a b result : Option uint512_t) : int512_error_t × Option uint512_t :=
  match a, b, result with
  | some a, some b, some _ => ((uint512_mul a b).1, some (uint512_mul a b).2)
  | _, _, _ => (INT512_ERR_NULL_POINTER, result)

/-- Source `uint512_div`, from its null test
`if (!a || !b || !quotient || !remainder) return INT512_ERR_NULL_POINTER;`. The
outputs keep their content when the divisor is zero. -/
def uint512_div_call (a b quotient remainder : Option uint512_t) :
    Option (int512_error_t × Option uint512_t × Option uint512_t) :=
  match a, b, quotient, remainder with
  | some a, some b, some q0, some r0 =>
    match uint512_div a b with
    | none => none
    | some (err, none) => some (err, some q0, some r0)
    | some (err, some (q, r)) => some (err, some q, some r)
  | _, _, _, _ => some (INT512_ERR_NULL_POINTER, quotient, remainder)

/-- Source `int512_add`, from its null test. -/
def int512_add_call (a b result : Option int512_t) : int512_error_t × Option int512_t :=
  match a, b, result with
  | some a, some b, some _ => ((int512_add a b).1, some (int512_add a b).2)
  | _, _, _ => (INT512_ERR_NULL_POINTER, result)

/-- Source `int512_sub`, from its null test. -/
def int512_sub_call (a b result : Option int512_t) : int512_error_t × Option int512_t :=
  match a, b, result with
  | some a, some b, some _ => ((int512_sub a b).1, some (int512_sub a b).2)
  | _, _, _ => (INT512_ERR_NULL_POINTER, result)

/-- Source `int512_mul`, from its null test. -/
def int512_mul_call (a b result : Option int512_t) : int512_error_t × Option int512_t :=
  match a, b, result with
  | some a, some b, some _ => ((int512_mul a b).1, some (int512_mul a b).2)
  | _, _, _ => (INT512_ERR_NULL_POINTER, result)

/-- Source `int512_div`, from its null test. The outputs keep their content when the
divisor is zero. -/
def int512_div_call (a b quotient remainder : Option int512_t) :
    Option (int512_error_t × Option int512_t × Option int512_t) :=
  match a, b, quotient, remainder with
  | some a, some b, some q0, some r0 =>
    match int512_div a b with
    | none => none
    | some (err, none) => some (err, some q0, some r0)
    | some (err, some (q, r)) => some (err, some q, some r)
  | _, _, _, _ => some (INT512_ERR_NULL_POINTER, quotient, remainder)

/-- The bytes of a buffer after a text and its terminator are written at its start. -/
def write_text (bytes text : List Char) : List Char :=
  text ++ '\x00' :: bytes.drop (text.length + 1)

/-- Source `uint512_to_string`, from its first line
`if (!value || !buffer || buffer_size == 0) return INT512_ERR_NULL_POINTER;`. The
buffer is the list of its bytes; it keeps them on every path that returns an error. -/
def uint512_to_string_call (value : Option uint512_t) (buffer : Option (List Char))
    (buffer_size : Nat) (base : Int) : Option (int512_error_t × Option (List Char)) :=
  match value, buffer with
  | some value, some bytes =>
    match uint512_to_string value buffer_size base with
    | none => none
    | some (err, none) => some (err, some bytes)
    | some (err, some text) => some (err, some (write_text bytes text))
  | _, _ => some (INT512_ERR_NULL_POINTER, buffer)

/-- Source `uint512_from_string`, from its first line
`if (!str || !result) return INT512_ERR_NULL_POINTER;`. -/
def uint512_from_string_call (str : Option (List Char)) (result : Option uint512_t)
    (base : Int) : int512_error_t × Option uint512_t :=
  match str, result with
  | some str, some r0 =>
    ((uint512_from_string str base).1, some ((uint512_from_string str base).2.getD r0))
  | _, _ => (INT512_ERR_NULL_POINTER, result)

/-- Source `int512_to_string`, from its first line. For a negative value the source
stores `'-'` in `buffer[0]` and passes `buffer + 1`, the bytes after the first, to
`uint512_to_string`. -/
def int512_to_string_call (value : Option int512_t) (buffer : Option (List Char))
    (buffer_size : Nat) (base : Int) : Option (int512_error_t × Option (List Char)) :=
  match value, buffer with
  | some value, some bytes =>
    if buffer_size = 0 then some (INT512_ERR_NULL_POINTER, some bytes)
    else if base < 2 ∨ base > 36 then some (INT512_ERR_INVALID_BASE, some bytes)
    else if int512_is_zero value then
      if buffer_size < 2 then some (INT512_ERR_INVALID_STRING, some bytes)
      else some (INT512_OK, some (write_text bytes ['0']))
    else if int512_is_negative value then
      if buffer_size < 2 then some (INT512_ERR_INVALID_STRING, some bytes)
      else
        match uint512_to_string_call (some (int512_negate value).toU) (some (bytes.drop 1))
            (buffer_size - 1) base with
        | none => none
        | some (err, rest) => some (err, rest.map (fun r => '-' :: r))
    else uint512_to_string_call (some value.toU) (some bytes) buffer_size base
  | _, _ => some (INT512_ERR_NULL_POINTER, buffer)

/-- Source `int512_from_string`, from its first line
`if (!str || !result) return INT512_ERR_NULL_POINTER;`. -/
def int512_from_string_call (str : Option (List Char)) (result : Option int512_t)
    (base : Int) : int512_error_t × Option int512_t :=
  match str, result with
  | some str, some r0 =>
    ((int512_from_string str base).1, some ((int512_from_string str base).2.getD r0))
  | _, _ => (INT512_ERR_NULL_POINTER, result)

/-! ## Calls on caller storage

The unsigned arithmetic functions once more, this time over the storage their
pointer arguments address, so that an output pointer may address the storage of an
input. Pointers are addresses (not null); every read of `p->words[i]` is a read of
the current content of the storage at `p`. -/

/-- Caller storage: the words of the `uint512_t` object at each address. -/
abbrev Memory : Type := Nat → List Nat

/-- The assignment `*p = ws`. -/
def Memory.store (m : Memory) (p : Nat) (ws : List Nat) : Memory :=
  fun q => if q = p then ws else m q

/-- The assignment `p->words[i] = w`. -/
def Memory.storeWord (m : Memory) (p i w : Nat) : Memory :=
  m.store p ((m p).set i w)

/-- One iteration (index `i`) of the loop of `uint512_add`; the state is the storage
and `carry`. -/
def uint512_add_mem_step (a b result : Nat) (st : Memory × Nat) (i : Nat) : Memory × Nat :=
  let sum := ((st.1 a).getD i 0 + st.2) % 2 ^ 64
  let carry := if sum < st.2 then 1 else 0
  let sum := (sum + (st.1 b).getD i 0) % 2 ^ 64
  let carry := carry + (if sum < (st.1 b).getD i 0 then 1 else 0)
  (st.1.storeWord result i sum, carry)

/-- Source `uint512_add` on storage. -/
def uint512_add_mem (m : Memory) (a b result : Nat) : int512_error_t × Memory :=
  let r := (List.range 8).foldl (uint512_add_mem_step a b result) (m, 0)
  (if r.2 ≠ 0 then INT512_ERR_OVERFLOW else INT512_OK, r.1)

/-- One iteration (index `i`) of the loop of `uint512_sub`; the state is the storage
and `borrow`. -/
def uint512_sub_mem_step (a b result : Nat) (st : Memory × Nat) (i : Nat) : Memory × Nat :=
  let diff := ((st.1 a).getD i 0 + 2 ^ 64 - st.2) % 2 ^ 64
  let borrow := if diff > (st.1 a).getD i 0 then 1 else 0
  let temp := (diff + 2 ^ 64 - (st.1 b).getD i 0) % 2 ^ 64
  let borrow := borrow + (if temp > diff then 1 else 0)
  (st.1.storeWord result i temp, borrow)

/-- Source `uint512_sub` on storage. -/
def uint512_sub_mem (m : Memory) (a b result : Nat) : int512_error_t × Memory :=
  let r := (List.range 8).foldl (uint512_sub_mem_step a b result) (m, 0)
  (if r.2 ≠ 0 then INT512_ERR_UNDERFLOW else INT512_OK, r.1)

/-- Source `uint512_mul` on storage: the loops read `a` and `b` and write the local
`temp` only; the one write to caller storage is the final `*result = temp`. -/
def uint512_mul_mem (m : Memory) (a b result : Nat) : int512_error_t × Memory :=
  let r := (List.range 8).foldl (uint512_mul_outer (m a) (m b))
    (UINT512_ZERO.words, false)
  (if r.2 then INT512_ERR_OVERFLOW else INT512_OK, m.store result r.1)

/-- The long-division loop of `uint512_div` on storage; the state is the local
`current` and the storage. Bit `i` of the dividend and the divisor are read from the
storage at `a` and `b` in every iteration, and the quotient bit is set in the storage
at `quotient`. -/
def uint512_div_mem_loop (a b quotient : Nat) :
    Nat → List Nat × Memory → List Nat × Memory
  | 0, st => st
  | i + 1, st =>
    let current := shift_left_one st.1 0
    let word_idx := i / 64
    let bit_idx := i % 64
    let current :=
      if (st.2 a).getD word_idx 0 &&& ((1 <<< bit_idx) % 2 ^ 64) ≠ 0 then
        current.set 0 (current.getD 0 0 ||| 1)
      else current
    if uint512_compare ⟨current⟩ ⟨st.2 b⟩ ≥ 0 then
      let current := (uint512_sub ⟨current⟩ ⟨st.2 b⟩).2.words
      let m := st.2.storeWord quotient word_idx
        ((st.2 quotient).getD word_idx 0 ||| ((1 <<< bit_idx) % 2 ^ 64))
      uint512_div_mem_loop a b quotient i (current, m)
    else
      uint512_div_mem_loop a b quotient i (current, st.2)

/-- Source `uint512_div` on storage. The source stores `*quotient = UINT512_ZERO` and
`*remainder = *a` before it compares `a` with `b` and scans them. When the scan of the
dividend finds no set bit, `dividend_bits` stays 512 and the loop would read
`a->words[8]`, outside the array: `none`. -/
def uint512_div_mem (m : Memory) (a b quotient remainder : Nat) :
    Option (int512_error_t × Memory) :=
  if uint512_is_zero ⟨m b⟩ then some (INT512_ERR_DIVIDE_BY_ZERO, m)
  else
    let m := m.store quotient UINT512_ZERO.words
    let m := m.store remainder (m a)
    if uint512_compare ⟨m a⟩ ⟨m b⟩ < 0 then some (INT512_OK, m)
    else
      match highest_bit (m a) 8, highest_bit (m b) 8 with
      | some dividend_bits, some _ =>
        if dividend_bits ≥ 512 then none
        else
          let r := uint512_div_mem_loop a b quotient (dividend_bits + 1)
            (UINT512_ZERO.words, m)
          some (INT512_OK, r.2.store remainder r.1)
      | _, _ => none

/-! ## Mixed-size operations

A narrow argument is given by its value: a natural number for `uint16_t`, an integer
for `int8_t`, `int32_t` and `int64_t`; the range of the C type is a hypothesis of the
theorems. Pointer arguments are non-null. -/

/-- The conversion `(int8_t)w` of a 64-bit word: its low 8 bits, two's complement. -/
def int8_of_u64 (w : Nat) : Int :=
  if w % 2 ^ 8 < 2 ^ 7 then ((w % 2 ^ 8 : Nat) : Int)
  else ((w % 2 ^ 8 : Nat) : Int) - 2 ^ 8

/-- Source `uint512_div_u16`. The outputs are `*quotient`, written by `uint512_div`,
and `*remainder = (uint16_t)rem512.words[0]`, written when the status is OK. -/
def uint512_div_u16 (a : uint512_t) (b : Nat) :
    Option (int512_error_t × Option uint512_t × Option Nat) :=
  let temp : uint512_t := ⟨[b, 0, 0, 0, 0, 0, 0, 0]⟩
  match uint512_div a temp with
  | none => none
  | some (err, out) =>
    if err = INT512_OK then
      some (err, out.map Prod.fst, out.map (fun p => p.2.words.getD 0 0 % 2 ^ 16))
    else some (err, out.map Prod.fst, none)

/-- Source `int512_div_i8`. The outputs are `*quotient`, written by `int512_div`, and
`*remainder = (int8_t)rem512.words[0]`, written when the status is OK. -/
def int512_div_i8 (a : int512_t) (b : Int) :
    Option (int512_error_t × Option int512_t × Option Int) :=
  let ext_b : Int := b
  let temp : int512_t :=
    if ext_b < 0 then
      ⟨[u64_of_int ext_b, UINT64_MAX, UINT64_MAX, UINT64_MAX,
        UINT64_MAX, UINT64_MAX, UINT64_MAX, UINT64_MAX]⟩
    else ⟨[u64_of_int ext_b, 0, 0, 0, 0, 0, 0, 0]⟩
  match int512_div a temp with
  | none => none
  | some (err, out) =>
    if err = INT512_OK then
      some (err, out.map Prod.fst, out.map (fun p => int8_of_u64 (p.2.words.getD 0 0)))
    else some (err, out.map Prod.fst, none)

/-! ## The iterations of the long division

The body of the loop `for (i = dividend_bits; i >= 0; i--)` of `uint512_div` as a
function of the loop state `(current.words, quotient->words)`, and the state after a
given number of iterations. `uint512_div_loop` above is the same loop run to its end. -/

/-- The first two statements of the iteration for bit `i`: shift `current` left by 1,
then set its lowest bit to bit `i` of the dividend. -/
def uint512_div_shift_in (a : List Nat) (i : Nat) (current : List Nat) : List Nat :=
  let current := shift_left_one current 0
  let word_idx := i / 64
  let bit_idx := i % 64
  if a.getD word_idx 0 &&& ((1 <<< bit_idx) % 2 ^ 64) ≠ 0 then
    current.set 0 (current.getD 0 0 ||| 1)
  else current

/-- The iteration for bit `i` of the long-division loop. -/
def uint512_div_step (a : List Nat) (b : uint512_t) (i : Nat) (st : List Nat × List Nat) :
    List Nat × List Nat :=
  let current := uint512_div_shift_in a i st.1
  let word_idx := i / 64
  let bit_idx := i % 64
  if uint512_compare ⟨current⟩ b ≥ 0 then
    ((uint512_sub ⟨current⟩ b).2.words,
      st.2.set word_idx (st.2.getD word_idx 0 ||| ((1 <<< bit_idx) % 2 ^ 64)))
  else (current, st.2)

/-- The state of the long-division loop after its first `k` iterations, which are those
for the bits `dividend_bits`, `dividend_bits - 1`, ..., `dividend_bits + 1 - k`. -/
def uint512_div_after (a : List Nat) (b : uint512_t) (dividend_bits : Nat) :
    Nat → List Nat × List Nat
  | 0 => (UINT512_ZERO.words, UINT512_ZERO.words)
  | k + 1 => uint512_div_step a b (dividend_bits - k) (uint512_div_after a b dividend_bits k)

/-! ## Basic facts about word arrays -/

theorem wordsVal_lt (ws : List Nat) (h : ∀ w ∈ ws, w < 2 ^ 64) :
    wordsVal ws < 2 ^ (64 * ws.length) := by
  induction ws with
  | nil => simp [wordsVal]
  | cons w ws ih =>
    have hw := h w (List.mem_cons_self _ _)
    have ih1 := ih (fun x hx => h x (List.mem_cons_of_mem _ hx))
    have e : (2:Nat) ^ (64 * (w :: ws).length) = 2 ^ 64 * 2 ^ (64 * ws.length) := by
      rw [List.length_cons, Nat.mul_succ, Nat.pow_add, Nat.mul_comm]
    rw [e]
    simp only [wordsVal]
    nlinarith

theorem WordsWF.val_lt {ws : List Nat} (h : WordsWF ws) : wordsVal ws < 2 ^ 512 := by
  have := wordsVal_lt ws h.2
  rw [h.1] at this
  exact this

theorem pow64_succ (n : Nat) : (2:Nat) ^ (64 * (n + 1)) = 2 ^ 64 * 2 ^ (64 * n) := by
  rw [Nat.mul_succ, Nat.pow_add, Nat.mul_comm]

theorem getD_lt (ws : List Nat) (h : ∀ w ∈ ws, w < 2 ^ 64) (i : Nat) :
    ws.getD i 0 < 2 ^ 64 := by
  by_cases hi : i < ws.length
  · rw [List.getD_eq_getElem _ _ hi]
    exact h _ (List.getElem_mem _)
  · rw [List.getD_eq_default _ _ (Nat.le_of_not_lt hi)]
    exact Nat.two_pow_pos 64

theorem wordsVal_take_succ (ws : List Nat) : ∀ n : Nat,
    wordsVal (ws.take (n + 1)) = wordsVal (ws.take n) + ws.getD n 0 * 2 ^ (64 * n) := by
  induction ws with
  | nil => intro n; simp [wordsVal]
  | cons w ws ih =>
    intro n
    cases n with
    | zero => simp [wordsVal]
    | succ m =>
      simp only [List.take_succ_cons, wordsVal, List.getD_cons_succ]
      rw [ih m, pow64_succ]
      ring

theorem wordsVal_take_lt (ws : List Nat) (h : ∀ w ∈ ws, w < 2 ^ 64) (n : Nat) :
    wordsVal (ws.take n) < 2 ^ (64 * n) := by
  have h1 := wordsVal_lt (ws.take n) (fun w hw => h w (List.mem_of_mem_take hw))
  have h2 : (2:Nat) ^ (64 * (ws.take n).length) ≤ 2 ^ (64 * n) := by
    apply Nat.pow_le_pow_right (by decide)
    have := List.length_take_le n ws
    omega
  omega

theorem wordsVal_set (ws : List Nat) : ∀ (n x : Nat), n < ws.length →
    wordsVal (ws.set n x) + ws.getD n 0 * 2 ^ (64 * n) = wordsVal ws + x * 2 ^ (64 * n) := by
  induction ws with
  | nil => intro n x h; simp at h
  | cons w ws ih =>
    intro n x h
    cases n with
    | zero => simp [wordsVal]; ring
    | succ m =>
      have hm : m < ws.length := by simpa using h
      have := ih m x hm
      simp only [List.set_cons_succ, wordsVal, List.getD_cons_succ]
      rw [pow64_succ]
      nlinarith

theorem set_lt (ws : List Nat) (h : ∀ w ∈ ws, w < 2 ^ 64) (n x : Nat) (hx : x < 2 ^ 64) :
    ∀ w ∈ ws.set n x, w < 2 ^ 64 := by
  intro w hw
  rcases List.mem_or_eq_of_mem_set hw with h1 | h1
  · exact h w h1
  · rw [h1]; exact hx

theorem WordsWF.set {ws : List Nat} (h : WordsWF ws) (n x : Nat) (hx : x < 2 ^ 64) :
    WordsWF (ws.set n x) :=
  ⟨by rw [List.length_set]; exact h.1, set_lt ws h.2 n x hx⟩

theorem wordsVal_inj (a : List Nat) : ∀ (b : List Nat), a.length = b.length →
    (∀ w ∈ a, w < 2 ^ 64) → (∀ w ∈ b, w < 2 ^ 64) → wordsVal a = wordsVal b → a = b := by
  induction a with
  | nil => intro b hl _ _ _; cases b with
    | nil => rfl
    | cons _ _ => simp at hl
  | cons x xs ih =>
    intro b hl ha hb hv
    cases b with
    | nil => simp at hl
    | cons y ys =>
      have hx := ha x (List.mem_cons_self _ _)
      have hy := hb y (List.mem_cons_self _ _)
      simp only [wordsVal] at hv
      have e1 : x = y := by omega
      have e2 : wordsVal xs = wordsVal ys := by omega
      rw [e1, ih ys (by simpa using hl) (fun w hw => ha w (List.mem_cons_of_mem _ hw))
        (fun w hw => hb w (List.mem_cons_of_mem _ hw)) e2]

theorem uint512_t.eq_of_val_eq {a b : uint512_t} (ha : a.WF) (hb : b.WF)
    (h : a.val = b.val) : a = b := by
  cases a with | mk aw => cases b with | mk bw =>
  have := wordsVal_inj aw bw (by rw [ha.1, hb.1]) ha.2 hb.2 h
  rw [this]

theorem wordsVal_eq_zero (ws : List Nat) :
    wordsVal ws = 0 ↔ ∀ w ∈ ws, w = 0 := by
  induction ws with
  | nil => simp [wordsVal]
  | cons w ws ih =>
    simp only [wordsVal, List.mem_cons, forall_eq_or_imp]
    constructor
    · intro h
      have h1 : w = 0 := by omega
      have h2 : wordsVal ws = 0 := by omega
      exact ⟨h1, ih.mp h2⟩
    · rintro ⟨h1, h2⟩
      rw [h1, ih.mpr h2]
      rfl

theorem uint512_is_zero_iff (a : uint512_t) : uint512_is_zero a = true ↔ a.val = 0 := by
  unfold uint512_is_zero uint512_t.val
  rw [wordsVal_eq_zero]
  simp [List.all_eq_true]

theorem wordsVal_zero : wordsVal UINT512_ZERO.words = 0 := by decide

theorem wordsWF_zero : WordsWF UINT512_ZERO.words := by decide

/-! ## Comparison -/

theorem uint512_compare_loop_spec (a b : List Nat) (ha : ∀ w ∈ a, w < 2 ^ 64)
    (hb : ∀ w ∈ b, w < 2 ^ 64) : ∀ n : Nat,
    (wordsVal (a.take n) < wordsVal (b.take n) → uint512_compare_loop a b n = -1) ∧
    (wordsVal (a.take n) = wordsVal (b.take n) → uint512_compare_loop a b n = 0) ∧
    (wordsVal (a.take n) > wordsVal (b.take n) → uint512_compare_loop a b n = 1) := by
  intro n
  induction n with
  | zero => simp [uint512_compare_loop, wordsVal]
  | succ n ih =>
    have ea := wordsVal_take_succ a n
    have eb := wordsVal_take_succ b n
    have la := wordsVal_take_lt a ha n
    have lb := wordsVal_take_lt b hb n
    rw [ea, eb]
    obtain ⟨i1, i2, i3⟩ := ih
    have hp : 0 < 2 ^ (64 * n) := Nat.two_pow_pos _
    simp only [uint512_compare_loop]
    rcases Nat.lt_trichotomy (a.getD n 0) (b.getD n 0) with h | h | h
    · have h1 : ¬ a.getD n 0 > b.getD n 0 := by omega
      have : a.getD n 0 * 2 ^ (64 * n) + 2 ^ (64 * n) ≤ b.getD n 0 * 2 ^ (64 * n) := by
        nlinarith
      rw [if_neg h1, if_pos h]
      refine ⟨fun _ => rfl, fun h2 => ?_, fun h2 => ?_⟩ <;> omega
    · have h1 : ¬ a.getD n 0 > b.getD n 0 := by omega
      have h2 : ¬ a.getD n 0 < b.getD n 0 := by omega
      rw [if_neg h1, if_neg h2, h]
      refine ⟨fun h3 => i1 (by omega), fun h3 => i2 (by omega), fun h3 => i3 (by omega)⟩
    · have : b.getD n 0 * 2 ^ (64 * n) + 2 ^ (64 * n) ≤ a.getD n 0 * 2 ^ (64 * n) := by
        nlinarith
      rw [if_pos h]
      refine ⟨fun h2 => ?_, fun h2 => ?_, fun _ => rfl⟩ <;> omega

theorem uint512_compare_spec (a b : uint512_t) (ha : a.WF) (hb : b.WF) :
    (a.val < b.val → uint512_compare a b = -1) ∧
    (a.val = b.val → uint512_compare a b = 0) ∧
    (a.val > b.val → uint512_compare a b = 1) := by
  have h := uint512_compare_loop_spec a.words b.words ha.2 hb.2 8
  have ea : a.words.take 8 = a.words := List.take_of_length_le (by rw [ha.1])
  have eb : b.words.take 8 = b.words := List.take_of_length_le (by rw [hb.1])
  rw [ea, eb] at h
  exact h

theorem uint512_compare_lt_iff (a b : uint512_t) (ha : a.WF) (hb : b.WF) :
    uint512_compare a b < 0 ↔ a.val < b.val := by
  obtain ⟨h1, h2, h3⟩ := uint512_compare_spec a b ha hb
  rcases Nat.lt_trichotomy a.val b.val with h | h | h
  · simp [h1 h, h]
  · simp [h2 h, h]
  · rw [h3 h]; constructor
    · intro h4; exact absurd h4 (by decide)
    · intro h4; omega

theorem uint512_compare_ge_iff (a b : uint512_t) (ha : a.WF) (hb : b.WF) :
    uint512_compare a b ≥ 0 ↔ a.val ≥ b.val := by
  have := uint512_compare_lt_iff a b ha hb
  constructor
  · intro h; by_contra h1; have := this.mpr (by omega); omega
  · intro h; by_contra h1; have := this.mp (by omega); omega

/-! ## Addition and subtraction -/

theorem add_word (a b c : Nat) (ha : a < 2 ^ 64) (hb : b < 2 ^ 64) (hc : c ≤ 1) :
    let sum := (a + c) % 2 ^ 64
    let carry := if sum < c then 1 else 0
    let sum2 := (sum + b) % 2 ^ 64
    let carry2 := carry + (if sum2 < b then 1 else 0)
    sum2 + 2 ^ 64 * carry2 = a + b + c ∧ carry2 ≤ 1 ∧ sum2 < 2 ^ 64 := by
  intro sum carry sum2 carry2
  simp only [sum, carry, sum2, carry2]
  split_ifs <;> omega

theorem uint512_add_loop_spec (a : List Nat) : ∀ (b : List Nat) (c : Nat),
    a.length = b.length → (∀ w ∈ a, w < 2 ^ 64) → (∀ w ∈ b, w < 2 ^ 64) → c ≤ 1 →
    wordsVal (uint512_add_loop a b c).1 + 2 ^ (64 * a.length) * (uint512_add_loop a b c).2
        = wordsVal a + wordsVal b + c
      ∧ (uint512_add_loop a b c).2 ≤ 1
      ∧ (uint512_add_loop a b c).1.length = a.length
      ∧ ∀ w ∈ (uint512_add_loop a b c).1, w < 2 ^ 64 := by
  induction a with
  | nil =>
    intro b c hl _ _ hc
    cases b with
    | nil => simp [uint512_add_loop, wordsVal, hc]
    | cons _ _ => simp at hl
  | cons x xs ih =>
    intro b c hl ha hb hc
    cases b with
    | nil => simp at hl
    | cons y ys =>
      have hx := ha x (List.mem_cons_self _ _)
      have hy := hb y (List.mem_cons_self _ _)
      obtain ⟨e1, e2, e3⟩ := add_word x y c hx hy hc
      have hl1 : xs.length = ys.length := by simpa using hl
      obtain ⟨i1, i2, i3, i4⟩ := ih ys _ hl1 (fun w hw => ha w (List.mem_cons_of_mem _ hw))
        (fun w hw => hb w (List.mem_cons_of_mem _ hw)) e2
      simp only [uint512_add_loop, wordsVal, List.length_cons]
      refine ⟨?_, i2, by rw [i3], ?_⟩
      · rw [pow64_succ]
        nlinarith
      · intro w hw
        rcases List.mem_cons.mp hw with h | h
        · rw [h]; exact e3
        · exact i4 w h

theorem uint512_add_spec (a b : uint512_t) (ha : a.WF) (hb : b.WF) :
    (uint512_add a b).2.WF ∧
    (uint512_add a b).2.val = (a.val + b.val) % 2 ^ 512 ∧
    ((uint512_add a b).1 = INT512_ERR_OVERFLOW ↔ a.val + b.val ≥ 2 ^ 512) ∧
    ((uint512_add a b).1 = INT512_OK ↔ a.val + b.val < 2 ^ 512) := by
  obtain ⟨h1, h2, h3, h4⟩ := uint512_add_loop_spec a.words b.words 0
    (by rw [ha.1, hb.1]) ha.2 hb.2 (by omega)
  have hwf : WordsWF (uint512_add_loop a.words b.words 0).1 := ⟨by rw [h3, ha.1], h4⟩
  have hlt := hwf.val_lt
  rw [ha.1] at h1
  simp only [uint512_add, uint512_t.val, uint512_t.WF]
  refine ⟨hwf, ?_, ?_, ?_⟩
  · omega
  · by_cases hc : (uint512_add_loop a.words b.words 0).2 = 0
    · simp [hc]; omega
    · simp [hc]; omega
  · by_cases hc : (uint512_add_loop a.words b.words 0).2 = 0
    · simp [hc]; omega
    · simp [hc]; omega

theorem sub_word (a b c : Nat) (ha : a < 2 ^ 64) (hb : b < 2 ^ 64) (hc : c ≤ 1) :
    let diff := (a + 2 ^ 64 - c) % 2 ^ 64
    let borrow := if diff > a then 1 else 0
    let temp := (diff + 2 ^ 64 - b) % 2 ^ 64
    let borrow2 := borrow + (if temp > diff then 1 else 0)
    temp + b + c = a + 2 ^ 64 * borrow2 ∧ borrow2 ≤ 1 ∧ temp < 2 ^ 64 := by
  intro diff borrow temp borrow2
  simp only [diff, borrow, temp, borrow2]
  split_ifs <;> omega

theorem uint512_sub_loop_spec (a : List Nat) : ∀ (b : List Nat) (c : Nat),
    a.length = b.length → (∀ w ∈ a, w < 2 ^ 64) → (∀ w ∈ b, w < 2 ^ 64) → c ≤ 1 →
    wordsVal (uint512_sub_loop a b c).1 + wordsVal b + c
        = wordsVal a + 2 ^ (64 * a.length) * (uint512_sub_loop a b c).2
      ∧ (uint512_sub_loop a b c).2 ≤ 1
      ∧ (uint512_sub_loop a b c).1.length = a.length
      ∧ ∀ w ∈ (uint512_sub_loop a b c).1, w < 2 ^ 64 := by
  induction a with
  | nil =>
    intro b c hl _ _ hc
    cases b with
    | nil => simp [uint512_sub_loop, wordsVal, hc]
    | cons _ _ => simp at hl
  | cons x xs ih =>
    intro b c hl ha hb hc
    cases b with
    | nil => simp at hl
    | cons y ys =>
      have hx := ha x (List.mem_cons_self _ _)
      have hy := hb y (List.mem_cons_self _ _)
      obtain ⟨e1, e2, e3⟩ := sub_word x y c hx hy hc
      have hl1 : xs.length = ys.length := by simpa using hl
      obtain ⟨i1, i2, i3, i4⟩ := ih ys _ hl1 (fun w hw => ha w (List.mem_cons_of_mem _ hw))
        (fun w hw => hb w (List.mem_cons_of_mem _ hw)) e2
      simp only [uint512_sub_loop, wordsVal, List.length_cons]
      refine ⟨?_, i2, by rw [i3], ?_⟩
      · rw [pow64_succ]
        nlinarith
      · intro w hw
        rcases List.mem_cons.mp hw with h | h
        · rw [h]; exact e3
        · exact i4 w h

theorem uint512_sub_spec (a b : uint512_t) (ha : a.WF) (hb : b.WF) :
    (uint512_sub a b).2.WF ∧
    (uint512_sub a b).2.val = (a.val + 2 ^ 512 - b.val) % 2 ^ 512 ∧
    ((uint512_sub a b).1 = INT512_ERR_UNDERFLOW ↔ a.val < b.val) ∧
    ((uint512_sub a b).1 = INT512_OK ↔ b.val ≤ a.val) := by
  obtain ⟨h1, h2, h3, h4⟩ := uint512_sub_loop_spec a.words b.words 0
    (by rw [ha.1, hb.1]) ha.2 hb.2 (by omega)
  have hwf : WordsWF (uint512_sub_loop a.words b.words 0).1 := ⟨by rw [h3, ha.1], h4⟩
  have hlt := hwf.val_lt
  have hla := ha.val_lt
  have hlb := hb.val_lt
  rw [ha.1] at h1
  simp only [uint512_sub, uint512_t.val, uint512_t.WF]
  refine ⟨hwf, ?_, ?_, ?_⟩
  · omega
  · by_cases hc : (uint512_sub_loop a.words b.words 0).2 = 0
    · simp [hc]; omega
    · simp [hc]; omega
  · by_cases hc : (uint512_sub_loop a.words b.words 0).2 = 0
    · simp [hc]; omega
    · simp [hc]; omega

/-! ## Multiplication -/

theorem wordsVal_take_add_drop (ws : List Nat) : ∀ n : Nat,
    wordsVal ws = wordsVal (ws.take n) + 2 ^ (64 * n) * wordsVal (ws.drop n) := by
  induction ws with
  | nil => intro n; simp [wordsVal]
  | cons w ws ih =>
    intro n
    cases n with
    | zero => simp [wordsVal]
    | succ m =>
      simp only [List.take_succ_cons, List.drop_succ_cons, wordsVal]
      rw [pow64_succ]
      have := ih m
      nlinarith

theorem wordsVal_take_mono (ws : List Nat) (m n : Nat) (h : m ≤ n) :
    wordsVal (ws.take m) ≤ wordsVal (ws.take n) := by
  induction n with
  | zero =>
    have : m = 0 := by omega
    rw [this]
  | succ k ih =>
    rcases Nat.lt_or_ge m (k + 1) with h1 | h1
    · have := ih (by omega)
      rw [wordsVal_take_succ]
      omega
    · have : m = k + 1 := by omega
      rw [this]

theorem mul_inner_step (a temp : List Nat) (bi i j c : Nat) (ov : Bool)
    (ht : WordsWF temp) (ha : ∀ w ∈ a, w < 2 ^ 64) (hbi : bi < 2 ^ 64) (hc : c < 2 ^ 64)
    (hij : i + j < 8) :
    WordsWF (uint512_mul_inner a bi i (temp, c, ov) j).1 ∧
    (uint512_mul_inner a bi i (temp, c, ov) j).2.1 < 2 ^ 64 ∧
    (uint512_mul_inner a bi i (temp, c, ov) j).2.2 = ov ∧
    wordsVal (uint512_mul_inner a bi i (temp, c, ov) j).1
        + (uint512_mul_inner a bi i (temp, c, ov) j).2.1 * 2 ^ (64 * (i + j + 1))
      = wordsVal temp + c * 2 ^ (64 * (i + j)) + a.getD j 0 * bi * 2 ^ (64 * (i + j)) := by
  have hnot : ¬ (i + j ≥ 8) := by omega
  simp only [uint512_mul_inner, if_neg hnot]
  have haj := getD_lt a ha j
  have htj := getD_lt temp ht.2 (i + j)
  have hp : a.getD j 0 * bi ≤ (2 ^ 64 - 1) * (2 ^ 64 - 1) :=
    Nat.mul_le_mul (by omega) (by omega)
  generalize a.getD j 0 * bi = p at hp ⊢
  have hset := wordsVal_set temp (i + j) ((p + temp.getD (i + j) 0 + c) % 2 ^ 128 % 2 ^ 64)
    (by rw [ht.1]; exact hij)
  generalize temp.getD (i + j) 0 = t at htj hset ⊢
  have hprod : (p + t + c) % 2 ^ 128 = p + t + c := Nat.mod_eq_of_lt (by omega)
  rw [hprod] at hset ⊢
  rw [Nat.shiftRight_eq_div_pow]
  have hq : (p + t + c) / 2 ^ 64 % 2 ^ 64 = (p + t + c) / 2 ^ 64 :=
    Nat.mod_eq_of_lt (by omega)
  rw [hq]
  refine ⟨ht.set _ _ (Nat.mod_lt _ (by decide)), by omega, trivial, ?_⟩
  have hdm := Nat.div_add_mod (p + t + c) (2 ^ 64)
  rw [pow64_succ]
  generalize (p + t + c) / 2 ^ 64 = q at hdm ⊢
  generalize (p + t + c) % 2 ^ 64 = r at hdm hset ⊢
  generalize wordsVal (temp.set (i + j) r) = v1 at hset ⊢
  generalize 2 ^ (64 * (i + j)) = B at hset ⊢
  have e1 : q * (2 ^ 64 * B) + r * B = (p + t + c) * B := by
    rw [← hdm]; ring
  have e2 : (p + t + c) * B = p * B + t * B + c * B := by ring
  omega

/-- The inner loop of `uint512_mul` on the in-range positions `j < n`, `i + n ≤ 8`. -/
theorem mul_inner_low (a temp : List Nat) (bi i : Nat) (ov : Bool)
    (ht : WordsWF temp) (ha : ∀ w ∈ a, w < 2 ^ 64) (hbi : bi < 2 ^ 64) :
    ∀ n : Nat, i + n ≤ 8 →
    WordsWF ((List.range n).foldl (uint512_mul_inner a bi i) (temp, 0, ov)).1 ∧
    ((List.range n).foldl (uint512_mul_inner a bi i) (temp, 0, ov)).2.1 < 2 ^ 64 ∧
    ((List.range n).foldl (uint512_mul_inner a bi i) (temp, 0, ov)).2.2 = ov ∧
    wordsVal ((List.range n).foldl (uint512_mul_inner a bi i) (temp, 0, ov)).1
        + ((List.range n).foldl (uint512_mul_inner a bi i) (temp, 0, ov)).2.1
            * 2 ^ (64 * (i + n))
      = wordsVal temp + wordsVal (a.take n) * bi * 2 ^ (64 * i) := by
  intro n
  induction n with
  | zero =>
    intro _
    simp [wordsVal, ht]
  | succ n ih =>
    intro hn
    obtain ⟨i1, i2, i3, i4⟩ := ih (by omega)
    rw [List.range_succ, List.foldl_append]
    simp only [List.foldl_cons, List.foldl_nil]
    generalize (List.range n).foldl (uint512_mul_inner a bi i) (temp, 0, ov) = st at i1 i2 i3 i4 ⊢
    obtain ⟨t1, c1, o1⟩ := st
    simp only at i1 i2 i3 i4
    obtain ⟨s1, s2, s3, s4⟩ := mul_inner_step a t1 bi i n c1 o1 i1 ha hbi i2 (by omega)
    refine ⟨s1, s2, by rw [s3, i3], ?_⟩
    have e0 : i + (n + 1) = i + n + 1 := by omega
    rw [e0, s4, wordsVal_take_succ]
    have e1 : (2:Nat) ^ (64 * (i + n)) = 2 ^ (64 * n) * 2 ^ (64 * i) := by
      have e : 64 * (i + n) = 64 * n + 64 * i := by omega
      rw [e, Nat.pow_add]
    rw [e1] at i4 ⊢
    have e2 : (wordsVal (a.take n) + a.getD n 0 * 2 ^ (64 * n)) * bi * 2 ^ (64 * i)
        = wordsVal (a.take n) * bi * 2 ^ (64 * i)
          + a.getD n 0 * bi * (2 ^ (64 * n) * 2 ^ (64 * i)) := by ring
    rw [e2]
    omega

/-- The inner loop of `uint512_mul` on the out-of-range positions. -/
theorem mul_inner_high (a : List Nat) (bi i : Nat) (st : List Nat × Nat × Bool) :
    ∀ k : Nat,
    ((List.range (8 - i + k)).foldl (uint512_mul_inner a bi i) st).1
      = ((List.range (8 - i)).foldl (uint512_mul_inner a bi i) st).1 ∧
    ((List.range (8 - i + k)).foldl (uint512_mul_inner a bi i) st).2.1
      = ((List.range (8 - i)).foldl (uint512_mul_inner a bi i) st).2.1 ∧
    (((List.range (8 - i + k)).foldl (uint512_mul_inner a bi i) st).2.2 = true ↔
      (((List.range (8 - i)).foldl (uint512_mul_inner a bi i) st).2.2 = true ∨
        wordsVal (a.take (8 - i)) < wordsVal (a.take (8 - i + k)))) := by
  intro k
  induction k with
  | zero => simp
  | succ k ih =>
    obtain ⟨i1, i2, i3⟩ := ih
    have e : 8 - i + (k + 1) = (8 - i + k) + 1 := by omega
    rw [e, List.range_succ, List.foldl_append]
    simp only [List.foldl_cons, List.foldl_nil]
    have hge : i + (8 - i + k) ≥ 8 := by omega
    simp only [uint512_mul_inner, if_pos hge]
    refine ⟨i1, i2, ?_⟩
    rw [wordsVal_take_succ]
    have hm := wordsVal_take_mono a (8 - i) (8 - i + k) (by omega)
    have hp : 0 < 2 ^ (64 * (8 - i + k)) := Nat.two_pow_pos _
    by_cases hz : a.getD (8 - i + k) 0 = 0
    · simp only [hz, ne_eq, not_true_eq_false, if_false, Nat.zero_mul, Nat.add_zero]
      exact i3
    · simp only [ne_eq, hz, not_false_eq_true, if_true, true_iff]
      right
      have : 0 < a.getD (8 - i + k) 0 * 2 ^ (64 * (8 - i + k)) :=
        Nat.mul_pos (Nat.pos_of_ne_zero hz) hp
      omega

/-- One row of `uint512_mul` with a non-zero word of `b`. -/
theorem mul_row (a temp : List Nat) (bi i : Nat) (ov : Bool)
    (ht : WordsWF temp) (ha : WordsWF a) (hbi : bi < 2 ^ 64) (hi : i < 8) :
    ∃ c : Nat,
    WordsWF ((List.range 8).foldl (uint512_mul_inner a bi i) (temp, 0, ov)).1 ∧
    ((List.range 8).foldl (uint512_mul_inner a bi i) (temp, 0, ov)).2.1 = c ∧
    wordsVal ((List.range 8).foldl (uint512_mul_inner a bi i) (temp, 0, ov)).1 + c * 2 ^ 512
      = wordsVal temp + wordsVal (a.take (8 - i)) * bi * 2 ^ (64 * i) ∧
    (((List.range 8).foldl (uint512_mul_inner a bi i) (temp, 0, ov)).2.2 = true ↔
      (ov = true ∨ wordsVal (a.take (8 - i)) < wordsVal a)) := by
  obtain ⟨l1, l2, l3, l4⟩ := mul_inner_low a temp bi i ov ht ha.2 hbi (8 - i) (by omega)
  obtain ⟨h1, h2, h3⟩ := mul_inner_high a bi i (temp, 0, ov) i
  have e8 : 8 - i + i = 8 := by omega
  have e9 : i + (8 - i) = 8 := by omega
  have ea : a.take 8 = a := List.take_of_length_le (by rw [ha.1])
  rw [e8] at h1 h2 h3
  rw [ea] at h3
  rw [e9] at l4
  refine ⟨_, ?_, rfl, ?_, ?_⟩
  · rw [h1]; exact l1
  · rw [h1, h2]; exact l4
  · rw [h3, l3]

theorem mul_outer_step (a b : List Nat) (ha : WordsWF a) (hb : ∀ w ∈ b, w < 2 ^ 64)
    (temp : List Nat) (ov : Bool) (n : Nat) (hn : n < 8) (ht : WordsWF temp)
    (hv : wordsVal temp = (wordsVal a * wordsVal (b.take n)) % 2 ^ 512)
    (ho : ov = true ↔ wordsVal a * wordsVal (b.take n) ≥ 2 ^ 512) :
    WordsWF (uint512_mul_outer a b (temp, ov) n).1 ∧
    wordsVal (uint512_mul_outer a b (temp, ov) n).1
      = (wordsVal a * wordsVal (b.take (n + 1))) % 2 ^ 512 ∧
    ((uint512_mul_outer a b (temp, ov) n).2 = true ↔
      wordsVal a * wordsVal (b.take (n + 1)) ≥ 2 ^ 512) := by
  rw [wordsVal_take_succ]
  by_cases hz : b.getD n 0 = 0
  · simp only [uint512_mul_outer, if_pos hz, hz, Nat.zero_mul, Nat.add_zero]
    exact ⟨ht, hv, ho⟩
  · simp only [uint512_mul_outer, if_neg hz]
    have hbi := getD_lt b hb n
    obtain ⟨c, r1, r2, r3, r4⟩ := mul_row a temp (b.getD n 0) n ov ht ha hbi hn
    have hsplit := wordsVal_take_add_drop a (8 - n)
    have hlt := r1.val_lt
    have e512 : (2:Nat) ^ 512 = 2 ^ (64 * (8 - n)) * 2 ^ (64 * n) := by
      rw [← Nat.pow_add]
      have e : 64 * (8 - n) + 64 * n = 512 := by omega
      rw [e]
    have key : wordsVal a * (wordsVal (b.take n) + b.getD n 0 * 2 ^ (64 * n))
        = wordsVal a * wordsVal (b.take n)
          + wordsVal (a.take (8 - n)) * b.getD n 0 * 2 ^ (64 * n)
          + 2 ^ 512 * (wordsVal (a.drop (8 - n)) * b.getD n 0) := by
      rw [e512]
      generalize (2:Nat) ^ (64 * (8 - n)) = E1 at hsplit
      generalize (2:Nat) ^ (64 * n) = E2
      have e1 : wordsVal a * (b.getD n 0 * E2)
          = wordsVal (a.take (8 - n)) * b.getD n 0 * E2
            + E1 * E2 * (wordsVal (a.drop (8 - n)) * b.getD n 0) := by
        rw [hsplit]; ring
      rw [Nat.mul_add, e1, Nat.add_assoc]
    have hY : (0 < wordsVal (a.drop (8 - n)) * b.getD n 0) ↔
        wordsVal (a.take (8 - n)) < wordsVal a := by
      constructor
      · intro h
        have h1 : 0 < wordsVal (a.drop (8 - n)) := Nat.pos_of_mul_pos_right h
        have h2 : 0 < 2 ^ (64 * (8 - n)) * wordsVal (a.drop (8 - n)) :=
          Nat.mul_pos (Nat.two_pow_pos _) h1
        omega
      · intro h
        have h1 : wordsVal (a.drop (8 - n)) ≠ 0 := by
          intro h0
          rw [h0] at hsplit
          omega
        exact Nat.mul_pos (Nat.pos_of_ne_zero h1) (Nat.pos_of_ne_zero hz)
    rw [key, r2]
    generalize wordsVal (a.drop (8 - n)) * b.getD n 0 = Y at hY ⊢
    generalize wordsVal (a.take (8 - n)) * b.getD n 0 * 2 ^ (64 * n) = X at r3 ⊢
    generalize wordsVal a * wordsVal (b.take n) = P at hv ho ⊢
    generalize wordsVal ((List.range 8).foldl (uint512_mul_inner a (b.getD n 0) n)
      (temp, 0, ov)).1 = V1 at r3 hlt ⊢
    generalize wordsVal temp = V0 at r3 hv
    refine ⟨r1, ?_, ?_⟩
    · omega
    · by_cases hc : c = 0
      · simp only [hc, ne_eq, not_true_eq_false, if_false, r4]
        rw [ho, ← hY]
        omega
      · simp only [ne_eq, hc, not_false_eq_true, if_true, true_iff]
        have hc1 : 1 ≤ c := Nat.pos_of_ne_zero hc
        have : 2 ^ 512 ≤ c * 2 ^ 512 := Nat.le_mul_of_pos_left _ hc1
        omega

theorem mul_outer_loop (a b : List Nat) (ha : WordsWF a) (hb : ∀ w ∈ b, w < 2 ^ 64) :
    ∀ n : Nat, n ≤ 8 →
    WordsWF ((List.range n).foldl (uint512_mul_outer a b) (UINT512_ZERO.words, false)).1 ∧
    wordsVal ((List.range n).foldl (uint512_mul_outer a b) (UINT512_ZERO.words, false)).1
      = (wordsVal a * wordsVal (b.take n)) % 2 ^ 512 ∧
    (((List.range n).foldl (uint512_mul_outer a b) (UINT512_ZERO.words, false)).2 = true ↔
      wordsVal a * wordsVal (b.take n) ≥ 2 ^ 512) := by
  intro n
  induction n with
  | zero =>
    intro _
    refine ⟨wordsWF_zero, ?_, ?_⟩
    · simp only [List.range_zero, List.foldl_nil, List.take_zero]
      rw [wordsVal_zero]
      simp [wordsVal]
    · simp [wordsVal]
  | succ n ih =>
    intro hn
    obtain ⟨i1, i2, i3⟩ := ih (by omega)
    rw [List.range_succ, List.foldl_append]
    simp only [List.foldl_cons, List.foldl_nil]
    generalize (List.range n).foldl (uint512_mul_outer a b) (UINT512_ZERO.words, false) = st
      at i1 i2 i3 ⊢
    obtain ⟨t, o⟩ := st
    exact mul_outer_step a b ha hb t o n (by omega) i1 i2 i3

theorem uint512_mul_spec (a b : uint512_t) (ha : a.WF) (hb : b.WF) :
    (uint512_mul a b).2.WF ∧
    (uint512_mul a b).2.val = (a.val * b.val) % 2 ^ 512 ∧
    ((uint512_mul a b).1 = INT512_ERR_OVERFLOW ↔ a.val * b.val ≥ 2 ^ 512) ∧
    ((uint512_mul a b).1 = INT512_OK ↔ a.val * b.val < 2 ^ 512) := by
  obtain ⟨h1, h2, h3⟩ := mul_outer_loop a.words b.words ha hb.2 8 (by omega)
  have eb : b.words.take 8 = b.words := List.take_of_length_le (by rw [hb.1])
  rw [eb] at h2 h3
  simp only [uint512_mul, uint512_t.val, uint512_t.WF]
  refine ⟨h1, h2, ?_, ?_⟩
  · rw [← h3]
    cases ((List.range 8).foldl (uint512_mul_outer a.words b.words)
      (UINT512_ZERO.words, false)).2 <;> simp
  · rw [← Nat.not_le, ← ge_iff_le, ← h3]
    cases ((List.range 8).foldl (uint512_mul_outer a.words b.words)
      (UINT512_ZERO.words, false)).2 <;> simp

/-! ## Bit-level facts -/

theorem bit_mask (k : Nat) (hk : k < 64) : (1 <<< k) % 2 ^ 64 = 2 ^ k := by
  rw [Nat.one_shiftLeft]
  exact Nat.mod_eq_of_lt (Nat.pow_lt_pow_right (by decide) hk)

theorem and_mask_ne_zero (w k : Nat) (hk : k < 64) :
    (w &&& ((1 <<< k) % 2 ^ 64) ≠ 0) ↔ w.testBit k = true := by
  rw [bit_mask k hk, Nat.and_two_pow]
  have hp : 0 < 2 ^ k := Nat.two_pow_pos k
  cases h : w.testBit k
  · simp
  · simp

theorem getD_eq_div_mod (ws : List Nat) (h : ∀ w ∈ ws, w < 2 ^ 64) : ∀ k : Nat,
    ws.getD k 0 = wordsVal ws / 2 ^ (64 * k) % 2 ^ 64 := by
  induction ws with
  | nil => intro k; simp [wordsVal]
  | cons w ws ih =>
    intro k
    have hw := h w (List.mem_cons_self _ _)
    cases k with
    | zero =>
      simp only [List.getD_cons_zero, wordsVal, Nat.mul_zero, Nat.pow_zero, Nat.div_one]
      omega
    | succ m =>
      simp only [List.getD_cons_succ, wordsVal]
      rw [ih (fun x hx => h x (List.mem_cons_of_mem _ hx)) m, pow64_succ,
        ← Nat.div_div_eq_div_mul]
      congr 2
      omega

theorem testBit_getD (ws : List Nat) (h : ∀ w ∈ ws, w < 2 ^ 64) (i : Nat) :
    (ws.getD (i / 64) 0).testBit (i % 64) = (wordsVal ws).testBit i := by
  rw [getD_eq_div_mod ws h, Nat.testBit_mod_two_pow, ← Nat.shiftRight_eq_div_pow,
    Nat.testBit_shiftRight]
  have h1 : i % 64 < 64 := Nat.mod_lt _ (by decide)
  have h2 : 64 * (i / 64) + i % 64 = i := Nat.div_add_mod i 64
  simp [h1, h2]

theorem div_pow_succ (v i : Nat) :
    v / 2 ^ i = 2 * (v / 2 ^ (i + 1)) + (if v.testBit i then 1 else 0) := by
  rw [Nat.testBit_to_div_mod, Nat.pow_succ, ← Nat.div_div_eq_div_mul]
  by_cases h : v / 2 ^ i % 2 = 1
  · simp [h]; omega
  · simp [h]; omega

theorem or_pow_of_testBit_false (w r : Nat) (h : w.testBit r = false) :
    w ||| 2 ^ r = w + 2 ^ r := by
  have hl : w % 2 ^ (r + 1) < 2 ^ r := by
    have h1 := @Nat.testBit_to_div_mod r w
    rw [h] at h1
    have h2 : ¬ (w / 2 ^ r % 2 = 1) := by
      intro h3; rw [h3] at h1; simp at h1
    have h4 : w % 2 ^ (r + 1) = w % 2 ^ r + 2 ^ r * (w / 2 ^ r % 2) := by
      rw [Nat.pow_succ]; exact Nat.mod_mul
    have h5 : w / 2 ^ r % 2 = 0 := by omega
    rw [h4, h5]
    have := Nat.mod_lt w (Nat.two_pow_pos r)
    omega
  have hd : 2 ^ (r + 1) * (w / 2 ^ (r + 1)) + w % 2 ^ (r + 1) = w := Nat.div_add_mod _ _
  generalize w / 2 ^ (r + 1) = hi at hd
  generalize w % 2 ^ (r + 1) = lo at hd hl
  have e1 : 2 ^ r * 1 + lo = 2 ^ r * 1 ||| lo := Nat.mul_add_lt_is_or hl 1
  have hlo2 : 2 ^ r * 1 + lo < 2 ^ (r + 1) := by rw [Nat.pow_succ]; omega
  have e2 := Nat.mul_add_lt_is_or hlo2 hi
  have hlo3 : lo < 2 ^ (r + 1) := by rw [Nat.pow_succ]; omega
  have e3 := Nat.mul_add_lt_is_or hlo3 hi
  rw [← hd, e3, Nat.or_assoc, Nat.or_comm lo, ← Nat.mul_one (2 ^ r), ← e1, ← e2]
  omega

theorem lt_pow_of_testBit_false (x r : Nat) (h1 : x < 2 ^ (r + 1)) (h2 : x.testBit r = false) :
    x < 2 ^ r := by
  have h3 := @Nat.testBit_to_div_mod r x
  rw [h2] at h3
  have h4 : ¬ (x / 2 ^ r % 2 = 1) := by
    intro h5; rw [h5] at h3; simp at h3
  have h6 : x / 2 ^ r < 2 := by
    apply Nat.div_lt_of_lt_mul
    rw [Nat.pow_succ] at h1
    exact h1
  have h7 : x / 2 ^ r = 0 := by
    generalize x / 2 ^ r = y at h4 h6
    omega
  exact (Nat.div_eq_zero_iff (Nat.two_pow_pos r)).mp h7

/-! ## Division -/

theorem shift_word (w c : Nat) (hw : w < 2 ^ 64) (hc : c ≤ 1) :
    (((w <<< 1) % 2 ^ 64) ||| c) + 2 ^ 64 * (w >>> 63) = 2 * w + c ∧
    (((w <<< 1) % 2 ^ 64) ||| c) < 2 ^ 64 ∧ w >>> 63 ≤ 1 := by
  rw [Nat.shiftLeft_eq, Nat.shiftRight_eq_div_pow]
  have e1 : w * 2 ^ 1 % 2 ^ 64 = 2 ^ 1 * (w % 2 ^ 63) := by omega
  have e2 : 2 ^ 1 * (w % 2 ^ 63) + c = 2 ^ 1 * (w % 2 ^ 63) ||| c :=
    Nat.mul_add_lt_is_or (by omega) _
  rw [e1, ← e2]
  omega

theorem shift_left_one_spec (ws : List Nat) : ∀ c : Nat, (∀ w ∈ ws, w < 2 ^ 64) → c ≤ 1 →
    (shift_left_one ws c).length = ws.length ∧
    (∀ w ∈ shift_left_one ws c, w < 2 ^ 64) ∧
    ∃ top : Nat, wordsVal (shift_left_one ws c) + 2 ^ (64 * ws.length) * top
      = 2 * wordsVal ws + c := by
  induction ws with
  | nil =>
    intro c _ _
    refine ⟨rfl, by simp [shift_left_one], c, ?_⟩
    simp [shift_left_one, wordsVal]
  | cons w ws ih =>
    intro c h hc
    have hw := h w (List.mem_cons_self _ _)
    obtain ⟨s1, s2, s3⟩ := shift_word w c hw hc
    obtain ⟨i1, i2, top, i3⟩ := ih (w >>> 63) (fun x hx => h x (List.mem_cons_of_mem _ hx)) s3
    simp only [shift_left_one, List.length_cons, wordsVal]
    refine ⟨by rw [i1], ?_, top, ?_⟩
    · intro x hx
      rcases List.mem_cons.mp hx with h1 | h1
      · rw [h1]; exact s2
      · exact i2 x h1
    · rw [pow64_succ]
      nlinarith

/-- Shifting `current` left by one bit and injecting the next dividend bit. -/
theorem shift_inject (cur : List Nat) (hc : WordsWF cur) (bit : Bool)
    (hlt : 2 * wordsVal cur + 1 < 2 ^ 512) :
    WordsWF (if bit then (shift_left_one cur 0).set 0 ((shift_left_one cur 0).getD 0 0 ||| 1)
      else shift_left_one cur 0) ∧
    wordsVal (if bit then (shift_left_one cur 0).set 0 ((shift_left_one cur 0).getD 0 0 ||| 1)
      else shift_left_one cur 0) = 2 * wordsVal cur + (if bit then 1 else 0) := by
  obtain ⟨s1, s2, top, s3⟩ := shift_left_one_spec cur 0 hc.2 (by omega)
  rw [hc.1] at s1 s3
  have hwf : WordsWF (shift_left_one cur 0) := ⟨s1, s2⟩
  have hv := hwf.val_lt
  have hval : wordsVal (shift_left_one cur 0) = 2 * wordsVal cur := by omega
  cases bit
  · simp only [Bool.false_eq_true, if_false, Nat.add_zero]
    exact ⟨hwf, hval⟩
  · simp only [if_true]
    have heven : (shift_left_one cur 0).getD 0 0 % 2 = 0 := by
      have e := getD_eq_div_mod _ s2 0
      simp only [Nat.mul_zero, Nat.pow_zero, Nat.div_one] at e
      rw [e, hval]
      omega
    have hb := getD_lt _ s2 0
    have hor : (shift_left_one cur 0).getD 0 0 ||| 1 = (shift_left_one cur 0).getD 0 0 + 1 := by
      have h1 : ((shift_left_one cur 0).getD 0 0).testBit 0 = false := by
        rw [Nat.testBit_to_div_mod, Nat.pow_zero, Nat.div_one, heven]
        rfl
      have := or_pow_of_testBit_false _ 0 h1
      simpa using this
    have hset := wordsVal_set (shift_left_one cur 0) 0 ((shift_left_one cur 0).getD 0 0 + 1)
      (by rw [s1]; decide)
    rw [hor]
    refine ⟨hwf.set _ _ (by omega), ?_⟩
    simp only [Nat.mul_zero, Nat.pow_zero, Nat.mul_one] at hset
    omega

theorem highest_bit_scan_spec (word : Nat) (hw : word ≠ 0) : ∀ p : Nat,
    word < 2 ^ (p % 64 + 1) →
    ∃ s : Nat, s ≤ p % 64 ∧ highest_bit_scan word p = some (p - p % 64 + s) ∧
      2 ^ s ≤ word ∧ word < 2 ^ (s + 1) := by
  intro p
  induction p with
  | zero =>
    intro h
    have h1 : word = 1 := by
      simp only [Nat.zero_mod, Nat.zero_add, Nat.pow_one] at h
      omega
    refine ⟨0, by simp, ?_, by rw [h1]; decide, by rw [h1]; decide⟩
    rw [h1]
    decide
  | succ p ih =>
    intro h
    have hk : (p + 1) % 64 < 64 := Nat.mod_lt _ (by decide)
    by_cases ht : word.testBit ((p + 1) % 64) = true
    · refine ⟨(p + 1) % 64, Nat.le_refl _, ?_, Nat.testBit_implies_ge ht, h⟩
      have := (and_mask_ne_zero word ((p + 1) % 64) hk).mpr ht
      simp only [highest_bit_scan, if_pos this]
      congr 1
      omega
    · have ht1 : word.testBit ((p + 1) % 64) = false := by simpa using ht
      have hlt := lt_pow_of_testBit_false word _ h ht1
      have hne : (p + 1) % 64 ≠ 0 := by
        intro h0
        rw [h0] at hlt
        simp at hlt
        exact hw hlt
      have hp : p % 64 + 1 = (p + 1) % 64 := by omega
      obtain ⟨s, s1, s2, s3, s4⟩ := ih (by rw [hp]; exact hlt)
      have := mt (and_mask_ne_zero word ((p + 1) % 64) hk).mp ht
      refine ⟨s, by omega, ?_, s3, s4⟩
      simp only [highest_bit_scan, if_neg this, s2]
      congr 1
      omega

theorem highest_bit_spec (ws : List Nat) (h : ∀ w ∈ ws, w < 2 ^ 64) : ∀ n : Nat,
    wordsVal (ws.take n) ≠ 0 →
    ∃ d : Nat, highest_bit ws n = some d ∧ d < 64 * n ∧
      2 ^ d ≤ wordsVal (ws.take n) ∧ wordsVal (ws.take n) < 2 ^ (d + 1) := by
  intro n
  induction n with
  | zero => intro h0; simp [wordsVal] at h0
  | succ n ih =>
    intro h0
    rw [wordsVal_take_succ] at h0 ⊢
    by_cases hz : ws.getD n 0 = 0
    · rw [hz] at h0 ⊢
      simp only [Nat.zero_mul, Nat.add_zero] at h0 ⊢
      obtain ⟨d, d1, d2, d3, d4⟩ := ih h0
      refine ⟨d, ?_, by omega, d3, d4⟩
      simp only [highest_bit, hz, ne_eq, not_true_eq_false, if_false]
      exact d1
    · have hb := getD_lt ws h n
      have e63 : (n * 64 + 63) % 64 = 63 := by omega
      obtain ⟨s, s1, s2, s3, s4⟩ := highest_bit_scan_spec (ws.getD n 0) hz (n * 64 + 63)
        (by rw [e63]; exact hb)
      rw [e63] at s1 s2
      have hl := wordsVal_take_lt ws h n
      refine ⟨64 * n + s, ?_, by omega, ?_, ?_⟩
      · simp only [highest_bit, ne_eq, hz, not_false_eq_true, if_true, s2]
        congr 1
        omega
      · rw [Nat.pow_add]
        have : 2 ^ 64 ^ n * 2 ^ s ≤ 2 ^ 64 ^ n * ws.getD n 0 := Nat.mul_le_mul_left _ s3
        have e : (2:Nat) ^ (64 * n) * 2 ^ s ≤ ws.getD n 0 * 2 ^ (64 * n) := by
          rw [Nat.mul_comm]
          exact Nat.mul_le_mul_right _ s3
        omega
      · have e : (2:Nat) ^ (64 * n + s + 1) = 2 ^ (s + 1) * 2 ^ (64 * n) := by
          rw [Nat.add_assoc, Nat.pow_add, Nat.mul_comm]
        rw [e]
        have : (ws.getD n 0 + 1) * 2 ^ (64 * n) ≤ 2 ^ (s + 1) * 2 ^ (64 * n) :=
          Nat.mul_le_mul_right _ s4
        have e2 : (ws.getD n 0 + 1) * 2 ^ (64 * n)
            = ws.getD n 0 * 2 ^ (64 * n) + 2 ^ (64 * n) := by ring
        omega

theorem set_quotient_bit (q : List Nat) (hq : WordsWF q) (i m : Nat) (hi : i < 512)
    (hv : wordsVal q = 2 ^ (i + 1) * m) :
    WordsWF (q.set (i / 64) (q.getD (i / 64) 0 ||| ((1 <<< (i % 64)) % 2 ^ 64))) ∧
    wordsVal (q.set (i / 64) (q.getD (i / 64) 0 ||| ((1 <<< (i % 64)) % 2 ^ 64)))
      = wordsVal q + 2 ^ i := by
  have hr : i % 64 < 64 := Nat.mod_lt _ (by decide)
  rw [bit_mask _ hr]
  have hbit : (q.getD (i / 64) 0).testBit (i % 64) = false := by
    rw [testBit_getD q hq.2, hv, Nat.testBit_mul_pow_two]
    simp
  rw [or_pow_of_testBit_false _ _ hbit]
  have hlt : q.getD (i / 64) 0 + 2 ^ (i % 64) < 2 ^ 64 := by
    rw [← or_pow_of_testBit_false _ _ hbit]
    exact Nat.or_lt_two_pow (getD_lt q hq.2 _) (Nat.pow_lt_pow_right (by decide) hr)
  have hset := wordsVal_set q (i / 64) (q.getD (i / 64) 0 + 2 ^ (i % 64))
    (by rw [hq.1]; omega)
  refine ⟨hq.set _ _ hlt, ?_⟩
  have e : (2:Nat) ^ (i % 64) * 2 ^ (64 * (i / 64)) = 2 ^ i := by
    rw [← Nat.pow_add]
    congr 1
    omega
  rw [Nat.add_mul, e] at hset
  omega

theorem uint512_div_loop_spec (a : List Nat) (b : uint512_t) (ha : WordsWF a) (hb : b.WF)
    (B : Nat) (hB : wordsVal b.words = B) (hb0 : 0 < B) :
    ∀ (n : Nat) (cur q : List Nat), n ≤ 512 →
    WordsWF cur → WordsWF q →
    wordsVal cur = (wordsVal a / 2 ^ n) % B →
    wordsVal q = 2 ^ n * ((wordsVal a / 2 ^ n) / B) →
    WordsWF (uint512_div_loop a b n (cur, q)).1 ∧
    WordsWF (uint512_div_loop a b n (cur, q)).2 ∧
    wordsVal (uint512_div_loop a b n (cur, q)).1 = wordsVal a % B ∧
    wordsVal (uint512_div_loop a b n (cur, q)).2 = wordsVal a / B := by
  intro n
  induction n with
  | zero =>
    intro cur q _ hc hq hvc hvq
    simp only [Nat.pow_zero, Nat.div_one, Nat.one_mul] at hvc hvq
    exact ⟨hc, hq, hvc, hvq⟩
  | succ i ih =>
    intro cur q hn hc hq hvc hvq
    have hA := div_pow_succ (wordsVal a) i
    have hla := ha.val_lt
    have hA1 : wordsVal a / 2 ^ (i + 1) < 2 ^ 511 := by
      apply Nat.div_lt_of_lt_mul
      have : (2:Nat) ^ 1 ≤ 2 ^ (i + 1) := Nat.pow_le_pow_right (by decide) (by omega)
      have h2 : (2:Nat) ^ 1 * 2 ^ 511 ≤ 2 ^ (i + 1) * 2 ^ 511 := Nat.mul_le_mul_right _ this
      omega
    obtain ⟨A1, hA1def⟩ : ∃ A1, A1 = wordsVal a / 2 ^ (i + 1) := ⟨_, rfl⟩
    obtain ⟨A0, hA0def⟩ : ∃ A0, A0 = wordsVal a / 2 ^ i := ⟨_, rfl⟩
    rw [← hA1def] at hA hA1 hvc hvq
    rw [← hA0def] at hA
    have hdm := Nat.div_add_mod A1 B
    have hml := Nat.mod_lt A1 hb0
    have hmle := Nat.mod_le A1 B
    have hr : i % 64 < 64 := Nat.mod_lt _ (by decide)
    obtain ⟨s1, s2⟩ := shift_inject cur hc ((wordsVal a).testBit i) (by omega)
    have hcond : (a.getD (i / 64) 0 &&& ((1 <<< (i % 64)) % 2 ^ 64) ≠ 0)
        ↔ (wordsVal a).testBit i = true := by
      rw [and_mask_ne_zero _ _ hr, testBit_getD a ha.2]
    simp only [uint512_div_loop]
    rw [if_congr hcond rfl rfl]
    generalize (if (wordsVal a).testBit i = true then
        (shift_left_one cur 0).set 0 ((shift_left_one cur 0).getD 0 0 ||| 1)
      else shift_left_one cur 0) = cur1 at s1 s2 ⊢
    have hge := uint512_compare_ge_iff ⟨cur1⟩ b s1 hb
    simp only [uint512_t.val] at hge
    rw [hB] at hge
    have hlb := hb.val_lt
    rw [hB] at hlb
    have hl1 := s1.val_lt
    have e1 : B * (2 * (A1 / B) + 1) = 2 * (B * (A1 / B)) + B := by ring
    have e2 : B * (2 * (A1 / B)) = 2 * (B * (A1 / B)) := by ring
    generalize B * (A1 / B) = BQ at hdm e1 e2
    generalize A1 % B = R at hdm hml hmle hvc
    have hbit : (if (wordsVal a).testBit i = true then 1 else 0) ≤ 1 := by
      split_ifs <;> omega
    generalize (if (wordsVal a).testBit i = true then 1 else 0) = bit at hA s2 hbit
    by_cases hcmp : uint512_compare ⟨cur1⟩ b ≥ 0
    · rw [if_pos hcmp]
      have hge1 := hge.mp hcmp
      obtain ⟨u1, u2, _, _⟩ := uint512_sub_spec ⟨cur1⟩ b s1 hb
      simp only [uint512_t.val, uint512_t.WF] at u1 u2
      rw [hB] at u2
      obtain ⟨q1, q2⟩ := set_quotient_bit q hq i (A1 / B) (by omega) hvq
      have hdiv : A0 / B = 2 * (A1 / B) + 1 ∧ A0 % B = wordsVal cur1 - B := by
        rw [Nat.div_mod_unique hb0]
        constructor
        · rw [e1]; omega
        · omega
      apply ih _ _ (by omega) u1 q1
      · rw [u2, ← hA0def, hdiv.2]
        omega
      · rw [q2, hvq, ← hA0def, hdiv.1, Nat.pow_succ]
        ring
    · rw [if_neg hcmp]
      have hlt1 : wordsVal cur1 < B := by
        by_contra h
        exact hcmp (hge.mpr (by omega))
      have hdiv : A0 / B = 2 * (A1 / B) ∧ A0 % B = wordsVal cur1 := by
        rw [Nat.div_mod_unique hb0]
        constructor
        · rw [e2]; omega
        · exact hlt1
      apply ih _ _ (by omega) s1 hq
      · rw [← hA0def, hdiv.2]
      · rw [hvq, ← hA0def, hdiv.1, Nat.pow_succ]
        ring

theorem uint512_div_spec (a b : uint512_t) (ha : a.WF) (hb : b.WF) (hb0 : b.val ≠ 0) :
    ∃ q r : uint512_t, uint512_div a b = some (INT512_OK, some (q, r)) ∧
      q.WF ∧ r.WF ∧ q.val = a.val / b.val ∧ r.val = a.val % b.val := by
  have hnz : uint512_is_zero b = false := by
    cases h : uint512_is_zero b
    · rfl
    · exact absurd ((uint512_is_zero_iff b).mp h) hb0
  have hbpos : 0 < b.val := Nat.pos_of_ne_zero hb0
  simp only [uint512_div, hnz, Bool.false_eq_true, if_false]
  by_cases hlt : uint512_compare a b < 0
  · rw [if_pos hlt]
    have h1 := (uint512_compare_lt_iff a b ha hb).mp hlt
    refine ⟨UINT512_ZERO, a, rfl, wordsWF_zero, ha, ?_, ?_⟩
    · rw [Nat.div_eq_of_lt h1]; exact wordsVal_zero
    · rw [Nat.mod_eq_of_lt h1]
  · rw [if_neg hlt]
    have h1 : b.val ≤ a.val := by
      by_contra h
      exact hlt ((uint512_compare_lt_iff a b ha hb).mpr (by omega))
    have ea : a.words.take 8 = a.words := List.take_of_length_le (by rw [ha.1])
    have eb : b.words.take 8 = b.words := List.take_of_length_le (by rw [hb.1])
    obtain ⟨da, a1, a2, a3, a4⟩ := highest_bit_spec a.words ha.2 8
      (by rw [ea]; simp only [uint512_t.val] at h1 hbpos; omega)
    obtain ⟨db, b1, b2, b3, b4⟩ := highest_bit_spec b.words hb.2 8
      (by rw [eb]; simp only [uint512_t.val] at hbpos; omega)
    rw [ea] at a3 a4
    simp only [a1, b1]
    have hsmall : wordsVal a.words / 2 ^ (da + 1) = 0 :=
      Nat.div_eq_of_lt a4
    obtain ⟨l1, l2, l3, l4⟩ := uint512_div_loop_spec a.words b ha hb b.val rfl hbpos (da + 1)
      UINT512_ZERO.words UINT512_ZERO.words (by omega) wordsWF_zero wordsWF_zero
      (by rw [hsmall, wordsVal_zero]; simp)
      (by rw [hsmall, wordsVal_zero]; simp)
    exact ⟨_, _, rfl, l2, l1, l4, l3⟩

/-! ## Two's complement -/

theorem int512_is_negative_iff (a : int512_t) (ha : a.WF) :
    int512_is_negative a = true ↔ 2 ^ 511 ≤ wordsVal a.words := by
  have h1 := and_mask_ne_zero (a.words.getD 7 0) 63 (by decide)
  have h2 := testBit_getD a.words ha.2 511
  have e1 : 511 / 64 = 7 := by decide
  have e2 : 511 % 64 = 63 := by decide
  rw [e1, e2] at h2
  rw [h2, Nat.testBit_to_div_mod] at h1
  have hlt := ha.val_lt
  simp only [int512_is_negative, bne_iff_ne]
  rw [h1]
  simp only [decide_eq_true_eq]
  omega

theorem int512_val_of_neg (a : int512_t) (ha : a.WF) (h : int512_is_negative a = true) :
    a.val = (wordsVal a.words : Int) - 2 ^ 512 := by
  have := (int512_is_negative_iff a ha).mp h
  simp only [int512_t.val]
  rw [if_neg (by omega)]

theorem int512_val_of_nonneg (a : int512_t) (ha : a.WF) (h : int512_is_negative a = false) :
    a.val = (wordsVal a.words : Int) := by
  have h1 : ¬ (2 ^ 511 ≤ wordsVal a.words) := by
    intro h2
    rw [(int512_is_negative_iff a ha).mpr h2] at h
    exact absurd h (by decide)
  simp only [int512_t.val]
  rw [if_pos (by omega)]

theorem wordsVal_compl (ws : List Nat) (h : ∀ w ∈ ws, w < 2 ^ 64) :
    wordsVal (ws.map (fun w => UINT64_MAX - w)) + wordsVal ws + 1 = 2 ^ (64 * ws.length) ∧
    ∀ w ∈ ws.map (fun w => UINT64_MAX - w), w < 2 ^ 64 := by
  induction ws with
  | nil => simp [wordsVal]
  | cons w ws ih =>
    have hw := h w (List.mem_cons_self _ _)
    obtain ⟨i1, i2⟩ := ih (fun x hx => h x (List.mem_cons_of_mem _ hx))
    simp only [List.map_cons, wordsVal, List.length_cons]
    constructor
    · rw [pow64_succ]
      simp only [UINT64_MAX] at i1 ⊢
      generalize wordsVal (List.map (fun w => 2 ^ 64 - 1 - w) ws) = x at i1 ⊢
      generalize 2 ^ (64 * ws.length) = y at i1 ⊢
      omega
    · intro x hx
      rcases List.mem_cons.mp hx with h1 | h1
      · rw [h1]; simp only [UINT64_MAX]; omega
      · exact i2 x h1

theorem int512_negate_loop_spec (ws : List Nat) : ∀ c : Nat, (∀ w ∈ ws, w < 2 ^ 64) → c ≤ 1 →
    (int512_negate_loop ws c).length = ws.length ∧
    (∀ w ∈ int512_negate_loop ws c, w < 2 ^ 64) ∧
    ∃ top : Nat, wordsVal (int512_negate_loop ws c) + 2 ^ (64 * ws.length) * top
      = wordsVal ws + c := by
  induction ws with
  | nil =>
    intro c _ _
    refine ⟨rfl, by simp [int512_negate_loop], c, ?_⟩
    simp [int512_negate_loop, wordsVal]
  | cons w ws ih =>
    intro c h hc
    have hw := h w (List.mem_cons_self _ _)
    have hstep : (w + c) % 2 ^ 64 + 2 ^ 64 * (if (w + c) % 2 ^ 64 < w then 1 else 0) = w + c
        ∧ (if (w + c) % 2 ^ 64 < w then 1 else 0) ≤ 1 := by
      split_ifs <;> omega
    obtain ⟨i1, i2, top, i3⟩ := ih (if (w + c) % 2 ^ 64 < w then 1 else 0)
      (fun x hx => h x (List.mem_cons_of_mem _ hx)) hstep.2
    simp only [int512_negate_loop, List.length_cons, wordsVal]
    refine ⟨by rw [i1], ?_, top, ?_⟩
    · intro x hx
      rcases List.mem_cons.mp hx with h1 | h1
      · rw [h1]; exact Nat.mod_lt _ (by decide)
      · exact i2 x h1
    · rw [pow64_succ]
      have := hstep.1
      nlinarith

theorem int512_negate_spec (a : int512_t) (ha : a.WF) :
    (int512_negate a).WF ∧
    wordsVal (int512_negate a).words = (2 ^ 512 - wordsVal a.words) % 2 ^ 512 := by
  obtain ⟨c1, c2⟩ := wordsVal_compl a.words ha.2
  have hl : (a.words.map (fun w => UINT64_MAX - w)).length = 8 := by
    rw [List.length_map]; exact ha.1
  obtain ⟨n1, n2, top, n3⟩ := int512_negate_loop_spec _ 1 c2 (by omega)
  rw [hl] at n1 n3
  rw [ha.1] at c1
  have hwf : WordsWF (int512_negate_loop (a.words.map (fun w => UINT64_MAX - w)) 1) :=
    ⟨n1, n2⟩
  have hlt := hwf.val_lt
  have hla := ha.val_lt
  simp only [int512_negate, int512_t.WF]
  refine ⟨hwf, ?_⟩
  omega

theorem toU_WF (a : int512_t) (ha : a.WF) : a.toU.WF := ha

theorem toI_WF (a : uint512_t) (ha : a.WF) : a.toI.WF := ha

/-- The magnitude computed by `int512_mul` and `int512_div` for an operand. -/
theorem int512_abs_spec (a : int512_t) (ha : a.WF) :
    (if int512_is_negative a then int512_negate a else a).WF ∧
    wordsVal (if int512_is_negative a then int512_negate a else a).words = a.val.natAbs := by
  cases h : int512_is_negative a
  · simp only [Bool.false_eq_true, if_false]
    refine ⟨ha, ?_⟩
    rw [int512_val_of_nonneg a ha h]
    simp
  · simp only [if_true]
    obtain ⟨n1, n2⟩ := int512_negate_spec a ha
    refine ⟨n1, ?_⟩
    have h1 := (int512_is_negative_iff a ha).mp h
    have hla := ha.val_lt
    rw [n2, int512_val_of_neg a ha h]
    omega

/-! ## Signed addition and subtraction -/

theorem int512_val_cases (a : int512_t) (ha : a.WF) :
    (int512_is_negative a = true ∧ 2 ^ 511 ≤ wordsVal a.words ∧
      a.val = (wordsVal a.words : Int) - 2 ^ 512) ∨
    (int512_is_negative a = false ∧ wordsVal a.words < 2 ^ 511 ∧
      a.val = (wordsVal a.words : Int)) := by
  cases h : int512_is_negative a
  · right
    refine ⟨rfl, ?_, int512_val_of_nonneg a ha h⟩
    by_contra h1
    rw [(int512_is_negative_iff a ha).mpr (by omega)] at h
    exact absurd h (by decide)
  · left
    exact ⟨rfl, (int512_is_negative_iff a ha).mp h, int512_val_of_neg a ha h⟩

theorem int512_add_spec (a b : int512_t) (ha : a.WF) (hb : b.WF) :
    (int512_add a b).2.WF ∧
    (wordsVal (int512_add a b).2.words : Int) = (a.val + b.val) % 2 ^ 512 ∧
    ((int512_add a b).1 = INT512_ERR_OVERFLOW ↔ a.val + b.val > 2 ^ 511 - 1) ∧
    ((int512_add a b).1 = INT512_ERR_UNDERFLOW ↔ a.val + b.val < -2 ^ 511) ∧
    ((int512_add a b).1 = INT512_OK ↔
      (-2 ^ 511 ≤ a.val + b.val ∧ a.val + b.val ≤ 2 ^ 511 - 1)) ∧
    ((int512_add a b).1 = INT512_OK → (int512_add a b).2.val = a.val + b.val) := by
  obtain ⟨u1, u2, _, _⟩ := uint512_add_spec a.toU b.toU ha hb
  have hdef : int512_add a b =
      (if (int512_is_negative a == int512_is_negative b &&
            int512_is_negative a != int512_is_negative (uint512_add a.toU b.toU).2.toI) = true
        then (if int512_is_negative a = true then INT512_ERR_UNDERFLOW
              else INT512_ERR_OVERFLOW, (uint512_add a.toU b.toU).2.toI)
        else (INT512_OK, (uint512_add a.toU b.toU).2.toI)) := rfl
  have hr : (uint512_add a.toU b.toU).2.toI.WF := u1
  have hres : wordsVal (uint512_add a.toU b.toU).2.toI.words
      = (wordsVal a.words + wordsVal b.words) % 2 ^ 512 := u2
  rw [hdef]
  generalize (uint512_add a.toU b.toU).2.toI = R at hr hres ⊢
  have hla := ha.val_lt
  have hlb := hb.val_lt
  have hlr := hr.val_lt
  rcases int512_val_cases a ha with ⟨a1, a2, a3⟩ | ⟨a1, a2, a3⟩ <;>
  rcases int512_val_cases b hb with ⟨b1, b2, b3⟩ | ⟨b1, b2, b3⟩ <;>
  rcases int512_val_cases R hr with ⟨r1, r2, r3⟩ | ⟨r1, r2, r3⟩ <;>
  · rw [a1, b1, r1]
    simp
    refine ⟨hr, ?_⟩
    generalize a.val = IA at a3 ⊢
    generalize b.val = IB at b3 ⊢
    generalize R.val = IR at r3 ⊢
    generalize wordsVal a.words = VA at hla a2 a3 hres
    generalize wordsVal b.words = VB at hlb b2 b3 hres
    generalize wordsVal R.words = VR at hlr r2 r3 hres ⊢
    omega

theorem int512_sub_spec (a b : int512_t) (ha : a.WF) (hb : b.WF) :
    (int512_sub a b).2.WF ∧
    (wordsVal (int512_sub a b).2.words : Int) = (a.val - b.val) % 2 ^ 512 ∧
    ((int512_sub a b).1 = INT512_ERR_OVERFLOW ↔ a.val - b.val > 2 ^ 511 - 1) ∧
    ((int512_sub a b).1 = INT512_ERR_UNDERFLOW ↔ a.val - b.val < -2 ^ 511) ∧
    ((int512_sub a b).1 = INT512_OK ↔
      (-2 ^ 511 ≤ a.val - b.val ∧ a.val - b.val ≤ 2 ^ 511 - 1)) ∧
    ((int512_sub a b).1 = INT512_OK → (int512_sub a b).2.val = a.val - b.val) := by
  obtain ⟨u1, u2, _, _⟩ := uint512_sub_spec a.toU b.toU ha hb
  have hdef : int512_sub a b =
      (if (int512_is_negative a != int512_is_negative b &&
            int512_is_negative a != int512_is_negative (uint512_sub a.toU b.toU).2.toI) = true
        then (if int512_is_negative a = true then INT512_ERR_UNDERFLOW
              else INT512_ERR_OVERFLOW, (uint512_sub a.toU b.toU).2.toI)
        else (INT512_OK, (uint512_sub a.toU b.toU).2.toI)) := rfl
  have hr : (uint512_sub a.toU b.toU).2.toI.WF := u1
  have hres : wordsVal (uint512_sub a.toU b.toU).2.toI.words
      = (wordsVal a.words + 2 ^ 512 - wordsVal b.words) % 2 ^ 512 := u2
  rw [hdef]
  generalize (uint512_sub a.toU b.toU).2.toI = R at hr hres ⊢
  have hla := ha.val_lt
  have hlb := hb.val_lt
  have hlr := hr.val_lt
  rcases int512_val_cases a ha with ⟨a1, a2, a3⟩ | ⟨a1, a2, a3⟩ <;>
  rcases int512_val_cases b hb with ⟨b1, b2, b3⟩ | ⟨b1, b2, b3⟩ <;>
  rcases int512_val_cases R hr with ⟨r1, r2, r3⟩ | ⟨r1, r2, r3⟩ <;>
  · rw [a1, b1, r1]
    simp
    refine ⟨hr, ?_⟩
    generalize a.val = IA at a3 ⊢
    generalize b.val = IB at b3 ⊢
    generalize R.val = IR at r3 ⊢
    generalize wordsVal a.words = VA at hla a2 a3 hres
    generalize wordsVal b.words = VB at hlb b2 b3 hres
    generalize wordsVal R.words = VR at hlr r2 r3 hres ⊢
    omega

/-! ## Signed multiplication -/

theorem int512_is_zero_iff (a : int512_t) : int512_is_zero a = true ↔ wordsVal a.words = 0 :=
  uint512_is_zero_iff a.toU

theorem int512_val_abs (a : int512_t) (ha : a.WF) :
    (int512_is_negative a = true ∧ a.val = -(a.val.natAbs : Int) ∧ 0 < a.val.natAbs ∧
      a.val.natAbs ≤ 2 ^ 511) ∨
    (int512_is_negative a = false ∧ a.val = (a.val.natAbs : Int) ∧ a.val.natAbs < 2 ^ 511) := by
  have hla := ha.val_lt
  rcases int512_val_cases a ha with ⟨a1, a2, a3⟩ | ⟨a1, a2, a3⟩
  · left
    refine ⟨a1, ?_, ?_, ?_⟩ <;> omega
  · right
    refine ⟨a1, ?_, ?_⟩ <;> omega

/-- The overflow classification at the end of `int512_mul`, for an unsigned product `R`
of magnitudes with mathematical value `P`. -/
theorem int512_mul_classify (nr : Bool) (err : int512_error_t) (R : uint512_t) (P : Nat)
    (hR : R.WF) (hv : wordsVal R.words = P % 2 ^ 512)
    (herr : (err = INT512_OK ∧ P < 2 ^ 512) ∨ (err = INT512_ERR_OVERFLOW ∧ P ≥ 2 ^ 512))
    (S : Int) (hS : S = if nr then -(P : Int) else (P : Int))
    (out : int512_error_t × int512_t)
    (hout : out =
      if err = INT512_ERR_OVERFLOW then
        (INT512_ERR_OVERFLOW, if nr then int512_negate R.toI else R.toI)
      else if (!nr && int512_is_negative (if nr then int512_negate R.toI else R.toI)) = true
      then (INT512_ERR_OVERFLOW, if nr then int512_negate R.toI else R.toI)
      else if (nr && !int512_is_negative (if nr then int512_negate R.toI else R.toI) &&
          !int512_is_zero (if nr then int512_negate R.toI else R.toI)) = true
      then (INT512_ERR_OVERFLOW, if nr then int512_negate R.toI else R.toI)
      else (INT512_OK, if nr then int512_negate R.toI else R.toI)) :
    out.2.WF ∧ (out.1 = INT512_OK ↔ (-2 ^ 511 ≤ S ∧ S ≤ 2 ^ 511 - 1)) ∧
    (out.1 = INT512_OK → out.2.val = S) ∧
    (out.1 = INT512_OK ∨ out.1 = INT512_ERR_OVERFLOW) := by
  have hRI : R.toI.WF := hR
  obtain ⟨n1, n2⟩ := int512_negate_spec R.toI hRI
  have hzN := int512_is_zero_iff (int512_negate R.toI)
  have hvR := int512_val_cases R.toI hRI
  have hvN := int512_val_cases (int512_negate R.toI) n1
  have hlR := hRI.val_lt
  have hlN := n1.val_lt
  have hR2 : wordsVal R.toI.words = P % 2 ^ 512 := hv
  cases nr
  · simp only [Bool.false_eq_true, if_false, Bool.not_false, Bool.true_and, Bool.false_and]
      at hout hS
    clear hvN hzN hlN n2
    rcases herr with ⟨e1, e2⟩ | ⟨e1, e2⟩ <;>
    rcases hvR with ⟨r1, r2, r3⟩ | ⟨r1, r2, r3⟩ <;>
    · rw [hout]
      simp [e1, r1, hRI]
      generalize wordsVal R.toI.words = VR at r2 r3 hlR hR2
      generalize R.toI.val = IR at r3 ⊢
      omega
  · simp only [if_true, Bool.not_true, Bool.false_and, Bool.true_and, Bool.false_eq_true,
      if_false] at hout hS
    clear hvR
    rcases herr with ⟨e1, e2⟩ | ⟨e1, e2⟩ <;>
    rcases hvN with ⟨k1, k2, k3⟩ | ⟨k1, k2, k3⟩ <;>
    cases hz : int512_is_zero (int512_negate R.toI) <;>
    · have hz1 := hzN
      rw [hz] at hz1
      rw [hout]
      simp [e1, k1, hz, n1]
      simp at hz1
      generalize wordsVal R.toI.words = VR at hlR hR2 n2
      generalize wordsVal (int512_negate R.toI).words = VN at k2 k3 hlN n2 hz1
      generalize (int512_negate R.toI).val = IN at k3 ⊢
      omega

theorem int512_mul_spec (a b : int512_t) (ha : a.WF) (hb : b.WF) :
    (int512_mul a b).2.WF ∧
    ((int512_mul a b).1 = INT512_OK ↔
      (-2 ^ 511 ≤ a.val * b.val ∧ a.val * b.val ≤ 2 ^ 511 - 1)) ∧
    ((int512_mul a b).1 = INT512_OK → (int512_mul a b).2.val = a.val * b.val) ∧
    ((int512_mul a b).1 = INT512_OK ∨ (int512_mul a b).1 = INT512_ERR_OVERFLOW) := by
  obtain ⟨wa, va⟩ := int512_abs_spec a ha
  obtain ⟨wb, vb⟩ := int512_abs_spec b hb
  obtain ⟨m1, m2, m3, m4⟩ := uint512_mul_spec
    (if int512_is_negative a then int512_negate a else a).toU
    (if int512_is_negative b then int512_negate b else b).toU wa wb
  have va1 : (if int512_is_negative a then int512_negate a else a).toU.val
      = a.val.natAbs := va
  have vb1 : (if int512_is_negative b then int512_negate b else b).toU.val
      = b.val.natAbs := vb
  rw [va1, vb1] at m2 m3 m4
  have herr : ((uint512_mul (if int512_is_negative a then int512_negate a else a).toU
        (if int512_is_negative b then int512_negate b else b).toU).1 = INT512_OK ∧
        a.val.natAbs * b.val.natAbs < 2 ^ 512) ∨
      ((uint512_mul (if int512_is_negative a then int512_negate a else a).toU
        (if int512_is_negative b then int512_negate b else b).toU).1 = INT512_ERR_OVERFLOW ∧
        a.val.natAbs * b.val.natAbs ≥ 2 ^ 512) := by
    by_cases h : a.val.natAbs * b.val.natAbs < 2 ^ 512
    · exact Or.inl ⟨m4.mpr h, h⟩
    · exact Or.inr ⟨m3.mpr (by omega), by omega⟩
  have hsa := int512_val_abs a ha
  have hsb := int512_val_abs b hb
  apply int512_mul_classify
    (if int512_is_negative b then !(if int512_is_negative a then true else false)
      else (if int512_is_negative a then true else false))
    _ _ (a.val.natAbs * b.val.natAbs) m1 m2 herr
  · rcases hsa with ⟨a1, a3, a4, a5⟩ | ⟨a1, a3, a4⟩ <;>
    rcases hsb with ⟨b1, b3, b4, b5⟩ | ⟨b1, b3, b4⟩ <;>
    · rw [a1, b1]
      simp only [if_true, Bool.false_eq_true, if_false, Bool.not_true, Bool.not_false]
      push_cast
      generalize hA : |a.val| = A at *
      generalize hB : |b.val| = B at *
      have hA' : (a.val.natAbs : Int) = A := by rw [← hA]; exact Int.natCast_natAbs _
      have hB' : (b.val.natAbs : Int) = B := by rw [← hB]; exact Int.natCast_natAbs _
      rw [hA'] at a3
      rw [hB'] at b3
      first
        | (rw [a3, b3]; done)
        | (rw [a3, b3]; ring)
  · rfl

/-! ## Signed division -/

theorem int_neg_tmod (a b : Int) : (-a).tmod b = -(a.tmod b) := by
  have h1 := Int.tdiv_add_tmod a b
  have h2 := Int.tdiv_add_tmod (-a) b
  rw [Int.neg_tdiv] at h2
  linear_combination h2 + h1

/-- Reading back a magnitude `m ≤ 2 ^ 511` stored in `X`, negated or not. -/
theorem int512_of_magnitude (X : uint512_t) (hX : X.WF) (m : Nat) (hv : wordsVal X.words = m) :
    (m ≤ 2 ^ 511 → (int512_negate X.toI).val = -(m : Int)) ∧
    (m < 2 ^ 511 → X.toI.val = (m : Int)) ∧
    (m = 2 ^ 511 → X.toI.val = -(m : Int)) := by
  have hXI : X.toI.WF := hX
  obtain ⟨n1, n2⟩ := int512_negate_spec X.toI hXI
  have hv1 : wordsVal X.toI.words = m := hv
  rw [hv1] at n2
  have hlN := n1.val_lt
  refine ⟨fun h => ?_, fun h => ?_, fun h => ?_⟩
  · rcases int512_val_cases _ n1 with ⟨_, k2, k3⟩ | ⟨_, k2, k3⟩ <;>
    · rw [k3]
      generalize wordsVal (int512_negate X.toI).words = VN at *
      omega
  · rcases int512_val_cases _ hXI with ⟨_, k2, k3⟩ | ⟨_, k2, k3⟩ <;>
    · rw [hv1] at k2 k3
      generalize X.toI.val = IV at k3 ⊢
      omega
  · rcases int512_val_cases _ hXI with ⟨_, k2, k3⟩ | ⟨_, k2, k3⟩ <;>
    · rw [hv1] at k2 k3
      generalize X.toI.val = IV at k3 ⊢
      omega

theorem int512_div_spec (a b : int512_t) (ha : a.WF) (hb : b.WF) (hb0 : b.val ≠ 0) :
    ∃ q r : int512_t, int512_div a b = some (INT512_OK, some (q, r)) ∧ q.WF ∧ r.WF ∧
      r.val = a.val.tmod b.val ∧
      (¬ (a.val = -2 ^ 511 ∧ b.val = -1) → q.val = a.val.tdiv b.val) ∧
      (a.val = -2 ^ 511 ∧ b.val = -1 → q.val = -2 ^ 511) := by
  obtain ⟨wa, va⟩ := int512_abs_spec a ha
  obtain ⟨wb, vb⟩ := int512_abs_spec b hb
  have hbabs : b.val.natAbs ≠ 0 := by omega
  have hnz : int512_is_zero b = false := by
    cases h : int512_is_zero b
    · rfl
    · have h1 := (int512_is_zero_iff b).mp h
      have h2 : b.val = 0 := by
        simp only [int512_t.val, h1]
        simp
      exact absurd h2 hb0
  have vb1 : (if int512_is_negative b then int512_negate b else b).toU.val
      = b.val.natAbs := vb
  have va1 : (if int512_is_negative a then int512_negate a else a).toU.val
      = a.val.natAbs := va
  obtain ⟨q0, r0, hdiv, hq0, hr0, hqv, hrv⟩ := uint512_div_spec
    (if int512_is_negative a then int512_negate a else a).toU
    (if int512_is_negative b then int512_negate b else b).toU wa wb (by rw [vb1]; exact hbabs)
  rw [va1, vb1] at hqv hrv
  simp only [int512_div, hnz, Bool.false_eq_true, if_false, hdiv, ne_eq, not_true_eq_false]
  have hsa := int512_val_abs a ha
  have hsb := int512_val_abs b hb
  obtain ⟨qn1, _⟩ := int512_negate_spec q0.toI hq0
  obtain ⟨rn1, _⟩ := int512_negate_spec r0.toI hr0
  obtain ⟨qm1, qm2, qm3⟩ := int512_of_magnitude q0 hq0 _ hqv
  obtain ⟨rm1, rm2, _⟩ := int512_of_magnitude r0 hr0 _ hrv
  have hQle : a.val.natAbs / b.val.natAbs ≤ a.val.natAbs := Nat.div_le_self _ _
  have hRlt : a.val.natAbs % b.val.natAbs < b.val.natAbs :=
    Nat.mod_lt _ (Nat.pos_of_ne_zero hbabs)
  have hQ2 : 2 ≤ b.val.natAbs → a.val.natAbs / b.val.natAbs ≤ a.val.natAbs / 2 :=
    fun h => Nat.div_le_div_left h (by decide)
  have hQ1 : b.val.natAbs = 1 → a.val.natAbs / b.val.natAbs = a.val.natAbs := by
    intro h; rw [h, Nat.div_one]
  have hdivc : ((a.val.natAbs / b.val.natAbs : Nat) : Int)
      = (a.val.natAbs : Int).tdiv (b.val.natAbs : Int) := Int.ofNat_tdiv _ _
  have hmodc : ((a.val.natAbs % b.val.natAbs : Nat) : Int)
      = (a.val.natAbs : Int).tmod (b.val.natAbs : Int) := Int.ofNat_tmod _ _
  generalize a.val.natAbs / b.val.natAbs = Q at *
  generalize a.val.natAbs % b.val.natAbs = Rm at *
  generalize a.val.natAbs = MA at *
  generalize b.val.natAbs = MB at *
  rcases hsa with ⟨a1, a3, a4, a5⟩ | ⟨a1, a3, a4⟩ <;>
  rcases hsb with ⟨b1, b3, b4, b5⟩ | ⟨b1, b3, b4⟩
  all_goals
    rw [a1, b1]
    simp only [if_true, Bool.false_eq_true, if_false, Bool.not_true, Bool.not_false]
    refine ⟨_, _, rfl, by assumption, by assumption, ?_, ?_, ?_⟩
  · rw [a3, b3, Int.tmod_neg, int_neg_tmod, ← hmodc]; exact rm1 (by omega)
  · intro hne
    rw [a3, b3, Int.tdiv_neg, Int.neg_tdiv, ← hdivc, neg_neg]
    apply qm2
    by_contra hge
    apply hne
    rw [a3, b3]
    have : MB = 1 := by
      by_contra h1
      have := hQ2 (by omega)
      omega
    have := hQ1 this
    omega
  · rintro ⟨h1, h2⟩
    have hMB : MB = 1 := by omega
    have hMA : MA = 2 ^ 511 := by omega
    have hQ := hQ1 hMB
    have := qm3 (by omega)
    rw [this, hQ, hMA]
    norm_num
  · rw [a3, b3, int_neg_tmod, ← hmodc]; exact rm1 (by omega)
  · intro _
    rw [a3, b3, Int.neg_tdiv, ← hdivc]; exact qm1 (by omega)
  · rintro ⟨h1, h2⟩; omega
  · rw [a3, b3, Int.tmod_neg, ← hmodc]; exact rm2 (by omega)
  · intro _
    rw [a3, b3, Int.tdiv_neg, ← hdivc]; exact qm1 (by omega)
  · rintro ⟨h1, h2⟩; omega
  · rw [a3, b3, ← hmodc]; exact rm2 (by omega)
  · intro _
    rw [a3, b3, ← hdivc]; exact qm2 (by omega)
  · rintro ⟨h1, h2⟩; omega

/-! ## Text conversion -/

theorem digit_char_facts : ∀ d : Nat, d < 36 →
    (digit_char (Int.ofNat d) ≠ '\x00' ∧ digit_char (Int.ofNat d) ≠ ' ' ∧
      digit_char (Int.ofNat d) ≠ '\t' ∧ digit_char (Int.ofNat d) ≠ '+' ∧
      char_digit (digit_char (Int.ofNat d)) = some (Int.ofNat d)) := by
  decide

theorem u64_of_int_natCast (n : Nat) (h : n < 2 ^ 64) : u64_of_int (n : Int) = n := by
  unfold u64_of_int
  omega

theorem int_of_u64_small (w : Nat) (h : w < 2 ^ 31) : int_of_u64 w = (w : Int) := by
  unfold int_of_u64
  have : w % 2 ^ 32 = w := Nat.mod_eq_of_lt (by omega)
  rw [this, if_pos h]

/-- The 512-bit value holding one small word. -/
theorem small_word_spec (n : Nat) (h : n < 2 ^ 64) :
    (⟨[n, 0, 0, 0, 0, 0, 0, 0]⟩ : uint512_t).WF ∧
    (⟨[n, 0, 0, 0, 0, 0, 0, 0]⟩ : uint512_t).val = n := by
  constructor
  · refine ⟨rfl, ?_⟩
    intro w hw
    simp only [List.mem_cons, List.mem_singleton, List.not_mem_nil, or_false] at hw
    rcases hw with h1 | h1 | h1 | h1 | h1 | h1 | h1 | h1 <;> rw [h1] <;>
      first | exact h | exact Nat.two_pow_pos 64
  · simp [uint512_t.val, wordsVal]

theorem digits_length_le (b v : Nat) (hb : 2 ≤ b) (hv : v < 2 ^ 512) :
    (Nat.digits b v).length ≤ 512 := by
  by_cases h0 : v = 0
  · rw [h0]; simp
  · rw [Nat.digits_len b v (by omega) h0]
    have h1 : v < b ^ 512 := by
      have : 2 ^ 512 ≤ b ^ 512 := Nat.pow_le_pow_left hb 512
      omega
    have := Nat.log_lt_of_lt_pow h0 h1
    omega

theorem uint512_to_string_loop_spec (base : Int) (hb : 2 ≤ base ∧ base ≤ 36) :
    ∀ (free : Nat) (num : uint512_t) (temp : List Char), num.WF →
    (Nat.digits base.toNat num.val).length ≤ free →
    uint512_to_string_loop base free num temp
      = some (temp ++ (Nat.digits base.toNat num.val).map (fun d => digit_char (Int.ofNat d))) := by
  have hbn : (base.toNat : Int) = base := Int.toNat_of_nonneg (by omega)
  have hb2 : 2 ≤ base.toNat := by omega
  have hb36 : base.toNat ≤ 36 := by omega
  have hu : u64_of_int base = base.toNat := by
    unfold u64_of_int
    omega
  obtain ⟨bw, bv⟩ := small_word_spec base.toNat (by omega)
  intro free
  induction free with
  | zero =>
    intro num temp _ hlen
    have h0 : num.val = 0 := by
      by_contra h
      have := (Nat.digits_ne_nil_iff_ne_zero (b := base.toNat)).mpr h
      exact this (List.length_eq_zero.mp (by omega))
    simp [uint512_to_string_loop, (uint512_is_zero_iff num).mpr h0, h0]
  | succ free ih =>
    intro num temp hn hlen
    by_cases h0 : num.val = 0
    · simp [uint512_to_string_loop, (uint512_is_zero_iff num).mpr h0, h0]
    · have hz : uint512_is_zero num = false := by
        cases h : uint512_is_zero num
        · rfl
        · exact absurd ((uint512_is_zero_iff num).mp h) h0
      obtain ⟨q, r, hdiv, hq, hr, hqv, hrv⟩ := uint512_div_spec num
        ⟨[base.toNat, 0, 0, 0, 0, 0, 0, 0]⟩ hn bw (by rw [bv]; omega)
      rw [bv] at hqv hrv
      have hrlt : r.val < base.toNat := by rw [hrv]; exact Nat.mod_lt _ (by omega)
      have hw0 : r.words.getD 0 0 = r.val := by
        have e := getD_eq_div_mod r.words hr.2 0
        simp only [Nat.mul_zero, Nat.pow_zero, Nat.div_one] at e
        rw [e]
        exact Nat.mod_eq_of_lt (by simp only [uint512_t.val] at hrlt ⊢; omega)
      have hdig := Nat.digits_def' (b := base.toNat) (by omega) (Nat.pos_of_ne_zero h0)
      rw [hdig] at hlen ⊢
      simp only [List.length_cons] at hlen
      simp only [uint512_to_string_loop, hz, Bool.false_eq_true, if_false, hu, hdiv]
      rw [ih q _ hq (by rw [hqv]; omega), hw0, int_of_u64_small _ (by omega), hqv, hrv]
      simp

theorem range_map_reverse (temp : List Char) :
    (List.range temp.length).map (fun i => temp.getD (temp.length - 1 - i) '\x00')
      = temp.reverse := by
  apply List.ext_getElem
  · simp
  · intro n h1 h2
    simp only [List.length_map, List.length_range] at h1
    rw [List.getElem_map, List.getElem_range, List.getElem_reverse,
      List.getD_eq_getElem _ _ (by omega)]

/-- The text `uint512_to_string` produces for a value: its digits, most significant
first, and `"0"` for zero. -/
theorem uint512_to_string_spec (v : uint512_t) (hv : v.WF) (base : Int)
    (hb : 2 ≤ base ∧ base ≤ 36) (buffer_size : Nat) (hs : 513 ≤ buffer_size) :
    uint512_to_string v buffer_size base = some (INT512_OK,
      some (if v.val = 0 then ['0']
        else ((Nat.digits base.toNat v.val).reverse.map (fun d => digit_char (Int.ofNat d))))) := by
  have h1 : ¬ (buffer_size = 0) := by omega
  have h2 : ¬ (base < 2 ∨ base > 36) := by omega
  have h3 : ¬ (buffer_size < 2) := by omega
  simp only [uint512_to_string, if_neg h1, if_neg h2]
  by_cases h0 : v.val = 0
  · simp [(uint512_is_zero_iff v).mpr h0, h0, h3]
  · have hz : uint512_is_zero v = false := by
      cases h : uint512_is_zero v
      · rfl
      · exact absurd ((uint512_is_zero_iff v).mp h) h0
    have hlen := digits_length_le base.toNat v.val (by omega) hv.val_lt
    rw [uint512_to_string_loop_spec base hb 600 v [] hv (by omega)]
    simp only [hz, Bool.false_eq_true, if_false, List.nil_append, if_neg h0]
    have hl : ((Nat.digits base.toNat v.val).map (fun d => digit_char (Int.ofNat d))).length
        = (Nat.digits base.toNat v.val).length := List.length_map _ _
    rw [if_neg (by rw [hl]; omega), range_map_reverse, List.map_reverse]

theorem horner_ge (b : Nat) (hb : 1 ≤ b) (ds : List Nat) : ∀ x : Nat,
    x ≤ ds.foldl (fun x d => x * b + d) x := by
  induction ds with
  | nil => intro x; exact Nat.le_refl _
  | cons d ds ih =>
    intro x
    simp only [List.foldl_cons]
    have h1 := ih (x * b + d)
    have h2 : x ≤ x * b := Nat.le_mul_of_pos_right x hb
    omega

theorem uint512_from_string_loop_spec (base : Int) (hb : 2 ≤ base ∧ base ≤ 36)
    (ds : List Nat) : ∀ (acc : uint512_t), acc.WF → (∀ d ∈ ds, d < base.toNat) →
    ds.foldl (fun x d => x * base.toNat + d) acc.val < 2 ^ 512 →
    ∃ r : uint512_t,
      uint512_from_string_loop base (ds.map (fun d => digit_char (Int.ofNat d))) acc
        = (INT512_OK, r) ∧
      r.WF ∧ r.val = ds.foldl (fun x d => x * base.toNat + d) acc.val := by
  have hb2 : 2 ≤ base.toNat := by omega
  have hb36 : base.toNat ≤ 36 := by omega
  have hu : u64_of_int base = base.toNat := by
    unfold u64_of_int
    omega
  obtain ⟨bw, bv⟩ := small_word_spec base.toNat (by omega)
  induction ds with
  | nil =>
    intro acc ha _ _
    exact ⟨acc, rfl, ha, rfl⟩
  | cons d ds ih =>
    intro acc ha hd hlt
    have hdb := hd d (List.mem_cons_self _ _)
    obtain ⟨c1, _, _, _, c5⟩ := digit_char_facts d (by omega)
    simp only [List.foldl_cons] at hlt ⊢
    have hstep := horner_ge base.toNat (by omega) ds (acc.val * base.toNat + d)
    obtain ⟨m1, m2, _, m4⟩ := uint512_mul_spec acc ⟨[base.toNat, 0, 0, 0, 0, 0, 0, 0]⟩ ha bw
    rw [bv] at m2 m4
    have hmok := m4.mpr (by omega)
    have hdu : u64_of_int (Int.ofNat d) = d := u64_of_int_natCast d (by omega)
    obtain ⟨dw, dv⟩ := small_word_spec d (by omega)
    obtain ⟨s1, s2, _, s4⟩ := uint512_add_spec _ ⟨[d, 0, 0, 0, 0, 0, 0, 0]⟩ m1 dw
    rw [dv, m2, Nat.mod_eq_of_lt (by omega)] at s2 s4
    have hsok := s4.mpr (by omega)
    rw [Nat.mod_eq_of_lt (by omega)] at s2
    obtain ⟨r, r1, r2, r3⟩ := ih _ s1 (fun x hx => hd x (List.mem_cons_of_mem _ hx))
      (by rw [s2]; exact hlt)
    refine ⟨r, ?_, r2, by rw [r3, s2]⟩
    have hnge : ¬ (Int.ofNat d ≥ base) := by
      have : (Int.ofNat d) = (d : Int) := rfl
      omega
    simp only [List.map_cons, uint512_from_string_loop, if_neg c1, c5, if_neg hnge, hu, hmok,
      ne_eq, not_true_eq_false, if_false, hdu, hsok]
    exact r1

theorem skip_blanks_digit (d : Nat) (hd : d < 36) (cs : List Char) :
    skip_blanks (digit_char (Int.ofNat d) :: cs) = digit_char (Int.ofNat d) :: cs := by
  obtain ⟨_, c2, c3, _, _⟩ := digit_char_facts d hd
  have h : ¬ (digit_char (Int.ofNat d) = ' ' ∨ digit_char (Int.ofNat d) = '\t') := by
    rintro (h | h)
    · exact c2 h
    · exact c3 h
  simp only [skip_blanks, if_neg h]

/-- Parsing a non-empty text made of digit characters. -/
theorem uint512_from_string_digits (base : Int) (hb : 2 ≤ base ∧ base ≤ 36)
    (ds : List Nat) (hne : ds ≠ []) (hd : ∀ d ∈ ds, d < base.toNat)
    (hlt : ds.foldl (fun x d => x * base.toNat + d) 0 < 2 ^ 512) :
    ∃ r : uint512_t,
      uint512_from_string (ds.map (fun d => digit_char (Int.ofNat d))) base
        = (INT512_OK, some r) ∧
      r.WF ∧ r.val = ds.foldl (fun x d => x * base.toNat + d) 0 := by
  have h2 : ¬ (base < 2 ∨ base > 36) := by omega
  obtain ⟨r, r1, r2, r3⟩ := uint512_from_string_loop_spec base hb ds UINT512_ZERO wordsWF_zero hd
    (by rw [show UINT512_ZERO.val = 0 from wordsVal_zero]; exact hlt)
  rw [show UINT512_ZERO.val = 0 from wordsVal_zero] at r3
  refine ⟨r, ?_, r2, r3⟩
  cases ds with
  | nil => exact absurd rfl hne
  | cons d ds =>
    have hdb := hd d (List.mem_cons_self _ _)
    obtain ⟨c1, _, _, c4, _⟩ := digit_char_facts d (by omega)
    simp only [List.map_cons] at r1 ⊢
    simp only [uint512_from_string, if_neg h2, skip_blanks_digit d (by omega),
      List.headD_cons, if_neg c4, if_neg c1, r1]

theorem horner_reverse (b : Nat) (L : List Nat) :
    L.reverse.foldl (fun x d => x * b + d) 0 = Nat.ofDigits b L := by
  rw [List.foldl_reverse, Nat.ofDigits_eq_foldr]
  induction L with
  | nil => rfl
  | cons d L ih =>
    simp only [List.foldr_cons, ih]
    simp [Nat.mul_comm, Nat.add_comm]

theorem int_tmod_facts (a b : Int) (hb : b ≠ 0) :
    (a.tmod b).natAbs < b.natAbs ∧ (0 ≤ a → 0 ≤ a.tmod b) ∧ (a ≤ 0 → a.tmod b ≤ 0) := by
  have hmod := Int.ofNat_tmod a.natAbs b.natAbs
  have hlt : a.natAbs % b.natAbs < b.natAbs := Nat.mod_lt _ (by omega)
  have hm0 : a.natAbs = 0 → a.natAbs % b.natAbs = 0 := by
    intro h; rw [h]; exact Nat.zero_mod _
  generalize a.natAbs % b.natAbs = m at hmod hlt hm0
  rcases Int.natAbs_eq a with h1 | h1 <;> rcases Int.natAbs_eq b with h2 | h2 <;>
  · generalize a.natAbs = MA at h1 hmod hm0
    generalize b.natAbs = MB at h2 hmod hlt ⊢
    subst h1 h2
    simp only [Int.tmod_neg, int_neg_tmod, ← hmod]
    omega

/-! ## The claims -/

/-- Claim C1: for every 512-bit unsigned `a` and every non-zero `b`, `uint512_div` returns
OK with a quotient `q` and a remainder `r` such that `a = b * q + r` and `r < b` over the
natural numbers (`q = a / b`, `r = a % b`); on the fast path `a < b` the quotient is zero
and the remainder is `a`; and `100 / 30` gives quotient 3, remainder 10. -/
theorem C1_uint512_div_exact (a b : uint512_t) (ha : a.WF) (hb : b.WF) (hb0 : b.val ≠ 0) :
    (∃ q r : uint512_t, uint512_div a b = some (INT512_OK, some (q, r)) ∧ q.WF ∧ r.WF ∧
      a.val = b.val * q.val + r.val ∧ r.val < b.val ∧
      q.val = a.val / b.val ∧ r.val = a.val % b.val ∧
      (a.val < b.val → q = UINT512_ZERO ∧ r = a)) ∧
    uint512_div ⟨[100, 0, 0, 0, 0, 0, 0, 0]⟩ ⟨[30, 0, 0, 0, 0, 0, 0, 0]⟩
      = some (INT512_OK, some (⟨[3, 0, 0, 0, 0, 0, 0, 0]⟩, ⟨[10, 0, 0, 0, 0, 0, 0, 0]⟩)) := by
  refine ⟨?_, by decide⟩
  obtain ⟨q, r, h1, hq, hr, hqv, hrv⟩ := uint512_div_spec a b ha hb hb0
  refine ⟨q, r, h1, hq, hr, ?_, ?_, hqv, hrv, ?_⟩
  · rw [hqv, hrv]; exact (Nat.div_add_mod _ _).symm
  · rw [hrv]; exact Nat.mod_lt _ (Nat.pos_of_ne_zero hb0)
  · intro hlt
    constructor
    · apply uint512_t.eq_of_val_eq hq wordsWF_zero
      rw [hqv, Nat.div_eq_of_lt hlt]
      exact wordsVal_zero.symm
    · apply uint512_t.eq_of_val_eq hr ha
      rw [hrv, Nat.mod_eq_of_lt hlt]

theorem C1_uint512_div_exact_witness :
    (uint512_t.WF ⟨[123456789, 987654321, 0, 0, 0, 0, 0, 0]⟩ ∧
      uint512_t.WF ⟨[10, 0, 0, 0, 0, 0, 0, 0]⟩ ∧
      uint512_t.val ⟨[10, 0, 0, 0, 0, 0, 0, 0]⟩ ≠ 0) ∧
    ((∃ q r : uint512_t,
        uint512_div ⟨[123456789, 987654321, 0, 0, 0, 0, 0, 0]⟩ ⟨[10, 0, 0, 0, 0, 0, 0, 0]⟩
          = some (INT512_OK, some (q, r)) ∧ q.WF ∧ r.WF ∧
        uint512_t.val ⟨[123456789, 987654321, 0, 0, 0, 0, 0, 0]⟩
          = uint512_t.val ⟨[10, 0, 0, 0, 0, 0, 0, 0]⟩ * q.val + r.val ∧
        r.val < uint512_t.val ⟨[10, 0, 0, 0, 0, 0, 0, 0]⟩ ∧
        q.val = uint512_t.val ⟨[123456789, 987654321, 0, 0, 0, 0, 0, 0]⟩
          / uint512_t.val ⟨[10, 0, 0, 0, 0, 0, 0, 0]⟩ ∧
        r.val = uint512_t.val ⟨[123456789, 987654321, 0, 0, 0, 0, 0, 0]⟩
          % uint512_t.val ⟨[10, 0, 0, 0, 0, 0, 0, 0]⟩ ∧
        (uint512_t.val ⟨[123456789, 987654321, 0, 0, 0, 0, 0, 0]⟩
            < uint512_t.val ⟨[10, 0, 0, 0, 0, 0, 0, 0]⟩ →
          q = UINT512_ZERO ∧ r = ⟨[123456789, 987654321, 0, 0, 0, 0, 0, 0]⟩)) ∧
      uint512_div ⟨[100, 0, 0, 0, 0, 0, 0, 0]⟩ ⟨[30, 0, 0, 0, 0, 0, 0, 0]⟩
        = some (INT512_OK, some (⟨[3, 0, 0, 0, 0, 0, 0, 0]⟩, ⟨[10, 0, 0, 0, 0, 0, 0, 0]⟩))) :=
  ⟨⟨by decide, by decide, by decide⟩,
    C1_uint512_div_exact ⟨[123456789, 987654321, 0, 0, 0, 0, 0, 0]⟩ ⟨[10, 0, 0, 0, 0, 0, 0, 0]⟩
      (by decide) (by decide) (by decide)⟩

/-- Claim C2: for every `a` and `b`, `uint512_mul` writes `(a * b) mod 2 ^ 512` and returns
OVERFLOW if and only if the mathematical product is at least `2 ^ 512`, OK otherwise;
`(UINT64_MAX << 448) * 2` is OVERFLOW and `UINT64_MAX * 2` is OK with words
`UINT64_MAX - 1, 1`. -/
theorem C2_uint512_mul_exact (a b : uint512_t) (ha : a.WF) (hb : b.WF) :
    (uint512_mul a b).2.WF ∧
    (uint512_mul a b).2.val = (a.val * b.val) % 2 ^ 512 ∧
    ((uint512_mul a b).1 = INT512_ERR_OVERFLOW ↔ a.val * b.val ≥ 2 ^ 512) ∧
    ((uint512_mul a b).1 = INT512_OK ↔ a.val * b.val < 2 ^ 512) ∧
    (uint512_mul ⟨[0, 0, 0, 0, 0, 0, 0, UINT64_MAX]⟩ ⟨[2, 0, 0, 0, 0, 0, 0, 0]⟩).1
      = INT512_ERR_OVERFLOW ∧
    uint512_mul ⟨[UINT64_MAX, 0, 0, 0, 0, 0, 0, 0]⟩ ⟨[2, 0, 0, 0, 0, 0, 0, 0]⟩
      = (INT512_OK, ⟨[UINT64_MAX - 1, 1, 0, 0, 0, 0, 0, 0]⟩) := by
  obtain ⟨h1, h2, h3, h4⟩ := uint512_mul_spec a b ha hb
  exact ⟨h1, h2, h3, h4, by decide, by decide⟩

theorem C2_uint512_mul_exact_witness :
    (UINT512_MAX.WF ∧ UINT512_MAX.WF) ∧
    ((uint512_mul UINT512_MAX UINT512_MAX).2.WF ∧
    (uint512_mul UINT512_MAX UINT512_MAX).2.val = (UINT512_MAX.val * UINT512_MAX.val) % 2 ^ 512 ∧
    ((uint512_mul UINT512_MAX UINT512_MAX).1 = INT512_ERR_OVERFLOW ↔
      UINT512_MAX.val * UINT512_MAX.val ≥ 2 ^ 512) ∧
    ((uint512_mul UINT512_MAX UINT512_MAX).1 = INT512_OK ↔
      UINT512_MAX.val * UINT512_MAX.val < 2 ^ 512) ∧
    (uint512_mul ⟨[0, 0, 0, 0, 0, 0, 0, UINT64_MAX]⟩ ⟨[2, 0, 0, 0, 0, 0, 0, 0]⟩).1
      = INT512_ERR_OVERFLOW ∧
    uint512_mul ⟨[UINT64_MAX, 0, 0, 0, 0, 0, 0, 0]⟩ ⟨[2, 0, 0, 0, 0, 0, 0, 0]⟩
      = (INT512_OK, ⟨[UINT64_MAX - 1, 1, 0, 0, 0, 0, 0, 0]⟩)) :=
  ⟨⟨by decide, by decide⟩, C2_uint512_mul_exact UINT512_MAX UINT512_MAX (by decide) (by decide)⟩

/-- Claim C3: for every `a` and `b`, `uint512_add` writes `(a + b) mod 2 ^ 512` and returns
OVERFLOW if and only if `a + b ≥ 2 ^ 512`, OK otherwise; the carry after any number of
words is 0 or 1; and `add(UINT512_MAX, UINT512_ONE)` is OVERFLOW. -/
theorem C3_uint512_add_exact (a b : uint512_t) (ha : a.WF) (hb : b.WF) :
    (uint512_add a b).2.WF ∧
    (uint512_add a b).2.val = (a.val + b.val) % 2 ^ 512 ∧
    ((uint512_add a b).1 = INT512_ERR_OVERFLOW ↔ a.val + b.val ≥ 2 ^ 512) ∧
    ((uint512_add a b).1 = INT512_OK ↔ a.val + b.val < 2 ^ 512) ∧
    (∀ n : Nat, (uint512_add_loop (a.words.take n) (b.words.take n) 0).2 ≤ 1) ∧
    (uint512_add UINT512_MAX UINT512_ONE).1 = INT512_ERR_OVERFLOW := by
  obtain ⟨h1, h2, h3, h4⟩ := uint512_add_spec a b ha hb
  refine ⟨h1, h2, h3, h4, ?_, by decide⟩
  intro n
  exact (uint512_add_loop_spec (a.words.take n) (b.words.take n) 0
    (by rw [List.length_take, List.length_take, ha.1, hb.1])
    (fun w hw => ha.2 w (List.mem_of_mem_take hw))
    (fun w hw => hb.2 w (List.mem_of_mem_take hw)) (by omega)).2.1

theorem C3_uint512_add_exact_witness :
    (UINT512_MAX.WF ∧ UINT512_MAX.WF) ∧
    ((uint512_add UINT512_MAX UINT512_MAX).2.WF ∧
    (uint512_add UINT512_MAX UINT512_MAX).2.val = (UINT512_MAX.val + UINT512_MAX.val) % 2 ^ 512 ∧
    ((uint512_add UINT512_MAX UINT512_MAX).1 = INT512_ERR_OVERFLOW ↔
      UINT512_MAX.val + UINT512_MAX.val ≥ 2 ^ 512) ∧
    ((uint512_add UINT512_MAX UINT512_MAX).1 = INT512_OK ↔
      UINT512_MAX.val + UINT512_MAX.val < 2 ^ 512) ∧
    (∀ n : Nat,
      (uint512_add_loop (UINT512_MAX.words.take n) (UINT512_MAX.words.take n) 0).2 ≤ 1) ∧
    (uint512_add UINT512_MAX UINT512_ONE).1 = INT512_ERR_OVERFLOW) :=
  ⟨⟨by decide, by decide⟩, C3_uint512_add_exact UINT512_MAX UINT512_MAX (by decide) (by decide)⟩

/-- Claim C4: for every `a` and `b`, `uint512_sub` writes `(a - b) mod 2 ^ 512` and returns
UNDERFLOW if and only if `a < b`, OK otherwise; `sub(UINT512_ZERO, UINT512_ONE)` is
UNDERFLOW. -/
theorem C4_uint512_sub_exact (a b : uint512_t) (ha : a.WF) (hb : b.WF) :
    (uint512_sub a b).2.WF ∧
    ((uint512_sub a b).2.val : Int) = ((a.val : Int) - (b.val : Int)) % 2 ^ 512 ∧
    ((uint512_sub a b).1 = INT512_ERR_UNDERFLOW ↔ a.val < b.val) ∧
    ((uint512_sub a b).1 = INT512_OK ↔ b.val ≤ a.val) ∧
    (uint512_sub UINT512_ZERO UINT512_ONE).1 = INT512_ERR_UNDERFLOW := by
  obtain ⟨h1, h2, h3, h4⟩ := uint512_sub_spec a b ha hb
  refine ⟨h1, ?_, h3, h4, by decide⟩
  have hla : a.val < 2 ^ 512 := ha.val_lt
  have hlb : b.val < 2 ^ 512 := hb.val_lt
  rw [h2]
  omega

theorem C4_uint512_sub_exact_witness :
    (UINT512_ONE.WF ∧ UINT512_MAX.WF) ∧
    ((uint512_sub UINT512_ONE UINT512_MAX).2.WF ∧
    ((uint512_sub UINT512_ONE UINT512_MAX).2.val : Int)
      = ((UINT512_ONE.val : Int) - (UINT512_MAX.val : Int)) % 2 ^ 512 ∧
    ((uint512_sub UINT512_ONE UINT512_MAX).1 = INT512_ERR_UNDERFLOW ↔
      UINT512_ONE.val < UINT512_MAX.val) ∧
    ((uint512_sub UINT512_ONE UINT512_MAX).1 = INT512_OK ↔
      UINT512_MAX.val ≤ UINT512_ONE.val) ∧
    (uint512_sub UINT512_ZERO UINT512_ONE).1 = INT512_ERR_UNDERFLOW) :=
  ⟨⟨by decide, by decide⟩, C4_uint512_sub_exact UINT512_ONE UINT512_MAX (by decide) (by decide)⟩

/-- Claim C5: unsigned text round trip. For every 512-bit unsigned value `v` and every
radix in `[2, 36]`, `uint512_to_string` into a buffer of at least 513 bytes returns OK, and
`uint512_from_string` on the produced text with the same radix returns OK with a result
equal to `v`. -/
theorem C5_uint512_text_round_trip (v : uint512_t) (hv : v.WF) (base : Int)
    (hb : 2 ≤ base ∧ base ≤ 36) (buffer_size : Nat) (hs : 513 ≤ buffer_size) :
    ∃ text : List Char,
      uint512_to_string v buffer_size base = some (INT512_OK, some text) ∧
      uint512_from_string text base = (INT512_OK, some v) := by
  refine ⟨_, uint512_to_string_spec v hv base hb buffer_size hs, ?_⟩
  have hb2 : 2 ≤ base.toNat := by omega
  by_cases h0 : v.val = 0
  · rw [if_pos h0]
    obtain ⟨r, r1, r2, r3⟩ := uint512_from_string_digits base hb [0] (by simp)
      (by intro d hd; simp only [List.mem_singleton] at hd; omega) (by simp)
    have hr0 : r.val = v.val := by rw [r3, h0]; simp
    rw [uint512_t.eq_of_val_eq r2 hv hr0] at r1
    exact r1
  · rw [if_neg h0]
    obtain ⟨r, r1, r2, r3⟩ := uint512_from_string_digits base hb
      (Nat.digits base.toNat v.val).reverse
      (by
        intro h
        exact (Nat.digits_ne_nil_iff_ne_zero (b := base.toNat)).mpr h0
          (List.reverse_eq_nil_iff.mp h))
      (by
        intro d hd
        exact Nat.digits_lt_base (by omega) (List.mem_reverse.mp hd))
      (by rw [horner_reverse, Nat.ofDigits_digits]; exact hv.val_lt)
    rw [horner_reverse, Nat.ofDigits_digits] at r3
    rw [uint512_t.eq_of_val_eq r2 hv r3] at r1
    exact r1

theorem C5_uint512_text_round_trip_witness :
    (uint512_t.WF ⟨[123456789, 987654321, 0, 0, 0, 0, 0, 0]⟩ ∧
      ((2 : Int) ≤ 10 ∧ (10 : Int) ≤ 36) ∧ 513 ≤ 513) ∧
    ∃ text : List Char,
      uint512_to_string ⟨[123456789, 987654321, 0, 0, 0, 0, 0, 0]⟩ 513 10
        = some (INT512_OK, some text) ∧
      uint512_from_string text 10
        = (INT512_OK, some ⟨[123456789, 987654321, 0, 0, 0, 0, 0, 0]⟩) :=
  ⟨⟨by decide, by decide, by decide⟩,
    C5_uint512_text_round_trip ⟨[123456789, 987654321, 0, 0, 0, 0, 0, 0]⟩ (by decide) 10
      (by decide) 513 (by decide)⟩

/-- Claim C6, as amended: for every signed `a` and every non-zero signed `b` other than
the pair `a = INT512_MIN`, `b = -1`, `int512_div` returns OK with a quotient `q` and a
remainder `r` whose two's-complement values satisfy `a = b * q + r` over the integers,
where `q` is `a / b` rounded toward zero. -/
theorem C6_int512_div_identity (a b : int512_t) (ha : a.WF) (hb : b.WF) (hb0 : b.val ≠ 0)
    (hne : ¬ (a.val = -2 ^ 511 ∧ b.val = -1)) :
    ∃ q r : int512_t, int512_div a b = some (INT512_OK, some (q, r)) ∧
      a.val = b.val * q.val + r.val ∧ q.val = a.val.tdiv b.val := by
  obtain ⟨q, r, h1, _, _, hr, hq, _⟩ := int512_div_spec a b ha hb hb0
  refine ⟨q, r, h1, ?_, hq hne⟩
  rw [hq hne, hr]
  exact (Int.tdiv_add_tmod a.val b.val).symm

theorem C6_int512_div_identity_witness :
    (int512_t.WF ⟨[2 ^ 64 - 100, UINT64_MAX, UINT64_MAX, UINT64_MAX,
        UINT64_MAX, UINT64_MAX, UINT64_MAX, UINT64_MAX]⟩ ∧
      int512_t.WF ⟨[30, 0, 0, 0, 0, 0, 0, 0]⟩ ∧
      int512_t.val ⟨[30, 0, 0, 0, 0, 0, 0, 0]⟩ ≠ 0 ∧
      ¬ (int512_t.val ⟨[2 ^ 64 - 100, UINT64_MAX, UINT64_MAX, UINT64_MAX,
          UINT64_MAX, UINT64_MAX, UINT64_MAX, UINT64_MAX]⟩ = -2 ^ 511 ∧
        int512_t.val ⟨[30, 0, 0, 0, 0, 0, 0, 0]⟩ = -1)) ∧
    ∃ q r : int512_t,
      int512_div ⟨[2 ^ 64 - 100, UINT64_MAX, UINT64_MAX, UINT64_MAX,
          UINT64_MAX, UINT64_MAX, UINT64_MAX, UINT64_MAX]⟩ ⟨[30, 0, 0, 0, 0, 0, 0, 0]⟩
        = some (INT512_OK, some (q, r)) ∧
      int512_t.val ⟨[2 ^ 64 - 100, UINT64_MAX, UINT64_MAX, UINT64_MAX,
          UINT64_MAX, UINT64_MAX, UINT64_MAX, UINT64_MAX]⟩
        = int512_t.val ⟨[30, 0, 0, 0, 0, 0, 0, 0]⟩ * q.val + r.val ∧
      q.val = (int512_t.val ⟨[2 ^ 64 - 100, UINT64_MAX, UINT64_MAX, UINT64_MAX,
          UINT64_MAX, UINT64_MAX, UINT64_MAX, UINT64_MAX]⟩).tdiv
        (int512_t.val ⟨[30, 0, 0, 0, 0, 0, 0, 0]⟩) :=
  ⟨⟨by decide, by decide, by decide, by decide⟩,
    C6_int512_div_identity _ _ (by decide) (by decide) (by decide) (by decide)⟩

/-- Claim C6 fails as stated: `INT512_MIN / -1` returns OK with quotient `INT512_MIN` and
remainder zero, and `-2 ^ 511 ≠ (-1) * (-2 ^ 511) + 0`. -/
theorem C6_counterexample :
    INT512_MIN.WF ∧
    int512_t.WF ⟨[UINT64_MAX, UINT64_MAX, UINT64_MAX, UINT64_MAX,
      UINT64_MAX, UINT64_MAX, UINT64_MAX, UINT64_MAX]⟩ ∧
    int512_t.val ⟨[UINT64_MAX, UINT64_MAX, UINT64_MAX, UINT64_MAX,
      UINT64_MAX, UINT64_MAX, UINT64_MAX, UINT64_MAX]⟩ = -1 ∧
    int512_div INT512_MIN ⟨[UINT64_MAX, UINT64_MAX, UINT64_MAX, UINT64_MAX,
        UINT64_MAX, UINT64_MAX, UINT64_MAX, UINT64_MAX]⟩
      = some (INT512_OK, some (INT512_MIN, INT512_ZERO)) ∧
    ¬ ∃ q r : int512_t,
      int512_div INT512_MIN ⟨[UINT64_MAX, UINT64_MAX, UINT64_MAX, UINT64_MAX,
          UINT64_MAX, UINT64_MAX, UINT64_MAX, UINT64_MAX]⟩
        = some (INT512_OK, some (q, r)) ∧
      INT512_MIN.val = int512_t.val ⟨[UINT64_MAX, UINT64_MAX, UINT64_MAX, UINT64_MAX,
          UINT64_MAX, UINT64_MAX, UINT64_MAX, UINT64_MAX]⟩ * q.val + r.val := by
  have hev : int512_div INT512_MIN ⟨[UINT64_MAX, UINT64_MAX, UINT64_MAX, UINT64_MAX,
        UINT64_MAX, UINT64_MAX, UINT64_MAX, UINT64_MAX]⟩
      = some (INT512_OK, some (INT512_MIN, INT512_ZERO)) := by decide
  refine ⟨by decide, by decide, by decide, hev, ?_⟩
  rintro ⟨q, r, h1, h2⟩
  rw [hev] at h1
  simp only [Option.some.injEq, Prod.mk.injEq, true_and] at h1
  rw [← h1.1, ← h1.2] at h2
  revert h2
  decide

/-- Claim C7: for every signed `a` and every non-zero signed `b` (including `INT512_MIN`
for either), the remainder `r` returned by `int512_div` is zero or has the sign of the
dividend `a`, and `|r| < |b|` as integers. -/
theorem C7_int512_div_remainder (a b : int512_t) (ha : a.WF) (hb : b.WF) (hb0 : b.val ≠ 0) :
    ∃ q r : int512_t, int512_div a b = some (INT512_OK, some (q, r)) ∧
      (r.val = 0 ∨ (0 < r.val ∧ 0 < a.val) ∨ (r.val < 0 ∧ a.val < 0)) ∧
      |r.val| < |b.val| := by
  obtain ⟨q, r, h1, _, _, hr, _, _⟩ := int512_div_spec a b ha hb hb0
  obtain ⟨t1, t2, t3⟩ := int_tmod_facts a.val b.val hb0
  rw [← hr] at t1 t2 t3
  refine ⟨q, r, h1, ?_, ?_⟩
  · omega
  · rw [Int.abs_eq_natAbs, Int.abs_eq_natAbs]
    omega

theorem C7_int512_div_remainder_witness :
    (INT512_MIN.WF ∧ INT512_MAX.WF ∧ INT512_MAX.val ≠ 0) ∧
    ∃ q r : int512_t, int512_div INT512_MIN INT512_MAX = some (INT512_OK, some (q, r)) ∧
      (r.val = 0 ∨ (0 < r.val ∧ 0 < INT512_MIN.val) ∨ (r.val < 0 ∧ INT512_MIN.val < 0)) ∧
      |r.val| < |INT512_MAX.val| :=
  ⟨⟨by decide, by decide, by decide⟩,
    C7_int512_div_remainder INT512_MIN INT512_MAX (by decide) (by decide) (by decide)⟩

/-- Claim C8: for every signed `a` and `b`, `int512_mul` returns OK if and only if the
mathematical product of the two's-complement values lies in `[-2 ^ 511, 2 ^ 511 - 1]`, and
then the result's value is that product; otherwise it returns OVERFLOW. `MIN * 1 = MIN`
and `MIN * 0 = 0` are OK, `MIN * (-1)` is OVERFLOW, and `10 * (-20)` is OK, negative, of
magnitude 200. -/
theorem C8_int512_mul_exact (a b : int512_t) (ha : a.WF) (hb : b.WF) :
    (int512_mul a b).2.WF ∧
    ((int512_mul a b).1 = INT512_OK ↔
      (-2 ^ 511 ≤ a.val * b.val ∧ a.val * b.val ≤ 2 ^ 511 - 1)) ∧
    ((int512_mul a b).1 = INT512_OK → (int512_mul a b).2.val = a.val * b.val) ∧
    ((int512_mul a b).1 ≠ INT512_OK → (int512_mul a b).1 = INT512_ERR_OVERFLOW) ∧
    int512_mul INT512_MIN INT512_ONE = (INT512_OK, INT512_MIN) ∧
    int512_mul INT512_MIN INT512_ZERO = (INT512_OK, INT512_ZERO) ∧
    (int512_mul INT512_MIN ⟨[UINT64_MAX, UINT64_MAX, UINT64_MAX, UINT64_MAX,
      UINT64_MAX, UINT64_MAX, UINT64_MAX, UINT64_MAX]⟩).1 = INT512_ERR_OVERFLOW ∧
    ((int512_mul ⟨[10, 0, 0, 0, 0, 0, 0, 0]⟩ ⟨[2 ^ 64 - 20, UINT64_MAX, UINT64_MAX, UINT64_MAX,
        UINT64_MAX, UINT64_MAX, UINT64_MAX, UINT64_MAX]⟩).1 = INT512_OK ∧
      int512_is_negative (int512_mul ⟨[10, 0, 0, 0, 0, 0, 0, 0]⟩ ⟨[2 ^ 64 - 20, UINT64_MAX,
        UINT64_MAX, UINT64_MAX, UINT64_MAX, UINT64_MAX, UINT64_MAX, UINT64_MAX]⟩).2 = true ∧
      int512_negate (int512_mul ⟨[10, 0, 0, 0, 0, 0, 0, 0]⟩ ⟨[2 ^ 64 - 20, UINT64_MAX,
        UINT64_MAX, UINT64_MAX, UINT64_MAX, UINT64_MAX, UINT64_MAX, UINT64_MAX]⟩).2
        = ⟨[200, 0, 0, 0, 0, 0, 0, 0]⟩) := by
  obtain ⟨h1, h2, h3, h4⟩ := int512_mul_spec a b ha hb
  refine ⟨h1, h2, h3, ?_, by decide, by decide, by decide, by decide, by decide, by decide⟩
  intro h
  rcases h4 with h5 | h5
  · exact absurd h5 h
  · exact h5

theorem C8_int512_mul_exact_witness :
    (INT512_MIN.WF ∧ INT512_MAX.WF) ∧
    ((int512_mul INT512_MIN INT512_MAX).2.WF ∧
    ((int512_mul INT512_MIN INT512_MAX).1 = INT512_OK ↔
      (-2 ^ 511 ≤ INT512_MIN.val * INT512_MAX.val ∧
        INT512_MIN.val * INT512_MAX.val ≤ 2 ^ 511 - 1)) ∧
    ((int512_mul INT512_MIN INT512_MAX).1 = INT512_OK →
      (int512_mul INT512_MIN INT512_MAX).2.val = INT512_MIN.val * INT512_MAX.val) ∧
    ((int512_mul INT512_MIN INT512_MAX).1 ≠ INT512_OK →
      (int512_mul INT512_MIN INT512_MAX).1 = INT512_ERR_OVERFLOW) ∧
    int512_mul INT512_MIN INT512_ONE = (INT512_OK, INT512_MIN) ∧
    int512_mul INT512_MIN INT512_ZERO = (INT512_OK, INT512_ZERO) ∧
    (int512_mul INT512_MIN ⟨[UINT64_MAX, UINT64_MAX, UINT64_MAX, UINT64_MAX,
      UINT64_MAX, UINT64_MAX, UINT64_MAX, UINT64_MAX]⟩).1 = INT512_ERR_OVERFLOW ∧
    ((int512_mul ⟨[10, 0, 0, 0, 0, 0, 0, 0]⟩ ⟨[2 ^ 64 - 20, UINT64_MAX, UINT64_MAX, UINT64_MAX,
        UINT64_MAX, UINT64_MAX, UINT64_MAX, UINT64_MAX]⟩).1 = INT512_OK ∧
      int512_is_negative (int512_mul ⟨[10, 0, 0, 0, 0, 0, 0, 0]⟩ ⟨[2 ^ 64 - 20, UINT64_MAX,
        UINT64_MAX, UINT64_MAX, UINT64_MAX, UINT64_MAX, UINT64_MAX, UINT64_MAX]⟩).2 = true ∧
      int512_negate (int512_mul ⟨[10, 0, 0, 0, 0, 0, 0, 0]⟩ ⟨[2 ^ 64 - 20, UINT64_MAX,
        UINT64_MAX, UINT64_MAX, UINT64_MAX, UINT64_MAX, UINT64_MAX, UINT64_MAX]⟩).2
        = ⟨[200, 0, 0, 0, 0, 0, 0, 0]⟩)) :=
  ⟨⟨by decide, by decide⟩, C8_int512_mul_exact INT512_MIN INT512_MAX (by decide) (by decide)⟩

/-- Claim C9: for every signed `a` and `b`, `int512_add` writes the two's-complement
pattern of `(a + b) mod 2 ^ 512` and returns OVERFLOW iff the mathematical sum exceeds
`2 ^ 511 - 1`, UNDERFLOW iff it is below `-2 ^ 511`, and OK iff it is representable, in
which case the result's value is exactly `a + b`. `add(INT512_MAX, INT512_ONE)` is
OVERFLOW; `(-100) + (-50)` is OK and negative. -/
theorem C9_int512_add_exact (a b : int512_t) (ha : a.WF) (hb : b.WF) :
    (int512_add a b).2.WF ∧
    (wordsVal (int512_add a b).2.words : Int) = (a.val + b.val) % 2 ^ 512 ∧
    ((int512_add a b).1 = INT512_ERR_OVERFLOW ↔ a.val + b.val > 2 ^ 511 - 1) ∧
    ((int512_add a b).1 = INT512_ERR_UNDERFLOW ↔ a.val + b.val < -2 ^ 511) ∧
    ((int512_add a b).1 = INT512_OK ↔
      (-2 ^ 511 ≤ a.val + b.val ∧ a.val + b.val ≤ 2 ^ 511 - 1)) ∧
    ((int512_add a b).1 = INT512_OK → (int512_add a b).2.val = a.val + b.val) ∧
    (int512_add INT512_MAX INT512_ONE).1 = INT512_ERR_OVERFLOW ∧
    ((int512_add ⟨[2 ^ 64 - 100, UINT64_MAX, UINT64_MAX, UINT64_MAX, UINT64_MAX, UINT64_MAX,
        UINT64_MAX, UINT64_MAX]⟩ ⟨[2 ^ 64 - 50, UINT64_MAX, UINT64_MAX, UINT64_MAX, UINT64_MAX,
        UINT64_MAX, UINT64_MAX, UINT64_MAX]⟩).1 = INT512_OK ∧
      int512_is_negative (int512_add ⟨[2 ^ 64 - 100, UINT64_MAX, UINT64_MAX, UINT64_MAX,
        UINT64_MAX, UINT64_MAX, UINT64_MAX, UINT64_MAX]⟩ ⟨[2 ^ 64 - 50, UINT64_MAX, UINT64_MAX,
        UINT64_MAX, UINT64_MAX, UINT64_MAX, UINT64_MAX, UINT64_MAX]⟩).2 = true) := by
  obtain ⟨h1, h2, h3, h4, h5, h6⟩ := int512_add_spec a b ha hb
  exact ⟨h1, h2, h3, h4, h5, h6, by decide, by decide, by decide⟩

theorem C9_int512_add_exact_witness :
    (INT512_MIN.WF ∧ INT512_MIN.WF) ∧
    ((int512_add INT512_MIN INT512_MIN).2.WF ∧
    (wordsVal (int512_add INT512_MIN INT512_MIN).2.words : Int)
      = (INT512_MIN.val + INT512_MIN.val) % 2 ^ 512 ∧
    ((int512_add INT512_MIN INT512_MIN).1 = INT512_ERR_OVERFLOW ↔
      INT512_MIN.val + INT512_MIN.val > 2 ^ 511 - 1) ∧
    ((int512_add INT512_MIN INT512_MIN).1 = INT512_ERR_UNDERFLOW ↔
      INT512_MIN.val + INT512_MIN.val < -2 ^ 511) ∧
    ((int512_add INT512_MIN INT512_MIN).1 = INT512_OK ↔
      (-2 ^ 511 ≤ INT512_MIN.val + INT512_MIN.val ∧
        INT512_MIN.val + INT512_MIN.val ≤ 2 ^ 511 - 1)) ∧
    ((int512_add INT512_MIN INT512_MIN).1 = INT512_OK →
      (int512_add INT512_MIN INT512_MIN).2.val = INT512_MIN.val + INT512_MIN.val) ∧
    (int512_add INT512_MAX INT512_ONE).1 = INT512_ERR_OVERFLOW ∧
    ((int512_add ⟨[2 ^ 64 - 100, UINT64_MAX, UINT64_MAX, UINT64_MAX, UINT64_MAX, UINT64_MAX,
        UINT64_MAX, UINT64_MAX]⟩ ⟨[2 ^ 64 - 50, UINT64_MAX, UINT64_MAX, UINT64_MAX, UINT64_MAX,
        UINT64_MAX, UINT64_MAX, UINT64_MAX]⟩).1 = INT512_OK ∧
      int512_is_negative (int512_add ⟨[2 ^ 64 - 100, UINT64_MAX, UINT64_MAX, UINT64_MAX,
        UINT64_MAX, UINT64_MAX, UINT64_MAX, UINT64_MAX]⟩ ⟨[2 ^ 64 - 50, UINT64_MAX, UINT64_MAX,
        UINT64_MAX, UINT64_MAX, UINT64_MAX, UINT64_MAX, UINT64_MAX]⟩).2 = true)) :=
  ⟨⟨by decide, by decide⟩, C9_int512_add_exact INT512_MIN INT512_MIN (by decide) (by decide)⟩

/-- Claim C10: for every signed `a` and `b`, `int512_sub` writes the two's-complement
pattern of `(a - b) mod 2 ^ 512` and returns OVERFLOW iff the mathematical difference
exceeds `2 ^ 511 - 1`, UNDERFLOW iff it is below `-2 ^ 511`, and OK iff it is
representable, in which case the result's value is exactly `a - b`. `0 - INT512_MIN` is
OVERFLOW and `INT512_MIN - 1` is UNDERFLOW. -/
theorem C10_int512_sub_exact (a b : int512_t) (ha : a.WF) (hb : b.WF) :
    (int512_sub a b).2.WF ∧
    (wordsVal (int512_sub a b).2.words : Int) = (a.val - b.val) % 2 ^ 512 ∧
    ((int512_sub a b).1 = INT512_ERR_OVERFLOW ↔ a.val - b.val > 2 ^ 511 - 1) ∧
    ((int512_sub a b).1 = INT512_ERR_UNDERFLOW ↔ a.val - b.val < -2 ^ 511) ∧
    ((int512_sub a b).1 = INT512_OK ↔
      (-2 ^ 511 ≤ a.val - b.val ∧ a.val - b.val ≤ 2 ^ 511 - 1)) ∧
    ((int512_sub a b).1 = INT512_OK → (int512_sub a b).2.val = a.val - b.val) ∧
    (int512_sub INT512_ZERO INT512_MIN).1 = INT512_ERR_OVERFLOW ∧
    (int512_sub INT512_MIN INT512_ONE).1 = INT512_ERR_UNDERFLOW := by
  obtain ⟨h1, h2, h3, h4, h5, h6⟩ := int512_sub_spec a b ha hb
  exact ⟨h1, h2, h3, h4, h5, h6, by decide, by decide⟩

theorem C10_int512_sub_exact_witness :
    (INT512_MAX.WF ∧ INT512_MIN.WF) ∧
    ((int512_sub INT512_MAX INT512_MIN).2.WF ∧
    (wordsVal (int512_sub INT512_MAX INT512_MIN).2.words : Int)
      = (INT512_MAX.val - INT512_MIN.val) % 2 ^ 512 ∧
    ((int512_sub INT512_MAX INT512_MIN).1 = INT512_ERR_OVERFLOW ↔
      INT512_MAX.val - INT512_MIN.val > 2 ^ 511 - 1) ∧
    ((int512_sub INT512_MAX INT512_MIN).1 = INT512_ERR_UNDERFLOW ↔
      INT512_MAX.val - INT512_MIN.val < -2 ^ 511) ∧
    ((int512_sub INT512_MAX INT512_MIN).1 = INT512_OK ↔
      (-2 ^ 511 ≤ INT512_MAX.val - INT512_MIN.val ∧
        INT512_MAX.val - INT512_MIN.val ≤ 2 ^ 511 - 1)) ∧
    ((int512_sub INT512_MAX INT512_MIN).1 = INT512_OK →
      (int512_sub INT512_MAX INT512_MIN).2.val = INT512_MAX.val - INT512_MIN.val) ∧
    (int512_sub INT512_ZERO INT512_MIN).1 = INT512_ERR_OVERFLOW ∧
    (int512_sub INT512_MIN INT512_ONE).1 = INT512_ERR_UNDERFLOW) :=
  ⟨⟨by decide, by decide⟩, C10_int512_sub_exact INT512_MAX INT512_MIN (by decide) (by decide)⟩

/-! ## Further facts for the error paths and algebraic laws -/

theorem uint512_eq_zero_iff (b : uint512_t) (hb : b.WF) : b = UINT512_ZERO ↔ b.val = 0 := by
  constructor
  · intro h; rw [h]; exact wordsVal_zero
  · intro h
    exact uint512_t.eq_of_val_eq hb wordsWF_zero (by rw [h]; exact wordsVal_zero.symm)

theorem uint512_div_zero (a b : uint512_t) (hb0 : b.val = 0) :
    uint512_div a b = some (INT512_ERR_DIVIDE_BY_ZERO, none) := by
  simp only [uint512_div, (uint512_is_zero_iff b).mpr hb0, if_true]

theorem int512_val_eq_zero_iff (a : int512_t) (ha : a.WF) : a.val = 0 ↔ wordsVal a.words = 0 := by
  have hla := ha.val_lt
  rcases int512_val_cases a ha with ⟨_, a2, a3⟩ | ⟨_, a2, a3⟩ <;>
  · rw [a3]; omega

theorem int512_div_zero (a b : int512_t) (hb0 : wordsVal b.words = 0) :
    int512_div a b = some (INT512_ERR_DIVIDE_BY_ZERO, none) := by
  simp only [int512_div, (int512_is_zero_iff b).mpr hb0, if_true]

theorem int512_eq_of_words_val_eq {a b : int512_t} (ha : a.WF) (hb : b.WF)
    (h : wordsVal a.words = wordsVal b.words) : a = b := by
  cases a with | mk aw => cases b with | mk bw =>
  have := wordsVal_inj aw bw (by rw [ha.1, hb.1]) ha.2 hb.2 h
  rw [this]

theorem int512_eq_of_val {a b : int512_t} (ha : a.WF) (hb : b.WF)
    (h : a.val = b.val) : a = b := by
  apply int512_eq_of_words_val_eq ha hb
  have hla := ha.val_lt
  have hlb := hb.val_lt
  rcases int512_val_cases a ha with ⟨_, a2, a3⟩ | ⟨_, a2, a3⟩ <;>
  rcases int512_val_cases b hb with ⟨_, b2, b3⟩ | ⟨_, b2, b3⟩ <;>
  · rw [a3, b3] at h; omega

theorem uint512_add_status (a b : uint512_t) :
    (uint512_add a b).1 = INT512_OK ∨ (uint512_add a b).1 = INT512_ERR_OVERFLOW := by
  simp only [uint512_add]
  split_ifs
  · exact Or.inr rfl
  · exact Or.inl rfl

theorem uint512_mul_status (a b : uint512_t) :
    (uint512_mul a b).1 = INT512_OK ∨ (uint512_mul a b).1 = INT512_ERR_OVERFLOW := by
  simp only [uint512_mul]
  split_ifs
  · exact Or.inr rfl
  · exact Or.inl rfl

theorem uint512_add_comm (a b : uint512_t) (ha : a.WF) (hb : b.WF) :
    uint512_add a b = uint512_add b a := by
  obtain ⟨h1, h2, h3, h4⟩ := uint512_add_spec a b ha hb
  obtain ⟨k1, k2, k3, k4⟩ := uint512_add_spec b a hb ha
  have hv : (uint512_add a b).2 = (uint512_add b a).2 :=
    uint512_t.eq_of_val_eq h1 k1 (by rw [h2, k2, Nat.add_comm])
  have hs : (uint512_add a b).1 = (uint512_add b a).1 := by
    by_cases h : a.val + b.val < 2 ^ 512
    · rw [h4.mpr h, k4.mpr (by omega)]
    · rw [h3.mpr (by omega), k3.mpr (by omega)]
  exact Prod.ext hs hv

theorem uint512_mul_comm (a b : uint512_t) (ha : a.WF) (hb : b.WF) :
    uint512_mul a b = uint512_mul b a := by
  obtain ⟨h1, h2, h3, h4⟩ := uint512_mul_spec a b ha hb
  obtain ⟨k1, k2, k3, k4⟩ := uint512_mul_spec b a hb ha
  have hv : (uint512_mul a b).2 = (uint512_mul b a).2 :=
    uint512_t.eq_of_val_eq h1 k1 (by rw [h2, k2, Nat.mul_comm])
  have hs : (uint512_mul a b).1 = (uint512_mul b a).1 := by
    rw [Nat.mul_comm] at k3 k4
    by_cases h : a.val * b.val < 2 ^ 512
    · rw [h4.mpr h, k4.mpr h]
    · rw [h3.mpr (by omega), k3.mpr (by omega)]
  exact Prod.ext hs hv

theorem int512_compare_spec (a b : int512_t) (ha : a.WF) (hb : b.WF) :
    (a.val < b.val → int512_compare a b = -1) ∧
    (a.val = b.val → int512_compare a b = 0) ∧
    (a.val > b.val → int512_compare a b = 1) := by
  obtain ⟨c1, c2, c3⟩ := uint512_compare_spec a.toU b.toU ha hb
  have hva : a.toU.val = wordsVal a.words := rfl
  have hvb : b.toU.val = wordsVal b.words := rfl
  rw [hva, hvb] at c1 c2 c3
  have hla := ha.val_lt
  have hlb := hb.val_lt
  rcases int512_val_cases a ha with ⟨a1, a2, a3⟩ | ⟨a1, a2, a3⟩ <;>
  rcases int512_val_cases b hb with ⟨b1, b2, b3⟩ | ⟨b1, b2, b3⟩
  · simp only [int512_compare, a1, b1, bne_self_eq_false, Bool.false_eq_true, if_false]
    rw [a3, b3]
    exact ⟨fun h => c1 (by omega), fun h => c2 (by omega), fun h => c3 (by omega)⟩
  · simp only [int512_compare, a1, b1]
    rw [a3, b3]
    refine ⟨fun _ => by simp, fun h => ?_, fun h => ?_⟩ <;> omega
  · simp only [int512_compare, a1, b1]
    rw [a3, b3]
    refine ⟨fun h => ?_, fun h => ?_, fun _ => by simp⟩ <;> omega
  · simp only [int512_compare, a1, b1, bne_self_eq_false, Bool.false_eq_true, if_false]
    rw [a3, b3]
    exact ⟨fun h => c1 (by omega), fun h => c2 (by omega), fun h => c3 (by omega)⟩

/-! ## Parsing texts of digit symbols -/

theorem digitSymbol_facts : ∀ d : Nat, d < 36 → ∀ up : Bool,
    (digitSymbol up d ≠ '\x00' ∧ digitSymbol up d ≠ ' ' ∧ digitSymbol up d ≠ '\t' ∧
      digitSymbol up d ≠ '+' ∧ digitSymbol up d ≠ '-' ∧
      char_digit (digitSymbol up d) = some (Int.ofNat d)) := by
  decide

theorem digit_char_eq_symbol : ∀ d : Nat, d < 36 →
    digit_char (Int.ofNat d) = digitSymbol false d := by
  decide

theorem symbol_of_code :
    (∀ k : Nat, k < 10 → Char.ofNat (48 + k) = digitSymbol false k) ∧
    (∀ k : Nat, k < 26 → Char.ofNat (97 + k) = digitSymbol false (10 + k)) ∧
    (∀ k : Nat, k < 26 → Char.ofNat (65 + k) = digitSymbol true (10 + k)) := by
  decide

theorem positionalValue_eq (b : Nat) (ds : List (Bool × Nat)) (x : Nat) :
    (ds.map Prod.snd).foldl (fun x d => x * b + d) x
      = ds.foldl (fun x p => x * b + p.2) x := by
  rw [List.foldl_map]

/-- One valid digit in the accumulation loop of `uint512_from_string`. -/
theorem uint512_from_string_loop_step (base : Int) (hb : 2 ≤ base ∧ base ≤ 36)
    (up : Bool) (d : Nat) (hd : d < base.toNat) (cs : List Char) (acc : uint512_t)
    (ha : acc.WF) :
    (acc.val * base.toNat + d < 2 ^ 512 →
      ∃ r : uint512_t, r.WF ∧ r.val = acc.val * base.toNat + d ∧
        uint512_from_string_loop base (digitSymbol up d :: cs) acc
          = uint512_from_string_loop base cs r) ∧
    (2 ^ 512 ≤ acc.val * base.toNat + d →
      (uint512_from_string_loop base (digitSymbol up d :: cs) acc).1 = INT512_ERR_OVERFLOW) := by
  have hb2 : 2 ≤ base.toNat := by omega
  have hb36 : base.toNat ≤ 36 := by omega
  have hu : u64_of_int base = base.toNat := by
    unfold u64_of_int
    omega
  obtain ⟨bw, bv⟩ := small_word_spec base.toNat (by omega)
  obtain ⟨c1, _, _, _, _, c5⟩ := digitSymbol_facts d (by omega) up
  obtain ⟨m1, m2, m3, m4⟩ := uint512_mul_spec acc ⟨[base.toNat, 0, 0, 0, 0, 0, 0, 0]⟩ ha bw
  rw [bv] at m2 m3 m4
  have hdu : u64_of_int (Int.ofNat d) = d := u64_of_int_natCast d (by omega)
  obtain ⟨dw, dv⟩ := small_word_spec d (by omega)
  obtain ⟨s1, s2, s3, s4⟩ := uint512_add_spec _ ⟨[d, 0, 0, 0, 0, 0, 0, 0]⟩ m1 dw
  rw [dv, m2] at s2 s3 s4
  have hnge : ¬ (Int.ofNat d ≥ base) := by
    have : (Int.ofNat d) = (d : Int) := rfl
    omega
  have hOK : INT512_ERR_OVERFLOW ≠ INT512_OK := by decide
  constructor
  · intro hlt
    have hmok := m4.mpr (by omega)
    rw [Nat.mod_eq_of_lt (by omega)] at s2 s4
    have hsok := s4.mpr (by omega)
    rw [Nat.mod_eq_of_lt (by omega)] at s2
    refine ⟨_, s1, s2, ?_⟩
    simp only [uint512_from_string_loop, if_neg c1, c5, if_neg hnge, hu, hmok,
      ne_eq, not_true_eq_false, if_false, hdu, hsok]
  · intro hge
    by_cases hm : acc.val * base.toNat < 2 ^ 512
    · have hmok := m4.mpr hm
      rw [Nat.mod_eq_of_lt hm] at s3
      have hsov := s3.mpr (by omega)
      simp only [uint512_from_string_loop, if_neg c1, c5, if_neg hnge, hu, hmok,
        ne_eq, not_true_eq_false, if_false, hdu, hsov, hOK, not_false_eq_true, if_true]
    · have hmov := m3.mpr (by omega)
      simp only [uint512_from_string_loop, if_neg c1, c5, if_neg hnge, hu, hmov,
        ne_eq, hOK, not_false_eq_true, if_true]

/-- A run of valid digits in the accumulation loop of `uint512_from_string`, followed
by any text `rest`. -/
theorem uint512_from_string_loop_digits (base : Int) (hb : 2 ≤ base ∧ base ≤ 36)
    (ds : List (Bool × Nat)) : ∀ (acc : uint512_t) (rest : List Char), acc.WF →
    (∀ p ∈ ds, p.2 < base.toNat) →
    ((ds.map Prod.snd).foldl (fun x d => x * base.toNat + d) acc.val < 2 ^ 512 →
      ∃ r : uint512_t, r.WF ∧
        r.val = (ds.map Prod.snd).foldl (fun x d => x * base.toNat + d) acc.val ∧
        uint512_from_string_loop base (ds.map (fun p => digitSymbol p.1 p.2) ++ rest) acc
          = uint512_from_string_loop base rest r) ∧
    (2 ^ 512 ≤ (ds.map Prod.snd).foldl (fun x d => x * base.toNat + d) acc.val →
      (uint512_from_string_loop base (ds.map (fun p => digitSymbol p.1 p.2) ++ rest) acc).1
        = INT512_ERR_OVERFLOW) := by
  induction ds with
  | nil =>
    intro acc rest ha _
    simp only [List.map_nil, List.foldl_nil, List.nil_append]
    refine ⟨fun _ => ⟨acc, ha, rfl, rfl⟩, fun h => ?_⟩
    have := ha.val_lt
    simp only [uint512_t.val] at h
    omega
  | cons p ds ih =>
    intro acc rest ha hd
    have hp := hd p (List.mem_cons_self _ _)
    have hd1 : ∀ q ∈ ds, q.2 < base.toNat := fun q hq => hd q (List.mem_cons_of_mem _ hq)
    obtain ⟨st1, st2⟩ := uint512_from_string_loop_step base hb p.1 p.2 hp
      (ds.map (fun p => digitSymbol p.1 p.2) ++ rest) acc ha
    have hmono := horner_ge base.toNat (by omega) (ds.map Prod.snd) (acc.val * base.toNat + p.2)
    simp only [List.map_cons, List.foldl_cons, List.cons_append]
    by_cases hstep : acc.val * base.toNat + p.2 < 2 ^ 512
    · obtain ⟨r, r1, r2, r3⟩ := st1 hstep
      obtain ⟨i1, i2⟩ := ih r rest r1 hd1
      rw [r2] at i1 i2
      rw [r3]
      exact ⟨i1, i2⟩
    · refine ⟨fun h => ?_, fun _ => st2 (by omega)⟩
      omega

theorem skip_blanks_append (bl rest : List Char) (hbl : IsBlanks bl)
    (hr : rest.headD '\x00' ≠ ' ' ∧ rest.headD '\x00' ≠ '\t') :
    skip_blanks (bl ++ rest) = rest := by
  induction bl with
  | nil =>
    cases rest with
    | nil => rfl
    | cons c cs =>
      simp only [List.headD_cons] at hr
      have h : ¬ (c = ' ' ∨ c = '\t') := by
        rintro (h | h)
        · exact hr.1 h
        · exact hr.2 h
      simp only [List.nil_append, skip_blanks, if_neg h]
  | cons c bl ih =>
    have hc := hbl c (List.mem_cons_self _ _)
    simp only [List.cons_append, skip_blanks, if_pos hc]
    exact ih (fun x hx => hbl x (List.mem_cons_of_mem _ hx))

/-- The prefix handling of `uint512_from_string`: leading blanks and one optional `+`
are dropped, and the accumulation loop runs on the rest. When no `+` is present
the rest does not start with a blank or a `+`. -/
theorem uint512_from_string_strip (base : Int) (hb : 2 ≤ base ∧ base ≤ 36)
    (bl : List Char) (hbl : IsBlanks bl) (plus : Bool) (body : List Char)
    (hbody : plus = false → body.headD '\x00' ≠ ' ' ∧ body.headD '\x00' ≠ '\t' ∧
      body.headD '\x00' ≠ '+') :
    uint512_from_string (bl ++ ((if plus then ['+'] else []) ++ body)) base
      = if body.headD '\x00' = '\x00' then (INT512_ERR_INVALID_STRING, some UINT512_ZERO)
        else ((uint512_from_string_loop base body UINT512_ZERO).1,
          some (uint512_from_string_loop base body UINT512_ZERO).2) := by
  have h2 : ¬ (base < 2 ∨ base > 36) := by omega
  cases plus with
  | false =>
    obtain ⟨b1, b2, b3⟩ := hbody rfl
    simp only [Bool.false_eq_true, if_false, List.nil_append]
    simp only [uint512_from_string, if_neg h2, skip_blanks_append bl body hbl ⟨b1, b2⟩,
      if_neg b3]
  | true =>
    simp only [if_true]
    have hs : skip_blanks (bl ++ (['+'] ++ body)) = '+' :: body :=
      skip_blanks_append bl ('+' :: body) hbl
        ⟨by simp only [List.headD_cons]; decide, by simp only [List.headD_cons]; decide⟩
    simp only [uint512_from_string, if_neg h2, hs, List.headD_cons, if_true, List.tail_cons]

theorem char_le_iff (c d : Char) : c ≤ d ↔ c.toNat ≤ d.toNat := Iff.rfl

/-- A character that is no digit symbol below the base has no digit value below the
base. -/
theorem char_digit_invalid (base : Int) (hb : 2 ≤ base ∧ base ≤ 36) (bad : Char)
    (hbad : ∀ (up : Bool) (d : Nat), d < base.toNat → bad ≠ digitSymbol up d) :
    char_digit bad = none ∨ ∃ k : Int, char_digit bad = some k ∧ k ≥ base := by
  obtain ⟨t1, t2, t3⟩ := symbol_of_code
  have e0 : '0'.toNat = 48 := rfl
  have e9 : '9'.toNat = 57 := rfl
  have ea : 'a'.toNat = 97 := rfl
  have ez : 'z'.toNat = 122 := rfl
  have eA : 'A'.toNat = 65 := rfl
  have eZ : 'Z'.toNat = 90 := rfl
  unfold char_digit
  split_ifs with h1 h2 h3
  · right
    refine ⟨_, rfl, ?_⟩
    rw [char_le_iff, char_le_iff, e0, e9] at h1
    by_contra hlt
    rw [e0] at hlt
    have hc : bad = Char.ofNat (48 + (bad.toNat - 48)) := by
      rw [show 48 + (bad.toNat - 48) = bad.toNat by omega, Char.ofNat_toNat]
    exact hbad false (bad.toNat - 48) (by omega) (hc.trans (t1 _ (by omega)))
  · right
    refine ⟨_, rfl, ?_⟩
    rw [char_le_iff, char_le_iff, ea, ez] at h2
    by_contra hlt
    rw [ea] at hlt
    have hc : bad = Char.ofNat (97 + (bad.toNat - 97)) := by
      rw [show 97 + (bad.toNat - 97) = bad.toNat by omega, Char.ofNat_toNat]
    exact hbad false (10 + (bad.toNat - 97)) (by omega) (hc.trans (t2 _ (by omega)))
  · right
    refine ⟨_, rfl, ?_⟩
    rw [char_le_iff, char_le_iff, eA, eZ] at h3
    by_contra hlt
    rw [eA] at hlt
    have hc : bad = Char.ofNat (65 + (bad.toNat - 65)) := by
      rw [show 65 + (bad.toNat - 65) = bad.toNat by omega, Char.ofNat_toNat]
    exact hbad true (10 + (bad.toNat - 65)) (by omega) (hc.trans (t3 _ (by omega)))
  · exact Or.inl rfl

theorem uint512_from_string_loop_bad (base : Int) (hb : 2 ≤ base ∧ base ≤ 36) (bad : Char)
    (hnul : bad ≠ '\x00')
    (hbad : ∀ (up : Bool) (d : Nat), d < base.toNat → bad ≠ digitSymbol up d)
    (rest : List Char) (acc : uint512_t) :
    uint512_from_string_loop base (bad :: rest) acc = (INT512_ERR_INVALID_STRING, acc) := by
  rcases char_digit_invalid base hb bad hbad with h | ⟨k, h, hk⟩
  · simp only [uint512_from_string_loop, if_neg hnul, h]
  · simp only [uint512_from_string_loop, if_neg hnul, h, if_pos hk]

theorem uint512_ofNat_spec (n : Nat) (h : n < 2 ^ 512) :
    (uint512_t.ofNat n).WF ∧ (uint512_t.ofNat n).val = n := by
  constructor
  · refine ⟨by simp [uint512_t.ofNat], ?_⟩
    intro w hw
    simp only [uint512_t.ofNat, List.mem_map] at hw
    obtain ⟨i, _, hi⟩ := hw
    rw [← hi]
    exact Nat.mod_lt _ (Nat.two_pow_pos 64)
  · simp only [uint512_t.val, uint512_t.ofNat, List.range, List.range.loop, List.map_cons,
      List.map_nil, wordsVal]
    omega

/-! ## Signed text conversion -/

theorem digit_char_not_sign (d : Nat) (hd : d < 36) :
    digit_char (Int.ofNat d) ≠ '-' ∧ digit_char (Int.ofNat d) ≠ '+' ∧
    digit_char (Int.ofNat d) ≠ ' ' ∧ digit_char (Int.ofNat d) ≠ '\t' := by
  rw [digit_char_eq_symbol d hd]
  obtain ⟨_, c2, c3, c4, c5, _⟩ := digitSymbol_facts d hd false
  exact ⟨c5, c4, c2, c3⟩

/-- Parsing an optional `-` followed by a non-empty text of digit characters. -/
theorem int512_from_string_digits (base : Int) (hb : 2 ≤ base ∧ base ≤ 36) (neg : Bool)
    (ds : List Nat) (hne : ds ≠ []) (hd : ∀ d ∈ ds, d < base.toNat)
    (hlt : ds.foldl (fun x d => x * base.toNat + d) 0 < 2 ^ 512) :
    ∃ r : uint512_t, r.WF ∧ r.val = ds.foldl (fun x d => x * base.toNat + d) 0 ∧
      int512_from_string ((if neg then ['-'] else []) ++
          ds.map (fun d => digit_char (Int.ofNat d))) base
        = (INT512_OK, some (if neg then int512_negate r.toI else r.toI)) := by
  have h2 : ¬ (base < 2 ∨ base > 36) := by omega
  obtain ⟨r, r1, r2, r3⟩ := uint512_from_string_digits base hb ds hne hd hlt
  refine ⟨r, r2, r3, ?_⟩
  cases ds with
  | nil => exact absurd rfl hne
  | cons d ds =>
    have hdb := hd d (List.mem_cons_self _ _)
    obtain ⟨c1, c2, c3, c4⟩ := digit_char_not_sign d (by omega)
    have hblank : ¬ (digit_char (Int.ofNat d) = ' ' ∨ digit_char (Int.ofNat d) = '\t') := by
      rintro (h | h)
      · exact c3 h
      · exact c4 h
    have hminus : ¬ (('-' : Char) = ' ' ∨ ('-' : Char) = '\t') := by decide
    simp only [List.map_cons] at r1 ⊢
    cases neg with
    | true =>
      have e : (if true = true then ['-'] else []) ++
          (digit_char (Int.ofNat d) :: List.map (fun d => digit_char (Int.ofNat d)) ds)
          = '-' :: digit_char (Int.ofNat d) ::
            List.map (fun d => digit_char (Int.ofNat d)) ds := rfl
      rw [e]
      simp only [if_true, int512_from_string, if_neg h2, skip_blanks,
        if_neg hminus, List.headD_cons, List.tail_cons, r1, ne_eq, not_true_eq_false,
        if_false, Option.map_some']
    | false =>
      simp only [Bool.false_eq_true, if_false, List.nil_append, int512_from_string, if_neg h2,
        skip_blanks, if_neg hblank, List.headD_cons, if_neg c1, if_neg c2, r1, ne_eq,
        not_true_eq_false, Option.map_some']

/-! ## The claims C11 to C20 -/

/-- Claim C12: with all pointers valid, `uint512_div` and `int512_div` return
DIVIDE_BY_ZERO if and only if the divisor is zero (all eight words zero), for every
dividend; for a non-zero divisor they return OK. -/
theorem C12_divide_by_zero (a b : uint512_t) (ha : a.WF) (hb : b.WF)
    (c d : int512_t) (hc : c.WF) (hd : d.WF) :
    ((uint512_div a b).map Prod.fst = some INT512_ERR_DIVIDE_BY_ZERO ↔ b = UINT512_ZERO) ∧
    (b ≠ UINT512_ZERO → (uint512_div a b).map Prod.fst = some INT512_OK) ∧
    ((int512_div c d).map Prod.fst = some INT512_ERR_DIVIDE_BY_ZERO ↔ d = INT512_ZERO) ∧
    (d ≠ INT512_ZERO → (int512_div c d).map Prod.fst = some INT512_OK) ∧
    uint512_div ⟨[100, 0, 0, 0, 0, 0, 0, 0]⟩ UINT512_ZERO
      = some (INT512_ERR_DIVIDE_BY_ZERO, none) := by
  have hbz := uint512_eq_zero_iff b hb
  have hdz : d = INT512_ZERO ↔ wordsVal d.words = 0 := by
    constructor
    · intro h; rw [h]; decide
    · intro h
      exact int512_eq_of_words_val_eq hd (by decide) (by rw [h]; decide)
  have hu : b ≠ UINT512_ZERO → (uint512_div a b).map Prod.fst = some INT512_OK := by
    intro h
    obtain ⟨q, r, h1, _⟩ := uint512_div_spec a b ha hb (fun h0 => h (hbz.mpr h0))
    rw [h1]
    rfl
  have hi : d ≠ INT512_ZERO → (int512_div c d).map Prod.fst = some INT512_OK := by
    intro h
    obtain ⟨q, r, h1, _⟩ := int512_div_spec c d hc hd
      (fun h0 => h (hdz.mpr ((int512_val_eq_zero_iff d hd).mp h0)))
    rw [h1]
    rfl
  refine ⟨⟨fun h => ?_, fun h => ?_⟩, hu, ⟨fun h => ?_, fun h => ?_⟩, hi, by decide⟩
  · by_contra hne
    rw [hu hne] at h
    exact absurd h (by decide)
  · rw [uint512_div_zero a b (hbz.mp h)]
    rfl
  · by_contra hne
    rw [hi hne] at h
    exact absurd h (by decide)
  · rw [int512_div_zero c d (hdz.mp h)]
    rfl

theorem C12_divide_by_zero_witness :
    (UINT512_MAX.WF ∧ UINT512_ONE.WF ∧ INT512_MIN.WF ∧ INT512_ZERO.WF) ∧
    (((uint512_div UINT512_MAX UINT512_ONE).map Prod.fst = some INT512_ERR_DIVIDE_BY_ZERO ↔
      UINT512_ONE = UINT512_ZERO) ∧
    (UINT512_ONE ≠ UINT512_ZERO →
      (uint512_div UINT512_MAX UINT512_ONE).map Prod.fst = some INT512_OK) ∧
    ((int512_div INT512_MIN INT512_ZERO).map Prod.fst = some INT512_ERR_DIVIDE_BY_ZERO ↔
      INT512_ZERO = INT512_ZERO) ∧
    (INT512_ZERO ≠ INT512_ZERO →
      (int512_div INT512_MIN INT512_ZERO).map Prod.fst = some INT512_OK) ∧
    uint512_div ⟨[100, 0, 0, 0, 0, 0, 0, 0]⟩ UINT512_ZERO
      = some (INT512_ERR_DIVIDE_BY_ZERO, none)) :=
  ⟨⟨by decide, by decide, by decide, by decide⟩,
    C12_divide_by_zero UINT512_MAX UINT512_ONE (by decide) (by decide)
      INT512_MIN INT512_ZERO (by decide) (by decide)⟩

/-- Claim C13: for every unsigned `a` and `b` such that `uint512_add(a, b)` returns OK,
`uint512_sub` applied to that sum and `b` returns OK with a result equal to `a`. -/
theorem C13_add_then_sub (a b : uint512_t) (ha : a.WF) (hb : b.WF)
    (hok : (uint512_add a b).1 = INT512_OK) :
    uint512_sub (uint512_add a b).2 b = (INT512_OK, a) := by
  obtain ⟨h1, h2, _, h4⟩ := uint512_add_spec a b ha hb
  have hlt := h4.mp hok
  rw [Nat.mod_eq_of_lt hlt] at h2
  obtain ⟨s1, s2, _, s4⟩ := uint512_sub_spec (uint512_add a b).2 b h1 hb
  rw [h2] at s2 s4
  have hla : a.val < 2 ^ 512 := ha.val_lt
  have hv : (uint512_sub (uint512_add a b).2 b).2.val = a.val := by rw [s2]; omega
  apply Prod.ext
  · exact s4.mpr (by omega)
  · exact uint512_t.eq_of_val_eq s1 ha hv

theorem C13_add_then_sub_witness :
    (uint512_t.WF ⟨[UINT64_MAX, 0, 0, 0, 0, 0, 0, 0]⟩ ∧ UINT512_ONE.WF ∧
      (uint512_add ⟨[UINT64_MAX, 0, 0, 0, 0, 0, 0, 0]⟩ UINT512_ONE).1 = INT512_OK) ∧
    uint512_sub (uint512_add ⟨[UINT64_MAX, 0, 0, 0, 0, 0, 0, 0]⟩ UINT512_ONE).2 UINT512_ONE
      = (INT512_OK, ⟨[UINT64_MAX, 0, 0, 0, 0, 0, 0, 0]⟩) :=
  ⟨⟨by decide, by decide, by decide⟩,
    C13_add_then_sub ⟨[UINT64_MAX, 0, 0, 0, 0, 0, 0, 0]⟩ UINT512_ONE (by decide) (by decide)
      (by decide)⟩

/-- Claim C14: commutativity. For every unsigned `a` and `b`, `uint512_add(a, b)` and
`uint512_add(b, a)` give the same eight result words and the same status, and so do
`uint512_mul(a, b)` and `uint512_mul(b, a)`. -/
theorem C14_commutativity (a b : uint512_t) (ha : a.WF) (hb : b.WF) :
    uint512_add a b = uint512_add b a ∧ uint512_mul a b = uint512_mul b a :=
  ⟨uint512_add_comm a b ha hb, uint512_mul_comm a b ha hb⟩

theorem C14_commutativity_witness :
    (uint512_t.WF ⟨[0, 0, 0, 0, 0, 0, 0, UINT64_MAX]⟩ ∧
      uint512_t.WF ⟨[2, 0, 0, 0, 7, 0, 0, 0]⟩) ∧
    (uint512_add ⟨[0, 0, 0, 0, 0, 0, 0, UINT64_MAX]⟩ ⟨[2, 0, 0, 0, 7, 0, 0, 0]⟩
        = uint512_add ⟨[2, 0, 0, 0, 7, 0, 0, 0]⟩ ⟨[0, 0, 0, 0, 0, 0, 0, UINT64_MAX]⟩ ∧
      uint512_mul ⟨[0, 0, 0, 0, 0, 0, 0, UINT64_MAX]⟩ ⟨[2, 0, 0, 0, 7, 0, 0, 0]⟩
        = uint512_mul ⟨[2, 0, 0, 0, 7, 0, 0, 0]⟩ ⟨[0, 0, 0, 0, 0, 0, 0, UINT64_MAX]⟩) :=
  ⟨⟨by decide, by decide⟩,
    C14_commutativity ⟨[0, 0, 0, 0, 0, 0, 0, UINT64_MAX]⟩ ⟨[2, 0, 0, 0, 7, 0, 0, 0]⟩
      (by decide) (by decide)⟩

/-- Claim C15: for every unsigned `a` and `b`, `uint512_compare` returns -1 if `a < b`,
0 if `a = b` and 1 if `a > b` as 512-bit natural numbers; it returns 0 exactly when all
eight words are equal; and `compare(a, b) = -compare(b, a)`. -/
theorem C15_uint512_compare (a b : uint512_t) (ha : a.WF) (hb : b.WF) :
    (a.val < b.val → uint512_compare a b = -1) ∧
    (a.val = b.val → uint512_compare a b = 0) ∧
    (a.val > b.val → uint512_compare a b = 1) ∧
    (uint512_compare a b = 0 ↔ a.words = b.words) ∧
    uint512_compare a b = -uint512_compare b a := by
  obtain ⟨h1, h2, h3⟩ := uint512_compare_spec a b ha hb
  obtain ⟨k1, k2, k3⟩ := uint512_compare_spec b a hb ha
  refine ⟨h1, h2, h3, ⟨fun h => ?_, fun h => ?_⟩, ?_⟩
  · rcases Nat.lt_trichotomy a.val b.val with h4 | h4 | h4
    · rw [h1 h4] at h; exact absurd h (by decide)
    · rw [uint512_t.eq_of_val_eq ha hb h4]
    · rw [h3 h4] at h; exact absurd h (by decide)
  · exact h2 (by simp only [uint512_t.val, h])
  · rcases Nat.lt_trichotomy a.val b.val with h4 | h4 | h4
    · rw [h1 h4, k3 h4]
    · rw [h2 h4, k2 h4.symm]; rfl
    · rw [h3 h4, k1 h4]; rfl

theorem C15_uint512_compare_witness :
    (uint512_t.WF ⟨[0, 1, 0, 0, 0, 0, 0, 0]⟩ ∧ uint512_t.WF ⟨[UINT64_MAX, 0, 0, 0, 0, 0, 0, 0]⟩) ∧
    ((uint512_t.val ⟨[0, 1, 0, 0, 0, 0, 0, 0]⟩ < uint512_t.val ⟨[UINT64_MAX, 0, 0, 0, 0, 0, 0, 0]⟩ →
      uint512_compare ⟨[0, 1, 0, 0, 0, 0, 0, 0]⟩ ⟨[UINT64_MAX, 0, 0, 0, 0, 0, 0, 0]⟩ = -1) ∧
    (uint512_t.val ⟨[0, 1, 0, 0, 0, 0, 0, 0]⟩ = uint512_t.val ⟨[UINT64_MAX, 0, 0, 0, 0, 0, 0, 0]⟩ →
      uint512_compare ⟨[0, 1, 0, 0, 0, 0, 0, 0]⟩ ⟨[UINT64_MAX, 0, 0, 0, 0, 0, 0, 0]⟩ = 0) ∧
    (uint512_t.val ⟨[0, 1, 0, 0, 0, 0, 0, 0]⟩ > uint512_t.val ⟨[UINT64_MAX, 0, 0, 0, 0, 0, 0, 0]⟩ →
      uint512_compare ⟨[0, 1, 0, 0, 0, 0, 0, 0]⟩ ⟨[UINT64_MAX, 0, 0, 0, 0, 0, 0, 0]⟩ = 1) ∧
    (uint512_compare ⟨[0, 1, 0, 0, 0, 0, 0, 0]⟩ ⟨[UINT64_MAX, 0, 0, 0, 0, 0, 0, 0]⟩ = 0 ↔
      uint512_t.words ⟨[0, 1, 0, 0, 0, 0, 0, 0]⟩
        = uint512_t.words ⟨[UINT64_MAX, 0, 0, 0, 0, 0, 0, 0]⟩) ∧
    uint512_compare ⟨[0, 1, 0, 0, 0, 0, 0, 0]⟩ ⟨[UINT64_MAX, 0, 0, 0, 0, 0, 0, 0]⟩
      = -uint512_compare ⟨[UINT64_MAX, 0, 0, 0, 0, 0, 0, 0]⟩ ⟨[0, 1, 0, 0, 0, 0, 0, 0]⟩) :=
  ⟨⟨by decide, by decide⟩,
    C15_uint512_compare ⟨[0, 1, 0, 0, 0, 0, 0, 0]⟩ ⟨[UINT64_MAX, 0, 0, 0, 0, 0, 0, 0]⟩
      (by decide) (by decide)⟩

/-- Claim C16: for every signed `a` and `b`, `int512_compare` returns -1, 0 or 1 according
to whether the two's-complement value of `a` is less than, equal to or greater than that
of `b`; in particular a negative value compares below a non-negative one. -/
theorem C16_int512_compare (a b : int512_t) (ha : a.WF) (hb : b.WF) :
    (a.val < b.val → int512_compare a b = -1) ∧
    (a.val = b.val → int512_compare a b = 0) ∧
    (a.val > b.val → int512_compare a b = 1) ∧
    (int512_is_negative a = true → int512_is_negative b = false →
      int512_compare a b = -1) := by
  obtain ⟨h1, h2, h3⟩ := int512_compare_spec a b ha hb
  refine ⟨h1, h2, h3, fun hn hp => ?_⟩
  have e1 := int512_val_of_neg a ha hn
  have e2 := int512_val_of_nonneg b hb hp
  have := (int512_is_negative_iff a ha).mp hn
  have hla := ha.val_lt
  exact h1 (by rw [e1, e2]; omega)

theorem C16_int512_compare_witness :
    (INT512_MIN.WF ∧
      int512_t.WF ⟨[UINT64_MAX, UINT64_MAX, UINT64_MAX, UINT64_MAX,
        UINT64_MAX, UINT64_MAX, UINT64_MAX, UINT64_MAX]⟩) ∧
    ((INT512_MIN.val < int512_t.val ⟨[UINT64_MAX, UINT64_MAX, UINT64_MAX, UINT64_MAX,
        UINT64_MAX, UINT64_MAX, UINT64_MAX, UINT64_MAX]⟩ →
      int512_compare INT512_MIN ⟨[UINT64_MAX, UINT64_MAX, UINT64_MAX, UINT64_MAX,
        UINT64_MAX, UINT64_MAX, UINT64_MAX, UINT64_MAX]⟩ = -1) ∧
    (INT512_MIN.val = int512_t.val ⟨[UINT64_MAX, UINT64_MAX, UINT64_MAX, UINT64_MAX,
        UINT64_MAX, UINT64_MAX, UINT64_MAX, UINT64_MAX]⟩ →
      int512_compare INT512_MIN ⟨[UINT64_MAX, UINT64_MAX, UINT64_MAX, UINT64_MAX,
        UINT64_MAX, UINT64_MAX, UINT64_MAX, UINT64_MAX]⟩ = 0) ∧
    (INT512_MIN.val > int512_t.val ⟨[UINT64_MAX, UINT64_MAX, UINT64_MAX, UINT64_MAX,
        UINT64_MAX, UINT64_MAX, UINT64_MAX, UINT64_MAX]⟩ →
      int512_compare INT512_MIN ⟨[UINT64_MAX, UINT64_MAX, UINT64_MAX, UINT64_MAX,
        UINT64_MAX, UINT64_MAX, UINT64_MAX, UINT64_MAX]⟩ = 1) ∧
    (int512_is_negative INT512_MIN = true →
      int512_is_negative ⟨[UINT64_MAX, UINT64_MAX, UINT64_MAX, UINT64_MAX,
        UINT64_MAX, UINT64_MAX, UINT64_MAX, UINT64_MAX]⟩ = false →
      int512_compare INT512_MIN ⟨[UINT64_MAX, UINT64_MAX, UINT64_MAX, UINT64_MAX,
        UINT64_MAX, UINT64_MAX, UINT64_MAX, UINT64_MAX]⟩ = -1)) :=
  ⟨⟨by decide, by decide⟩,
    C16_int512_compare INT512_MIN ⟨[UINT64_MAX, UINT64_MAX, UINT64_MAX, UINT64_MAX,
      UINT64_MAX, UINT64_MAX, UINT64_MAX, UINT64_MAX]⟩ (by decide) (by decide)⟩

/-- Claim C17: for every radix in `[2, 36]` and every text made of optional leading
spaces/tabs, an optional single `+`, and then one or more digits below the radix
(`0`-`9`, letters in either case counting 10..35), `uint512_from_string` returns OK with
the positional value `N` of the digits when `N < 2 ^ 512`, and returns OVERFLOW if and
only if `N ≥ 2 ^ 512`. `"12345"` in base 10 gives 12345, `"FF"` in base 16 gives 255 and
`"101"` in base 2 gives 5. -/
theorem C17_uint512_from_string_value (base : Int) (hb : 2 ≤ base ∧ base ≤ 36)
    (bl : List Char) (hbl : IsBlanks bl) (plus : Bool) (ds : List (Bool × Nat))
    (hne : ds ≠ []) (hd : ∀ p ∈ ds, p.2 < base.toNat) :
    (positionalValue base.toNat (ds.map Prod.snd) < 2 ^ 512 →
      uint512_from_string
          (bl ++ ((if plus then ['+'] else []) ++ ds.map (fun p => digitSymbol p.1 p.2))) base
        = (INT512_OK, some (uint512_t.ofNat (positionalValue base.toNat (ds.map Prod.snd))))) ∧
    ((uint512_from_string
          (bl ++ ((if plus then ['+'] else []) ++ ds.map (fun p => digitSymbol p.1 p.2)))
          base).1 = INT512_ERR_OVERFLOW ↔
      2 ^ 512 ≤ positionalValue base.toNat (ds.map Prod.snd)) ∧
    uint512_from_string "12345".toList 10 = (INT512_OK, some ⟨[12345, 0, 0, 0, 0, 0, 0, 0]⟩) ∧
    uint512_from_string "FF".toList 16 = (INT512_OK, some ⟨[255, 0, 0, 0, 0, 0, 0, 0]⟩) ∧
    uint512_from_string "101".toList 2 = (INT512_OK, some ⟨[5, 0, 0, 0, 0, 0, 0, 0]⟩) := by
  refine ⟨?_, ?_, by decide, by decide, by decide⟩
  all_goals
    obtain ⟨p, ps, hps⟩ := List.exists_cons_of_ne_nil hne
    have hp : p.2 < base.toNat := hd p (by rw [hps]; exact List.mem_cons_self _ _)
    obtain ⟨c1, c2, c3, c4, _, _⟩ := digitSymbol_facts p.2 (by omega) p.1
    have hhead : (ds.map (fun p => digitSymbol p.1 p.2)).headD '\x00' = digitSymbol p.1 p.2 := by
      rw [hps]; rfl
    have hstrip := uint512_from_string_strip base hb bl hbl plus
      (ds.map (fun p => digitSymbol p.1 p.2)) (fun _ => by rw [hhead]; exact ⟨c2, c3, c4⟩)
    rw [hhead, if_neg c1] at hstrip
    obtain ⟨l1, l2⟩ := uint512_from_string_loop_digits base hb ds UINT512_ZERO [] wordsWF_zero hd
    rw [show UINT512_ZERO.val = 0 from wordsVal_zero, List.append_nil] at l1 l2
    rw [hstrip]
    unfold positionalValue
  · intro hlt
    obtain ⟨r, r1, r2, r3⟩ := l1 hlt
    obtain ⟨o1, o2⟩ := uint512_ofNat_spec _ hlt
    have hr : r = uint512_t.ofNat ((ds.map Prod.snd).foldl (fun x d => x * base.toNat + d) 0) :=
      uint512_t.eq_of_val_eq r1 o1 (by rw [r2, o2])
    rw [r3, ← hr]
    rfl
  · constructor
    · intro hov
      by_contra hlt
      obtain ⟨r, _, _, r3⟩ := l1 (by omega)
      rw [r3] at hov
      have hov1 : INT512_OK = INT512_ERR_OVERFLOW := hov
      exact absurd hov1 (by decide)
    · intro hge
      exact l2 hge

theorem C17_uint512_from_string_value_witness :
    (((2 : Int) ≤ 16 ∧ (16 : Int) ≤ 36) ∧ IsBlanks [' ', '\t'] ∧
      [(true, 15), (false, 15)] ≠ [] ∧
      ∀ p ∈ [(true, 15), (false, 15)], p.2 < (16 : Int).toNat) ∧
    ((positionalValue (16 : Int).toNat ([(true, 15), (false, 15)].map Prod.snd) < 2 ^ 512 →
      uint512_from_string
          ([' ', '\t'] ++ ((if true then ['+'] else []) ++
            [(true, 15), (false, 15)].map (fun p => digitSymbol p.1 p.2))) 16
        = (INT512_OK, some (uint512_t.ofNat
            (positionalValue (16 : Int).toNat ([(true, 15), (false, 15)].map Prod.snd))))) ∧
    ((uint512_from_string
          ([' ', '\t'] ++ ((if true then ['+'] else []) ++
            [(true, 15), (false, 15)].map (fun p => digitSymbol p.1 p.2))) 16).1
        = INT512_ERR_OVERFLOW ↔
      2 ^ 512 ≤ positionalValue (16 : Int).toNat ([(true, 15), (false, 15)].map Prod.snd)) ∧
    uint512_from_string "12345".toList 10 = (INT512_OK, some ⟨[12345, 0, 0, 0, 0, 0, 0, 0]⟩) ∧
    uint512_from_string "FF".toList 16 = (INT512_OK, some ⟨[255, 0, 0, 0, 0, 0, 0, 0]⟩) ∧
    uint512_from_string "101".toList 2 = (INT512_OK, some ⟨[5, 0, 0, 0, 0, 0, 0, 0]⟩)) :=
  ⟨⟨by decide, by unfold IsBlanks; decide, by decide, by decide⟩,
    C17_uint512_from_string_value 16 (by decide) [' ', '\t'] (by unfold IsBlanks; decide) true
      [(true, 15), (false, 15)] (by decide) (by decide)⟩

/-- Claim C18, as amended: for every radix in `[2, 36]` and every text whose part after
the leading spaces/tabs and optional `+` consists of a (possibly empty) run of digits
below the radix followed by a character that is no digit below the radix,
`uint512_from_string` returns INVALID_STRING when the run's positional value is below
`2 ^ 512`, and OVERFLOW when it is not (the accumulation overflows before the bad
character is read). When the text has no `+` and the run is empty, the bad character is
not itself a blank or a `+`, which would belong to the prefix. `"12G"` in base 10 is
INVALID_STRING. -/
theorem C18_uint512_from_string_invalid (base : Int) (hb : 2 ≤ base ∧ base ≤ 36)
    (bl : List Char) (hbl : IsBlanks bl) (plus : Bool) (ds : List (Bool × Nat))
    (hd : ∀ p ∈ ds, p.2 < base.toNat) (bad : Char) (rest : List Char)
    (hnul : bad ≠ '\x00')
    (hbad : ∀ (up : Bool) (d : Nat), d < base.toNat → bad ≠ digitSymbol up d)
    (hfirst : plus = false → ds = [] → bad ≠ ' ' ∧ bad ≠ '\t' ∧ bad ≠ '+') :
    (positionalValue base.toNat (ds.map Prod.snd) < 2 ^ 512 →
      (uint512_from_string
          (bl ++ ((if plus then ['+'] else []) ++
            (ds.map (fun p => digitSymbol p.1 p.2) ++ bad :: rest))) base).1
        = INT512_ERR_INVALID_STRING) ∧
    (2 ^ 512 ≤ positionalValue base.toNat (ds.map Prod.snd) →
      (uint512_from_string
          (bl ++ ((if plus then ['+'] else []) ++
            (ds.map (fun p => digitSymbol p.1 p.2) ++ bad :: rest))) base).1
        = INT512_ERR_OVERFLOW) ∧
    (uint512_from_string "12G".toList 10).1 = INT512_ERR_INVALID_STRING := by
  have hhead : (ds.map (fun p => digitSymbol p.1 p.2) ++ bad :: rest).headD '\x00' ≠ '\x00' ∧
      (plus = false →
        (ds.map (fun p => digitSymbol p.1 p.2) ++ bad :: rest).headD '\x00' ≠ ' ' ∧
        (ds.map (fun p => digitSymbol p.1 p.2) ++ bad :: rest).headD '\x00' ≠ '\t' ∧
        (ds.map (fun p => digitSymbol p.1 p.2) ++ bad :: rest).headD '\x00' ≠ '+') := by
    cases ds with
    | nil =>
      simp only [List.map_nil, List.nil_append, List.headD_cons]
      exact ⟨hnul, fun h => hfirst h rfl⟩
    | cons p ps =>
      have hp : p.2 < base.toNat := hd p (List.mem_cons_self _ _)
      obtain ⟨c1, c2, c3, c4, _, _⟩ := digitSymbol_facts p.2 (by omega) p.1
      simp only [List.map_cons, List.cons_append, List.headD_cons]
      exact ⟨c1, fun _ => ⟨c2, c3, c4⟩⟩
  have hstrip := uint512_from_string_strip base hb bl hbl plus
    (ds.map (fun p => digitSymbol p.1 p.2) ++ bad :: rest) hhead.2
  rw [if_neg hhead.1] at hstrip
  obtain ⟨l1, l2⟩ := uint512_from_string_loop_digits base hb ds UINT512_ZERO (bad :: rest)
    wordsWF_zero hd
  rw [show UINT512_ZERO.val = 0 from wordsVal_zero] at l1 l2
  rw [hstrip]
  unfold positionalValue
  refine ⟨fun hlt => ?_, fun hge => l2 hge, by decide⟩
  obtain ⟨r, _, _, r3⟩ := l1 hlt
  rw [r3, uint512_from_string_loop_bad base hb bad hnul hbad rest r]

theorem C18_uint512_from_string_invalid_witness :
    (((2 : Int) ≤ 10 ∧ (10 : Int) ≤ 36) ∧ IsBlanks [' '] ∧
      (∀ p ∈ [(false, 1), (false, 2)], p.2 < (10 : Int).toNat) ∧ 'G' ≠ '\x00' ∧
      (∀ (up : Bool) (d : Nat), d < (10 : Int).toNat → 'G' ≠ digitSymbol up d) ∧
      (false = false → [(false, 1), (false, 2)] = ([] : List (Bool × Nat)) →
        'G' ≠ ' ' ∧ 'G' ≠ '\t' ∧ 'G' ≠ '+')) ∧
    ((positionalValue (10 : Int).toNat ([(false, 1), (false, 2)].map Prod.snd) < 2 ^ 512 →
      (uint512_from_string
          ([' '] ++ ((if false then ['+'] else []) ++
            ([(false, 1), (false, 2)].map (fun p => digitSymbol p.1 p.2) ++ 'G' :: ['7']))) 10).1
        = INT512_ERR_INVALID_STRING) ∧
    (2 ^ 512 ≤ positionalValue (10 : Int).toNat ([(false, 1), (false, 2)].map Prod.snd) →
      (uint512_from_string
          ([' '] ++ ((if false then ['+'] else []) ++
            ([(false, 1), (false, 2)].map (fun p => digitSymbol p.1 p.2) ++ 'G' :: ['7']))) 10).1
        = INT512_ERR_OVERFLOW) ∧
    (uint512_from_string "12G".toList 10).1 = INT512_ERR_INVALID_STRING) :=
  ⟨⟨by decide, by unfold IsBlanks; decide, by decide, by decide, by decide, by decide⟩,
    C18_uint512_from_string_invalid 10 (by decide) [' '] (by unfold IsBlanks; decide) false
      [(false, 1), (false, 2)] (by decide) 'G' ['7'] (by decide) (by decide) (by decide)⟩

/-- Claim C18 fails as stated: in base 36 the text of one hundred `z` followed by `!`
contains a character outside the digit alphabet, and `uint512_from_string` returns
OVERFLOW on it, not INVALID_STRING. -/
theorem C18_counterexample :
    ((2 : Int) ≤ 36 ∧ (36 : Int) ≤ 36) ∧
    '!' ∈ List.replicate 100 'z' ++ ['!'] ∧
    (∀ (up : Bool) (d : Nat), d < 36 → '!' ≠ digitSymbol up d) ∧
    (uint512_from_string (List.replicate 100 'z' ++ ['!']) 36).1 = INT512_ERR_OVERFLOW ∧
    (uint512_from_string (List.replicate 100 'z' ++ ['!']) 36).1
      ≠ INT512_ERR_INVALID_STRING := by
  decide

theorem uint512_from_string_nil (base : Int) (hb : 2 ≤ base ∧ base ≤ 36) :
    uint512_from_string [] base = (INT512_ERR_INVALID_STRING, some UINT512_ZERO) := by
  have h2 : ¬ (base < 2 ∨ base > 36) := by omega
  simp only [uint512_from_string, if_neg h2, skip_blanks]
  rfl

/-- Claim C19: for every radix in `[2, 36]`, `uint512_from_string` returns INVALID_STRING
on every text that is empty once leading spaces/tabs and one optional `+` are removed,
and `int512_from_string` returns INVALID_STRING on every text that is empty once leading
spaces/tabs and one optional sign are removed. -/
theorem C19_empty_text (base : Int) (hb : 2 ≤ base ∧ base ≤ 36) (bl : List Char)
    (hbl : IsBlanks bl) :
    (uint512_from_string bl base).1 = INT512_ERR_INVALID_STRING ∧
    (uint512_from_string (bl ++ ['+']) base).1 = INT512_ERR_INVALID_STRING ∧
    (int512_from_string bl base).1 = INT512_ERR_INVALID_STRING ∧
    (int512_from_string (bl ++ ['-']) base).1 = INT512_ERR_INVALID_STRING ∧
    (int512_from_string (bl ++ ['+']) base).1 = INT512_ERR_INVALID_STRING ∧
    (uint512_from_string "".toList base).1 = INT512_ERR_INVALID_STRING ∧
    (uint512_from_string "  ".toList base).1 = INT512_ERR_INVALID_STRING ∧
    (uint512_from_string "+".toList base).1 = INT512_ERR_INVALID_STRING ∧
    (uint512_from_string " \t+".toList base).1 = INT512_ERR_INVALID_STRING ∧
    (int512_from_string "".toList base).1 = INT512_ERR_INVALID_STRING ∧
    (int512_from_string "-".toList base).1 = INT512_ERR_INVALID_STRING ∧
    (int512_from_string "+".toList base).1 = INT512_ERR_INVALID_STRING := by
  have h2 : ¬ (base < 2 ∨ base > 36) := by omega
  have hnil := uint512_from_string_nil base hb
  have key : ∀ bl : List Char, IsBlanks bl →
      (uint512_from_string bl base).1 = INT512_ERR_INVALID_STRING ∧
      (uint512_from_string (bl ++ ['+']) base).1 = INT512_ERR_INVALID_STRING ∧
      (int512_from_string bl base).1 = INT512_ERR_INVALID_STRING ∧
      (int512_from_string (bl ++ ['-']) base).1 = INT512_ERR_INVALID_STRING ∧
      (int512_from_string (bl ++ ['+']) base).1 = INT512_ERR_INVALID_STRING := by
    intro bl hbl
    have s0 : skip_blanks bl = [] := by
      have := skip_blanks_append bl [] hbl ⟨by decide, by decide⟩
      rw [List.append_nil] at this
      exact this
    have sp : skip_blanks (bl ++ ['+']) = ['+'] :=
      skip_blanks_append bl ['+'] hbl ⟨by decide, by decide⟩
    have sm : skip_blanks (bl ++ ['-']) = ['-'] :=
      skip_blanks_append bl ['-'] hbl ⟨by decide, by decide⟩
    have hne : INT512_ERR_INVALID_STRING ≠ INT512_OK := by decide
    have c4 : ([] : List Char).headD '\x00' = '\x00' := by decide
    have d1 : ¬ (('\x00' : Char) = '+') := by decide
    have d2 : ¬ (('\x00' : Char) = '-') := by decide
    have d3 : ¬ (('+' : Char) = '-') := by decide
    refine ⟨?_, ?_, ?_, ?_, ?_⟩
    · simp only [uint512_from_string, if_neg h2, s0, List.headD_nil, if_neg d1, if_true]
    · simp only [uint512_from_string, if_neg h2, sp, List.headD_cons, if_true, List.tail_cons,
        c4]
    · simp only [int512_from_string, if_neg h2, s0, List.headD_nil, if_neg d1, if_neg d2, hnil,
        ne_eq, hne, not_false_eq_true, if_true]
    · simp only [int512_from_string, if_neg h2, sm, List.headD_cons, if_true, List.tail_cons,
        hnil, ne_eq, hne, not_false_eq_true]
    · simp only [int512_from_string, if_neg h2, sp, List.headD_cons, if_neg d3, if_true,
        List.tail_cons, hnil, ne_eq, hne, not_false_eq_true]
  obtain ⟨k1, k2, k3, k4, k5⟩ := key bl hbl
  have e0 := key [] (by unfold IsBlanks; decide)
  have e1 := key [' ', ' '] (by unfold IsBlanks; decide)
  have e2 := key [' ', '\t'] (by unfold IsBlanks; decide)
  exact ⟨k1, k2, k3, k4, k5, e0.1, e1.1, e0.2.1, e2.2.1, e0.2.2.1, e0.2.2.2.1, e0.2.2.2.2⟩

theorem C19_empty_text_witness :
    (((2 : Int) ≤ 10 ∧ (10 : Int) ≤ 36) ∧ IsBlanks [' ', '\t', ' ']) ∧
    ((uint512_from_string [' ', '\t', ' '] 10).1 = INT512_ERR_INVALID_STRING ∧
    (uint512_from_string ([' ', '\t', ' '] ++ ['+']) 10).1 = INT512_ERR_INVALID_STRING ∧
    (int512_from_string [' ', '\t', ' '] 10).1 = INT512_ERR_INVALID_STRING ∧
    (int512_from_string ([' ', '\t', ' '] ++ ['-']) 10).1 = INT512_ERR_INVALID_STRING ∧
    (int512_from_string ([' ', '\t', ' '] ++ ['+']) 10).1 = INT512_ERR_INVALID_STRING ∧
    (uint512_from_string "".toList 10).1 = INT512_ERR_INVALID_STRING ∧
    (uint512_from_string "  ".toList 10).1 = INT512_ERR_INVALID_STRING ∧
    (uint512_from_string "+".toList 10).1 = INT512_ERR_INVALID_STRING ∧
    (uint512_from_string " \t+".toList 10).1 = INT512_ERR_INVALID_STRING ∧
    (int512_from_string "".toList 10).1 = INT512_ERR_INVALID_STRING ∧
    (int512_from_string "-".toList 10).1 = INT512_ERR_INVALID_STRING ∧
    (int512_from_string "+".toList 10).1 = INT512_ERR_INVALID_STRING) :=
  ⟨⟨by decide, by unfold IsBlanks; decide⟩,
    C19_empty_text 10 (by decide) [' ', '\t', ' '] (by unfold IsBlanks; decide)⟩

/-- Claim C20, as amended: for every radix outside `[2, 36]`, `uint512_from_string` and
`int512_from_string` return INVALID_BASE for every text (empty or malformed text
included), and `uint512_to_string` and `int512_to_string` return INVALID_BASE for every
value and every buffer size other than 0: the radix check comes before the empty-text,
bad-digit and buffer-too-small checks. `from_string("123")` with base 1 and with base 37
is INVALID_BASE. -/
theorem C20_invalid_base (base : Int) (hb : base < 2 ∨ base > 36) (text : List Char)
    (v : uint512_t) (w : int512_t) (buffer_size : Nat) (hs : buffer_size ≠ 0) :
    uint512_from_string text base = (INT512_ERR_INVALID_BASE, none) ∧
    int512_from_string text base = (INT512_ERR_INVALID_BASE, none) ∧
    uint512_to_string v buffer_size base = some (INT512_ERR_INVALID_BASE, none) ∧
    int512_to_string w buffer_size base = some (INT512_ERR_INVALID_BASE, none) ∧
    (uint512_from_string "123".toList 1).1 = INT512_ERR_INVALID_BASE ∧
    (uint512_from_string "123".toList 37).1 = INT512_ERR_INVALID_BASE := by
  refine ⟨?_, ?_, ?_, ?_, by decide, by decide⟩
  · simp only [uint512_from_string, if_pos hb]
  · simp only [int512_from_string, if_pos hb]
  · simp only [uint512_to_string, if_neg hs, if_pos hb]
  · simp only [int512_to_string, if_neg hs, if_pos hb]

theorem C20_invalid_base_witness :
    (((-3 : Int) < 2 ∨ (-3 : Int) > 36) ∧ 1 ≠ 0) ∧
    (uint512_from_string "12G".toList (-3) = (INT512_ERR_INVALID_BASE, none) ∧
    int512_from_string "12G".toList (-3) = (INT512_ERR_INVALID_BASE, none) ∧
    uint512_to_string UINT512_MAX 1 (-3) = some (INT512_ERR_INVALID_BASE, none) ∧
    int512_to_string INT512_MIN 1 (-3) = some (INT512_ERR_INVALID_BASE, none) ∧
    (uint512_from_string "123".toList 1).1 = INT512_ERR_INVALID_BASE ∧
    (uint512_from_string "123".toList 37).1 = INT512_ERR_INVALID_BASE) :=
  ⟨⟨by decide, by decide⟩,
    C20_invalid_base (-3) (by decide) "12G".toList UINT512_MAX INT512_MIN 1 (by decide)⟩

/-- Claim C20 fails as stated: with a buffer size of 0 and the radix 1, which is outside
`[2, 36]`, `uint512_to_string` and `int512_to_string` return NULL_POINTER, not
INVALID_BASE: the test `buffer_size == 0` comes before the radix check. -/
theorem C20_counterexample :
    ((1 : Int) < 2 ∨ (1 : Int) > 36) ∧
    uint512_to_string UINT512_ONE 0 1 = some (INT512_ERR_NULL_POINTER, none) ∧
    int512_to_string INT512_ONE 0 1 = some (INT512_ERR_NULL_POINTER, none) ∧
    uint512_to_string UINT512_ONE 0 1 ≠ some (INT512_ERR_INVALID_BASE, none) ∧
    int512_to_string INT512_ONE 0 1 ≠ some (INT512_ERR_INVALID_BASE, none) := by
  decide

/-! ## Further facts about negation and the digit loop -/

theorem int512_negate_val (a : int512_t) (ha : a.WF) (hmin : wordsVal a.words ≠ 2 ^ 511) :
    (int512_negate a).val = -a.val := by
  obtain ⟨_, n2⟩ := int512_negate_spec a ha
  have hlt := ha.val_lt
  unfold int512_t.val
  rw [n2]
  generalize wordsVal a.words = V at *
  by_cases h0 : V = 0
  · subst h0
    simp
  · have e : (2 ^ 512 - V) % 2 ^ 512 = 2 ^ 512 - V := Nat.mod_eq_of_lt (by omega)
    rw [e]
    by_cases h1 : V < 2 ^ 511
    · rw [if_neg (by omega), if_pos h1]
      omega
    · rw [if_pos (by omega), if_neg h1]
      omega

theorem int512_negate_negate (a : int512_t) (ha : a.WF) :
    int512_negate (int512_negate a) = a := by
  obtain ⟨n1, n2⟩ := int512_negate_spec a ha
  obtain ⟨m1, m2⟩ := int512_negate_spec (int512_negate a) n1
  apply int512_eq_of_words_val_eq m1 ha
  rw [m2, n2]
  have hlt := ha.val_lt
  generalize wordsVal a.words = V at *
  by_cases h0 : V = 0
  · subst h0
    simp
  · have e : (2 ^ 512 - V) % 2 ^ 512 = 2 ^ 512 - V := Nat.mod_eq_of_lt (by omega)
    rw [e]
    have e2 : 2 ^ 512 - (2 ^ 512 - V) = V := by omega
    rw [e2]
    exact Nat.mod_eq_of_lt hlt

/-- The number of base-`b` digits of a non-zero value below `2 ^ 512`: at most 512,
and 512 only in base 2 with bit 511 set. -/
theorem digits_length_512 (b v : Nat) (hb : 2 ≤ b) (hv : v < 2 ^ 512) (h0 : v ≠ 0) :
    1 ≤ (Nat.digits b v).length ∧ (Nat.digits b v).length ≤ 512 ∧
    ((Nat.digits b v).length = 512 ↔ b = 2 ∧ 2 ^ 511 ≤ v) := by
  have hle := digits_length_le b v hb hv
  have hlen := Nat.digits_len b v (by omega) h0
  refine ⟨by omega, hle, ?_⟩
  constructor
  · intro h
    have hlog : Nat.log b v = 511 := by omega
    have hpow : b ^ 511 ≤ v := by
      rw [← hlog]
      exact Nat.pow_log_le_self b h0
    by_cases hb2 : b = 2
    · subst hb2
      exact ⟨rfl, hpow⟩
    · exfalso
      have h3 : 3 ^ 511 ≤ b ^ 511 := Nat.pow_le_pow_left (by omega) 511
      have h4 : (2 : Nat) ^ 512 < 3 ^ 511 := by norm_num
      omega
  · rintro ⟨rfl, h⟩
    have h1 : 511 ≤ Nat.log 2 v := by
      have := (Nat.pow_le_iff_le_log (by omega : 1 < 2) h0).mp h
      exact this
    omega

/-- With fewer free slots than digits, the digit loop writes past the scratch array. -/
theorem uint512_to_string_loop_short (base : Int) (hb : 2 ≤ base ∧ base ≤ 36) :
    ∀ (free : Nat) (num : uint512_t) (temp : List Char), num.WF →
    free < (Nat.digits base.toNat num.val).length →
    uint512_to_string_loop base free num temp = none := by
  have hbn : (base.toNat : Int) = base := Int.toNat_of_nonneg (by omega)
  have hb2 : 2 ≤ base.toNat := by omega
  have hu : u64_of_int base = base.toNat := by
    unfold u64_of_int
    omega
  obtain ⟨bw, bv⟩ := small_word_spec base.toNat (by omega)
  intro free
  induction free with
  | zero =>
    intro num temp _ hlen
    have h0 : num.val ≠ 0 := by
      intro h
      rw [h] at hlen
      simp at hlen
    have hz : uint512_is_zero num = false := by
      cases h : uint512_is_zero num
      · rfl
      · exact absurd ((uint512_is_zero_iff num).mp h) h0
    simp [uint512_to_string_loop, hz]
  | succ free ih =>
    intro num temp hn hlen
    have h0 : num.val ≠ 0 := by
      intro h
      rw [h] at hlen
      simp at hlen
    have hz : uint512_is_zero num = false := by
      cases h : uint512_is_zero num
      · rfl
      · exact absurd ((uint512_is_zero_iff num).mp h) h0
    obtain ⟨q, r, hdiv, hq, hr, hqv, hrv⟩ := uint512_div_spec num
      ⟨[base.toNat, 0, 0, 0, 0, 0, 0, 0]⟩ hn bw (by rw [bv]; omega)
    rw [bv] at hqv hrv
    have hdig := Nat.digits_def' (b := base.toNat) (by omega) (Nat.pos_of_ne_zero h0)
    rw [hdig] at hlen
    simp only [List.length_cons] at hlen
    simp only [uint512_to_string_loop, hz, Bool.false_eq_true, if_false, hu, hdiv]
    exact ih q _ hq (by rw [hqv]; omega)

/-- The result of `uint512_to_string` for every buffer size. -/
theorem uint512_to_string_full (v : uint512_t) (hv : v.WF) (base : Int)
    (hb : 2 ≤ base ∧ base ≤ 36) (buffer_size : Nat) :
    uint512_to_string v buffer_size base =
      some (if buffer_size = 0 then (INT512_ERR_NULL_POINTER, none)
        else if buffer_size < (if v.val = 0 then 1 else (Nat.digits base.toNat v.val).length) + 1
          then (INT512_ERR_INVALID_STRING, none)
        else (INT512_OK, some (if v.val = 0 then ['0']
          else ((Nat.digits base.toNat v.val).reverse.map
            (fun d => digit_char (Int.ofNat d)))))) := by
  have h2 : ¬ (base < 2 ∨ base > 36) := by omega
  by_cases h1 : buffer_size = 0
  · simp only [uint512_to_string, if_pos h1]
  simp only [uint512_to_string, if_neg h1, if_neg h2]
  by_cases h0 : v.val = 0
  · have e : (2 : Nat) = 1 + 1 := rfl
    simp only [(uint512_is_zero_iff v).mpr h0, if_true, if_pos h0]
    by_cases h3 : buffer_size < 2
    · rw [if_pos h3, if_pos (by omega)]
    · rw [if_neg h3, if_neg (by omega)]
  · have hz : uint512_is_zero v = false := by
      cases h : uint512_is_zero v
      · rfl
      · exact absurd ((uint512_is_zero_iff v).mp h) h0
    have hlen := digits_length_le base.toNat v.val (by omega) hv.val_lt
    rw [uint512_to_string_loop_spec base hb 600 v [] hv (by omega)]
    simp only [hz, Bool.false_eq_true, if_false, List.nil_append, if_neg h0]
    have hl : ((Nat.digits base.toNat v.val).map (fun d => digit_char (Int.ofNat d))).length
        = (Nat.digits base.toNat v.val).length := List.length_map _ _
    rw [hl]
    by_cases h3 : buffer_size < (Nat.digits base.toNat v.val).length + 1
    · rw [if_pos (by omega), if_pos h3]
    · rw [if_neg (by omega), if_neg h3, ← hl, range_map_reverse, List.map_reverse]

/-! ## The claims C21 to C30 -/

/-- Claim C29: `int512_negate` computes the two's-complement negation. For every `a` the
pattern of the result is `(2 ^ 512 - a) mod 2 ^ 512`, so its value is `-value(a)` for
every `a` other than `INT512_MIN`; negating `INT512_MIN` gives `INT512_MIN` itself,
negating zero gives zero, and negating twice gives the original pattern back. -/
theorem C29_int512_negate (a : int512_t) (ha : a.WF) :
    (int512_negate a).WF ∧
    wordsVal (int512_negate a).words = (2 ^ 512 - wordsVal a.words) % 2 ^ 512 ∧
    (a ≠ INT512_MIN → (int512_negate a).val = -a.val) ∧
    int512_negate INT512_MIN = INT512_MIN ∧
    int512_negate INT512_ZERO = INT512_ZERO ∧
    int512_negate (int512_negate a) = a := by
  obtain ⟨n1, n2⟩ := int512_negate_spec a ha
  refine ⟨n1, n2, ?_, by decide, by decide, int512_negate_negate a ha⟩
  intro hne
  apply int512_negate_val a ha
  intro h
  apply hne
  exact int512_eq_of_words_val_eq ha (by decide) (by rw [h]; decide)

theorem C29_int512_negate_witness :
    int512_t.WF ⟨[12345, 0, 0, 0, 0, 0, 0, 0]⟩ ∧
    ((int512_negate ⟨[12345, 0, 0, 0, 0, 0, 0, 0]⟩).WF ∧
    wordsVal (int512_negate ⟨[12345, 0, 0, 0, 0, 0, 0, 0]⟩).words
      = (2 ^ 512 - wordsVal [12345, 0, 0, 0, 0, 0, 0, 0]) % 2 ^ 512 ∧
    ((⟨[12345, 0, 0, 0, 0, 0, 0, 0]⟩ : int512_t) ≠ INT512_MIN →
      (int512_negate ⟨[12345, 0, 0, 0, 0, 0, 0, 0]⟩).val
        = -(int512_t.val ⟨[12345, 0, 0, 0, 0, 0, 0, 0]⟩)) ∧
    int512_negate INT512_MIN = INT512_MIN ∧
    int512_negate INT512_ZERO = INT512_ZERO ∧
    int512_negate (int512_negate ⟨[12345, 0, 0, 0, 0, 0, 0, 0]⟩)
      = ⟨[12345, 0, 0, 0, 0, 0, 0, 0]⟩) :=
  ⟨by decide, C29_int512_negate ⟨[12345, 0, 0, 0, 0, 0, 0, 0]⟩ (by decide)⟩
theorem testBit_511 (x : Nat) (hx : x < 2 ^ 512) : x.testBit 511 = true ↔ 2 ^ 511 ≤ x := by
  rw [Nat.testBit_to_div_mod, decide_eq_true_eq]
  omega

/-- The digits written by `uint512_to_string`, most significant first, as numbers. -/
theorem canonical_digits (b v : Nat) (hb : 2 ≤ b) (hb36 : b ≤ 36) (h0 : v ≠ 0) :
    (Nat.digits b v).reverse.map (fun d => digit_char (Int.ofNat d))
      = (Nat.digits b v).reverse.map (digitSymbol false) ∧
    (Nat.digits b v).reverse.head? ≠ some 0 ∧
    (∀ d ∈ (Nat.digits b v).reverse, d < b) ∧
    positionalValue b (Nat.digits b v).reverse = v := by
  have hlt : ∀ d ∈ (Nat.digits b v).reverse, d < b := by
    intro d hd
    exact Nat.digits_lt_base (by omega) (List.mem_reverse.mp hd)
  refine ⟨?_, ?_, hlt, ?_⟩
  · apply List.map_congr_left
    intro d hd
    exact digit_char_eq_symbol d (by have := hlt d hd; omega)
  · rw [List.head?_reverse]
    have hne := (Nat.digits_ne_nil_iff_ne_zero (b := b)).mpr h0
    rw [List.getLast?_eq_getLast _ hne]
    intro h
    exact Nat.getLast_digit_ne_zero b h0 (Option.some.inj h)
  · unfold positionalValue
    rw [horner_reverse, Nat.ofDigits_digits]

/-- Claim C30: for every non-zero unsigned value and every radix in `[2, 36]`, the
digit-collection loop of `uint512_to_string` ends after at most 512 iterations, one
per digit: exactly 512 only at radix 2 with bit 511 set, fewer at every larger radix.
So every write into the 600-byte scratch array is in bounds, and every collected
remainder is a digit below the radix. -/
theorem C30_digit_loop_bound (v : uint512_t) (hv : v.WF) (h0 : v.val ≠ 0) (base : Int)
    (hb : 2 ≤ base ∧ base ≤ 36) :
    ∃ ds : List Nat,
      uint512_to_string_loop base 600 v []
        = some (ds.map (fun d => digit_char (Int.ofNat d))) ∧
      (∀ free : Nat, uint512_to_string_loop base free v [] ≠ none ↔ ds.length ≤ free) ∧
      1 ≤ ds.length ∧ ds.length ≤ 512 ∧
      (ds.length = 512 ↔ base = 2 ∧ v.val.testBit 511 = true) ∧
      (2 < base → ds.length < 512) ∧
      (∀ d ∈ ds, (d : Int) < base) ∧
      ds = Nat.digits base.toNat v.val := by
  have hbn : (base.toNat : Int) = base := Int.toNat_of_nonneg (by omega)
  have hb2 : 2 ≤ base.toNat := by omega
  obtain ⟨l1, l2, l3⟩ := digits_length_512 base.toNat v.val hb2 hv.val_lt h0
  refine ⟨Nat.digits base.toNat v.val, ?_, ?_, l1, l2, ?_, ?_, ?_, rfl⟩
  · rw [uint512_to_string_loop_spec base hb 600 v [] hv (by omega)]
    rfl
  · intro free
    constructor
    · intro h
      by_contra hlt
      exact h (uint512_to_string_loop_short base hb free v [] hv (by omega))
    · intro h
      rw [uint512_to_string_loop_spec base hb free v [] hv h]
      exact Option.some_ne_none _
  · rw [l3, testBit_511 v.val hv.val_lt]
    constructor
    · rintro ⟨h1, h2⟩
      exact ⟨by omega, h2⟩
    · rintro ⟨h1, h2⟩
      exact ⟨by omega, h2⟩
  · intro h
    by_contra hge
    have := l3.mp (by omega)
    omega
  · intro d hd
    have := Nat.digits_lt_base (by omega : 1 < base.toNat) hd
    omega

theorem C30_digit_loop_bound_witness :
    (uint512_t.WF ⟨[255, 0, 0, 0, 0, 0, 0, 0]⟩ ∧
      uint512_t.val ⟨[255, 0, 0, 0, 0, 0, 0, 0]⟩ ≠ 0 ∧ ((2 : Int) ≤ 16 ∧ (16 : Int) ≤ 36)) ∧
    ∃ ds : List Nat,
      uint512_to_string_loop 16 600 ⟨[255, 0, 0, 0, 0, 0, 0, 0]⟩ []
        = some (ds.map (fun d => digit_char (Int.ofNat d))) ∧
      (∀ free : Nat, uint512_to_string_loop 16 free ⟨[255, 0, 0, 0, 0, 0, 0, 0]⟩ [] ≠ none ↔
        ds.length ≤ free) ∧
      1 ≤ ds.length ∧ ds.length ≤ 512 ∧
      (ds.length = 512 ↔
        (16 : Int) = 2 ∧ (uint512_t.val ⟨[255, 0, 0, 0, 0, 0, 0, 0]⟩).testBit 511 = true) ∧
      ((2 : Int) < 16 → ds.length < 512) ∧
      (∀ d ∈ ds, (d : Int) < 16) ∧
      ds = Nat.digits (16 : Int).toNat (uint512_t.val ⟨[255, 0, 0, 0, 0, 0, 0, 0]⟩) :=
  ⟨⟨by decide, by decide, by decide⟩,
    C30_digit_loop_bound ⟨[255, 0, 0, 0, 0, 0, 0, 0]⟩ (by decide) (by decide) 16 (by decide)⟩

/-- Claim C21: for every unsigned value `v`, every radix in `[2, 36]` and a buffer that
holds the digits and the terminator, `uint512_to_string` returns OK and writes the
canonical representation of `v`: `"0"` when `v = 0`, otherwise the digits of `v` in
that radix, most significant first, with no leading zero, as `0`-`9` and lowercase
`a`-`z`, followed by a terminator. 255 in base 16 is `"ff"`, 5 in base 2 is `"101"`,
12345 in base 10 is `"12345"`. -/
theorem C21_uint512_to_string_canonical (v : uint512_t) (hv : v.WF) (base : Int)
    (hb : 2 ≤ base ∧ base ≤ 36) (buffer_size : Nat) (bytes : List Char)
    (hs : (if v.val = 0 then 1 else (Nat.digits base.toNat v.val).length) + 1
      ≤ buffer_size) :
    (∃ ds : List Nat,
      uint512_to_string v buffer_size base
        = some (INT512_OK, some (ds.map (digitSymbol false))) ∧
      uint512_to_string_call (some v) (some bytes) buffer_size base
        = some (INT512_OK,
            some (ds.map (digitSymbol false) ++ '\x00' :: bytes.drop (ds.length + 1))) ∧
      (v.val = 0 → ds = [0]) ∧
      (v.val ≠ 0 → ds = (Nat.digits base.toNat v.val).reverse ∧ ds.head? ≠ some 0) ∧
      (∀ d ∈ ds, (d : Int) < base) ∧
      positionalValue base.toNat ds = v.val) ∧
    uint512_to_string ⟨[255, 0, 0, 0, 0, 0, 0, 0]⟩ 3 16 = some (INT512_OK, some "ff".toList) ∧
    uint512_to_string ⟨[5, 0, 0, 0, 0, 0, 0, 0]⟩ 4 2 = some (INT512_OK, some "101".toList) ∧
    uint512_to_string ⟨[12345, 0, 0, 0, 0, 0, 0, 0]⟩ 6 10
      = some (INT512_OK, some "12345".toList) := by
  refine ⟨?_, by decide, by decide, by decide⟩
  have hbn : (base.toNat : Int) = base := Int.toNat_of_nonneg (by omega)
  have hb2 : 2 ≤ base.toNat := by omega
  have hfull := uint512_to_string_full v hv base hb buffer_size
  rw [if_neg (by omega), if_neg (by omega)] at hfull
  by_cases h0 : v.val = 0
  · rw [if_pos h0] at hfull
    refine ⟨[0], hfull, ?_, fun _ => rfl, fun h => absurd h0 h, ?_, ?_⟩
    · simp only [uint512_to_string_call, hfull, write_text]
      rfl
    · intro d hd
      simp only [List.mem_singleton] at hd
      omega
    · rw [h0]
      simp [positionalValue]
  · rw [if_neg h0] at hfull
    obtain ⟨c1, c2, c3, c4⟩ := canonical_digits base.toNat v.val hb2 (by omega) h0
    rw [c1] at hfull
    refine ⟨(Nat.digits base.toNat v.val).reverse, hfull, ?_, fun h => absurd h h0,
      fun _ => ⟨rfl, c2⟩, ?_, c4⟩
    · simp only [uint512_to_string_call, hfull, write_text, List.length_map]
    · intro d hd
      have := c3 d hd
      omega

theorem C21_uint512_to_string_canonical_witness :
    (uint512_t.WF ⟨[255, 0, 0, 0, 0, 0, 0, 0]⟩ ∧ ((2 : Int) ≤ 16 ∧ (16 : Int) ≤ 36) ∧
      (if uint512_t.val ⟨[255, 0, 0, 0, 0, 0, 0, 0]⟩ = 0 then 1
        else (Nat.digits (16 : Int).toNat
          (uint512_t.val ⟨[255, 0, 0, 0, 0, 0, 0, 0]⟩)).length) + 1 ≤ 3) ∧
    ((∃ ds : List Nat,
      uint512_to_string ⟨[255, 0, 0, 0, 0, 0, 0, 0]⟩ 3 16
        = some (INT512_OK, some (ds.map (digitSymbol false))) ∧
      uint512_to_string_call (some ⟨[255, 0, 0, 0, 0, 0, 0, 0]⟩) (some "wxyz".toList) 3 16
        = some (INT512_OK,
            some (ds.map (digitSymbol false) ++ '\x00' :: "wxyz".toList.drop (ds.length + 1))) ∧
      (uint512_t.val ⟨[255, 0, 0, 0, 0, 0, 0, 0]⟩ = 0 → ds = [0]) ∧
      (uint512_t.val ⟨[255, 0, 0, 0, 0, 0, 0, 0]⟩ ≠ 0 →
        ds = (Nat.digits (16 : Int).toNat
          (uint512_t.val ⟨[255, 0, 0, 0, 0, 0, 0, 0]⟩)).reverse ∧ ds.head? ≠ some 0) ∧
      (∀ d ∈ ds, (d : Int) < 16) ∧
      positionalValue (16 : Int).toNat ds = uint512_t.val ⟨[255, 0, 0, 0, 0, 0, 0, 0]⟩) ∧
    uint512_to_string ⟨[255, 0, 0, 0, 0, 0, 0, 0]⟩ 3 16 = some (INT512_OK, some "ff".toList) ∧
    uint512_to_string ⟨[5, 0, 0, 0, 0, 0, 0, 0]⟩ 4 2 = some (INT512_OK, some "101".toList) ∧
    uint512_to_string ⟨[12345, 0, 0, 0, 0, 0, 0, 0]⟩ 6 10
      = some (INT512_OK, some "12345".toList)) :=
  ⟨⟨by decide, by decide, by simp [uint512_t.val, wordsVal]⟩,
    C21_uint512_to_string_canonical ⟨[255, 0, 0, 0, 0, 0, 0, 0]⟩ (by decide) 16 (by decide) 3
      "wxyz".toList (by simp [uint512_t.val, wordsVal])⟩

/-- Claim C22, as amended: for every unsigned value `v`, radix in `[2, 36]` and buffer
size other than 0, `uint512_to_string` returns INVALID_STRING and writes nothing when
the buffer size is below the number of digits plus one, and returns OK when the buffer
size is at least the number of digits plus one. With the buffer size 0 it returns
NULL_POINTER. -/
theorem C22_uint512_to_string_buffer (v : uint512_t) (hv : v.WF) (base : Int)
    (hb : 2 ≤ base ∧ base ≤ 36) (buffer_size : Nat) (hs : buffer_size ≠ 0) :
    (buffer_size < (if v.val = 0 then 1 else (Nat.digits base.toNat v.val).length) + 1 →
      uint512_to_string v buffer_size base = some (INT512_ERR_INVALID_STRING, none)) ∧
    ((if v.val = 0 then 1 else (Nat.digits base.toNat v.val).length) + 1 ≤ buffer_size →
      (uint512_to_string v buffer_size base).map Prod.fst = some INT512_OK) ∧
    uint512_to_string v 0 base = some (INT512_ERR_NULL_POINTER, none) := by
  have hfull := uint512_to_string_full v hv base hb buffer_size
  rw [if_neg hs] at hfull
  refine ⟨?_, ?_, ?_⟩
  · intro h
    rw [hfull, if_pos h]
  · intro h
    rw [hfull, if_neg (by omega)]
    rfl
  · simp only [uint512_to_string, if_true]

theorem C22_uint512_to_string_buffer_witness :
    (uint512_t.WF ⟨[255, 0, 0, 0, 0, 0, 0, 0]⟩ ∧ ((2 : Int) ≤ 16 ∧ (16 : Int) ≤ 36) ∧ 2 ≠ 0) ∧
    ((2 < (if uint512_t.val ⟨[255, 0, 0, 0, 0, 0, 0, 0]⟩ = 0 then 1
        else (Nat.digits (16 : Int).toNat
          (uint512_t.val ⟨[255, 0, 0, 0, 0, 0, 0, 0]⟩)).length) + 1 →
      uint512_to_string ⟨[255, 0, 0, 0, 0, 0, 0, 0]⟩ 2 16
        = some (INT512_ERR_INVALID_STRING, none)) ∧
    ((if uint512_t.val ⟨[255, 0, 0, 0, 0, 0, 0, 0]⟩ = 0 then 1
        else (Nat.digits (16 : Int).toNat
          (uint512_t.val ⟨[255, 0, 0, 0, 0, 0, 0, 0]⟩)).length) + 1 ≤ 2 →
      (uint512_to_string ⟨[255, 0, 0, 0, 0, 0, 0, 0]⟩ 2 16).map Prod.fst = some INT512_OK) ∧
    uint512_to_string ⟨[255, 0, 0, 0, 0, 0, 0, 0]⟩ 0 16
      = some (INT512_ERR_NULL_POINTER, none)) :=
  ⟨⟨by decide, by decide, by decide⟩,
    C22_uint512_to_string_buffer ⟨[255, 0, 0, 0, 0, 0, 0, 0]⟩ (by decide) 16 (by decide) 2
      (by decide)⟩

/-- Claim C22 fails as stated: 255 has two digits in base 16, and the buffer size 0 is
below the three bytes needed, but `uint512_to_string` returns NULL_POINTER, not
INVALID_STRING: the test `buffer_size == 0` shares the first line with the null tests.
With the buffer sizes 1 and 2 it returns INVALID_STRING, with 3 it returns OK. -/
theorem C22_counterexample :
    (Nat.digits 16 (uint512_t.val ⟨[255, 0, 0, 0, 0, 0, 0, 0]⟩)).length = 2 ∧
    0 < (Nat.digits 16 (uint512_t.val ⟨[255, 0, 0, 0, 0, 0, 0, 0]⟩)).length + 1 ∧
    uint512_to_string ⟨[255, 0, 0, 0, 0, 0, 0, 0]⟩ 0 16
      = some (INT512_ERR_NULL_POINTER, none) ∧
    (uint512_to_string ⟨[255, 0, 0, 0, 0, 0, 0, 0]⟩ 0 16).map Prod.fst
      ≠ some INT512_ERR_INVALID_STRING ∧
    uint512_to_string ⟨[255, 0, 0, 0, 0, 0, 0, 0]⟩ 1 16
      = some (INT512_ERR_INVALID_STRING, none) ∧
    uint512_to_string ⟨[255, 0, 0, 0, 0, 0, 0, 0]⟩ 2 16
      = some (INT512_ERR_INVALID_STRING, none) ∧
    uint512_to_string ⟨[255, 0, 0, 0, 0, 0, 0, 0]⟩ 3 16
      = some (INT512_OK, some "ff".toList) := by
  refine ⟨by simp [uint512_t.val, wordsVal], by omega, by decide, by decide, by decide,
    by decide, by decide⟩

/-- What `int512_from_string` does on an optional `-` followed by digit characters of
magnitude `m`: the value is `m` when `m < 2 ^ 511` without a minus sign, and `-m` when
`m ≤ 2 ^ 511` with one. -/
theorem int512_from_string_in_range (base : Int) (hb : 2 ≤ base ∧ base ≤ 36) (neg : Bool)
    (ds : List Nat) (hne : ds ≠ []) (hd : ∀ d ∈ ds, d < base.toNat)
    (hm : positionalValue base.toNat ds < 2 ^ 511 ∨
      (neg = true ∧ positionalValue base.toNat ds = 2 ^ 511)) :
    ∃ x : int512_t, x.WF ∧
      int512_from_string ((if neg then ['-'] else []) ++
          ds.map (fun d => digit_char (Int.ofNat d))) base = (INT512_OK, some x) ∧
      x.val = if neg then -(positionalValue base.toNat ds : Int)
        else (positionalValue base.toNat ds : Int) := by
  unfold positionalValue at hm ⊢
  obtain ⟨r, r1, r2, r3⟩ := int512_from_string_digits base hb neg ds hne hd (by omega)
  rw [r3]
  have r2w : wordsVal r.words = ds.foldl (fun x d => x * base.toNat + d) 0 := r2
  generalize ds.foldl (fun x d => x * base.toNat + d) 0 = m at hm r2 r2w
  cases neg with
  | true =>
    simp only [if_true]
    obtain ⟨n1, n2⟩ := int512_negate_spec r.toI r1
    refine ⟨_, n1, rfl, ?_⟩
    have e : wordsVal r.toI.words = m := r2w
    unfold int512_t.val
    rw [n2, e]
    by_cases h0 : m = 0
    · subst h0
      simp
    · have e2 : (2 ^ 512 - m) % 2 ^ 512 = 2 ^ 512 - m := Nat.mod_eq_of_lt (by omega)
      rw [e2, if_neg (by omega)]
      omega
  | false =>
    simp only [Bool.false_eq_true, if_false]
    refine ⟨r.toI, toI_WF r r1, rfl, ?_⟩
    have e : wordsVal r.toI.words = m := r2w
    unfold int512_t.val
    rw [e, if_pos (by
      rcases hm with h | ⟨h, _⟩
      · exact h
      · exact absurd h (by decide))]

/-- Claim C24 at its failing inputs. The text of `8` followed by 127 zeros has no minus
sign and denotes `2 ^ 511` in base 16; `int512_from_string` returns OK for it with the
result `INT512_MIN`, which is negative and has the value `-2 ^ 511`. The text of `-`
followed by the digits of `2 ^ 511 + 1` returns OK with the result `INT512_MAX`, which is
not negative and has the value `2 ^ 511 - 1`. The text `-12345` in base 10 gives the
value -12345. -/
theorem C24_failing_input :
    positionalValue 16 (8 :: List.replicate 127 0) = 2 ^ 511 ∧
    int512_from_string ('8' :: List.replicate 127 '0') 16 = (INT512_OK, some INT512_MIN) ∧
    INT512_MIN.val = -2 ^ 511 ∧ int512_is_negative INT512_MIN = true ∧
    positionalValue 16 (8 :: (List.replicate 126 0 ++ [1])) = 2 ^ 511 + 1 ∧
    int512_from_string ('-' :: '8' :: (List.replicate 126 '0' ++ ['1'])) 16
      = (INT512_OK, some INT512_MAX) ∧
    INT512_MAX.val = 2 ^ 511 - 1 ∧ int512_is_negative INT512_MAX = false ∧
    (int512_from_string "-12345".toList 10).2.map int512_t.val = some (-12345) := by
  refine ⟨by decide, by decide, by decide, by decide, by decide, by decide, by decide,
    by decide, by decide⟩

/-- Claim C25 at its failing input: `int512_div(INT512_MIN, -1)` returns OK with the
quotient `INT512_MIN` and the remainder zero, where the true quotient is `2 ^ 511`;
`int512_mul(INT512_MIN, -1)` reports the same unrepresentable result as OVERFLOW. -/
theorem C25_failing_input :
    INT512_MIN.val = -2 ^ 511 ∧
    int512_t.val ⟨[UINT64_MAX, UINT64_MAX, UINT64_MAX, UINT64_MAX,
      UINT64_MAX, UINT64_MAX, UINT64_MAX, UINT64_MAX]⟩ = -1 ∧
    INT512_MAX.val = 2 ^ 511 - 1 ∧
    int512_div INT512_MIN ⟨[UINT64_MAX, UINT64_MAX, UINT64_MAX, UINT64_MAX,
        UINT64_MAX, UINT64_MAX, UINT64_MAX, UINT64_MAX]⟩
      = some (INT512_OK, some (INT512_MIN, INT512_ZERO)) ∧
    (int512_mul INT512_MIN ⟨[UINT64_MAX, UINT64_MAX, UINT64_MAX, UINT64_MAX,
        UINT64_MAX, UINT64_MAX, UINT64_MAX, UINT64_MAX]⟩).1 = INT512_ERR_OVERFLOW := by
  refine ⟨by decide, by decide, by decide, by decide, by decide⟩

/-- Claim C26, as amended: whenever the mathematical result of `int512_add` or of
`int512_sub` is less than `INT512_MIN = -2 ^ 511`, and only then, the function returns
UNDERFLOW. Whenever the mathematical product is less than `INT512_MIN`, `int512_mul`
returns OVERFLOW; it never returns UNDERFLOW. -/
theorem C26_signed_underflow (a b : int512_t) (ha : a.WF) (hb : b.WF) :
    ((int512_add a b).1 = INT512_ERR_UNDERFLOW ↔ a.val + b.val < -2 ^ 511) ∧
    ((int512_sub a b).1 = INT512_ERR_UNDERFLOW ↔ a.val - b.val < -2 ^ 511) ∧
    (a.val * b.val < -2 ^ 511 → (int512_mul a b).1 = INT512_ERR_OVERFLOW) ∧
    (int512_mul a b).1 ≠ INT512_ERR_UNDERFLOW := by
  obtain ⟨_, _, _, a4, _, _⟩ := int512_add_spec a b ha hb
  obtain ⟨_, _, _, s4, _, _⟩ := int512_sub_spec a b ha hb
  obtain ⟨_, m2, _, m4⟩ := int512_mul_spec a b ha hb
  refine ⟨a4, s4, ?_, ?_⟩
  · intro h
    rcases m4 with h1 | h1
    · have := (m2.mp h1).1
      omega
    · exact h1
  · rcases m4 with h1 | h1 <;> rw [h1] <;> decide

theorem C26_signed_underflow_witness :
    (INT512_MIN.WF ∧ int512_t.WF ⟨[2, 0, 0, 0, 0, 0, 0, 0]⟩) ∧
    (((int512_add INT512_MIN ⟨[2, 0, 0, 0, 0, 0, 0, 0]⟩).1 = INT512_ERR_UNDERFLOW ↔
      INT512_MIN.val + int512_t.val ⟨[2, 0, 0, 0, 0, 0, 0, 0]⟩ < -2 ^ 511) ∧
    ((int512_sub INT512_MIN ⟨[2, 0, 0, 0, 0, 0, 0, 0]⟩).1 = INT512_ERR_UNDERFLOW ↔
      INT512_MIN.val - int512_t.val ⟨[2, 0, 0, 0, 0, 0, 0, 0]⟩ < -2 ^ 511) ∧
    (INT512_MIN.val * int512_t.val ⟨[2, 0, 0, 0, 0, 0, 0, 0]⟩ < -2 ^ 511 →
      (int512_mul INT512_MIN ⟨[2, 0, 0, 0, 0, 0, 0, 0]⟩).1 = INT512_ERR_OVERFLOW) ∧
    (int512_mul INT512_MIN ⟨[2, 0, 0, 0, 0, 0, 0, 0]⟩).1 ≠ INT512_ERR_UNDERFLOW) :=
  ⟨⟨by decide, by decide⟩,
    C26_signed_underflow INT512_MIN ⟨[2, 0, 0, 0, 0, 0, 0, 0]⟩ (by decide) (by decide)⟩

/-- Claim C26 fails as stated: the products `INT512_MIN * 2` and `INT512_MAX * (-2)` are
less than `-2 ^ 511`, and `int512_mul` returns OVERFLOW for both, not UNDERFLOW. -/
theorem C26_counterexample :
    INT512_MIN.val * int512_t.val ⟨[2, 0, 0, 0, 0, 0, 0, 0]⟩ < -2 ^ 511 ∧
    (int512_mul INT512_MIN ⟨[2, 0, 0, 0, 0, 0, 0, 0]⟩).1 = INT512_ERR_OVERFLOW ∧
    (int512_mul INT512_MIN ⟨[2, 0, 0, 0, 0, 0, 0, 0]⟩).1 ≠ INT512_ERR_UNDERFLOW ∧
    int512_t.val ⟨[UINT64_MAX - 1, UINT64_MAX, UINT64_MAX, UINT64_MAX,
      UINT64_MAX, UINT64_MAX, UINT64_MAX, UINT64_MAX]⟩ = -2 ∧
    INT512_MAX.val * int512_t.val ⟨[UINT64_MAX - 1, UINT64_MAX, UINT64_MAX, UINT64_MAX,
      UINT64_MAX, UINT64_MAX, UINT64_MAX, UINT64_MAX]⟩ < -2 ^ 511 ∧
    (int512_mul INT512_MAX ⟨[UINT64_MAX - 1, UINT64_MAX, UINT64_MAX, UINT64_MAX,
      UINT64_MAX, UINT64_MAX, UINT64_MAX, UINT64_MAX]⟩).1 = INT512_ERR_OVERFLOW ∧
    (int512_mul INT512_MAX ⟨[UINT64_MAX - 1, UINT64_MAX, UINT64_MAX, UINT64_MAX,
      UINT64_MAX, UINT64_MAX, UINT64_MAX, UINT64_MAX]⟩).1 ≠ INT512_ERR_UNDERFLOW := by
  refine ⟨by decide, by decide, by decide, by decide, by decide, by decide, by decide⟩

/-- Claim C28: each of `uint512_add`, `uint512_sub`, `uint512_mul`, `uint512_div`,
`int512_add`, `int512_sub`, `int512_mul`, `int512_div`, `uint512_to_string`,
`uint512_from_string`, `int512_to_string` and `int512_from_string` returns NULL_POINTER
whenever one of its pointer arguments, input or output, is null, and leaves every
output storage as it was. -/
theorem C28_null_pointer :
    (∀ a b result : Option uint512_t, a = none ∨ b = none ∨ result = none →
      uint512_add_call a b result = (INT512_ERR_NULL_POINTER, result) ∧
      uint512_sub_call a b result = (INT512_ERR_NULL_POINTER, result) ∧
      uint512_mul_call a b result = (INT512_ERR_NULL_POINTER, result)) ∧
    (∀ a b quotient remainder : Option uint512_t,
      a = none ∨ b = none ∨ quotient = none ∨ remainder = none →
      uint512_div_call a b quotient remainder
        = some (INT512_ERR_NULL_POINTER, quotient, remainder)) ∧
    (∀ a b result : Option int512_t, a = none ∨ b = none ∨ result = none →
      int512_add_call a b result = (INT512_ERR_NULL_POINTER, result) ∧
      int512_sub_call a b result = (INT512_ERR_NULL_POINTER, result) ∧
      int512_mul_call a b result = (INT512_ERR_NULL_POINTER, result)) ∧
    (∀ a b quotient remainder : Option int512_t,
      a = none ∨ b = none ∨ quotient = none ∨ remainder = none →
      int512_div_call a b quotient remainder
        = some (INT512_ERR_NULL_POINTER, quotient, remainder)) ∧
    (∀ (value : Option uint512_t) (buffer : Option (List Char)) (buffer_size : Nat)
        (base : Int), value = none ∨ buffer = none →
      uint512_to_string_call value buffer buffer_size base
        = some (INT512_ERR_NULL_POINTER, buffer)) ∧
    (∀ (value : Option int512_t) (buffer : Option (List Char)) (buffer_size : Nat)
        (base : Int), value = none ∨ buffer = none →
      int512_to_string_call value buffer buffer_size base
        = some (INT512_ERR_NULL_POINTER, buffer)) ∧
    (∀ (str : Option (List Char)) (result : Option uint512_t) (base : Int),
      str = none ∨ result = none →
      uint512_from_string_call str result base = (INT512_ERR_NULL_POINTER, result)) ∧
    (∀ (str : Option (List Char)) (result : Option int512_t) (base : Int),
      str = none ∨ result = none →
      int512_from_string_call str result base = (INT512_ERR_NULL_POINTER, result)) := by
  refine ⟨?_, ?_, ?_, ?_, ?_, ?_, ?_, ?_⟩
  · intro a b result h
    cases a <;> cases b <;> cases result <;>
      simp_all [uint512_add_call, uint512_sub_call, uint512_mul_call]
  · intro a b quotient remainder h
    cases a <;> cases b <;> cases quotient <;> cases remainder <;>
      simp_all [uint512_div_call]
  · intro a b result h
    cases a <;> cases b <;> cases result <;>
      simp_all [int512_add_call, int512_sub_call, int512_mul_call]
  · intro a b quotient remainder h
    cases a <;> cases b <;> cases quotient <;> cases remainder <;>
      simp_all [int512_div_call]
  · intro value buffer buffer_size base h
    cases value <;> cases buffer <;> simp_all [uint512_to_string_call]
  · intro value buffer buffer_size base h
    cases value <;> cases buffer <;> simp_all [int512_to_string_call]
  · intro str result base h
    cases str <;> cases result <;> simp_all [uint512_from_string_call]
  · intro str result base h
    cases str <;> cases result <;> simp_all [int512_from_string_call]

theorem C28_null_pointer_witness :
    uint512_add_call none (some UINT512_ONE) (some UINT512_MAX)
      = (INT512_ERR_NULL_POINTER, some UINT512_MAX) ∧
    uint512_div_call (some UINT512_MAX) (some UINT512_ONE) (some UINT512_ONE) none
      = some (INT512_ERR_NULL_POINTER, some UINT512_ONE, none) ∧
    int512_mul_call (some INT512_MIN) none (some INT512_ONE)
      = (INT512_ERR_NULL_POINTER, some INT512_ONE) ∧
    int512_div_call (some INT512_MIN) (some INT512_ONE) none (some INT512_MAX)
      = some (INT512_ERR_NULL_POINTER, none, some INT512_MAX) ∧
    uint512_to_string_call none (some "abc".toList) 3 10
      = some (INT512_ERR_NULL_POINTER, some "abc".toList) ∧
    int512_to_string_call (some INT512_MIN) none 600 10
      = some (INT512_ERR_NULL_POINTER, none) ∧
    uint512_from_string_call none (some UINT512_MAX) 10
      = (INT512_ERR_NULL_POINTER, some UINT512_MAX) ∧
    int512_from_string_call (some "12".toList) none 10 = (INT512_ERR_NULL_POINTER, none) :=
  ⟨(C28_null_pointer.1 none (some UINT512_ONE) (some UINT512_MAX) (Or.inl rfl)).1,
    C28_null_pointer.2.1 (some UINT512_MAX) (some UINT512_ONE) (some UINT512_ONE) none
      (Or.inr (Or.inr (Or.inr rfl))),
    (C28_null_pointer.2.2.1 (some INT512_MIN) none (some INT512_ONE) (Or.inr (Or.inl rfl))).2.2,
    C28_null_pointer.2.2.2.1 (some INT512_MIN) (some INT512_ONE) none (some INT512_MAX)
      (Or.inr (Or.inr (Or.inl rfl))),
    C28_null_pointer.2.2.2.2.1 none (some "abc".toList) 3 10 (Or.inl rfl),
    C28_null_pointer.2.2.2.2.2.1 (some INT512_MIN) none 600 10 (Or.inr rfl),
    C28_null_pointer.2.2.2.2.2.2.1 none (some UINT512_MAX) 10 (Or.inl rfl),
    C28_null_pointer.2.2.2.2.2.2.2 (some "12".toList) none 10 (Or.inr rfl)⟩

/-! ## Output storage that is the storage of an input -/

theorem store_same (m : Memory) (p : Nat) (ws : List Nat) : (m.store p ws) p = ws := by
  simp [Memory.store]

theorem store_other (m : Memory) (p q : Nat) (ws : List Nat) (h : q ≠ p) :
    (m.store p ws) q = m q := by
  simp [Memory.store, h]

/-- A loop that reads word `i` of `a` and of `b` and then stores word `i` of `result`,
for `i` from 0 upwards, computes what the same loop computes on copies of `a` and `b`,
whichever of the three addresses coincide. -/
theorem ripple_mem (g : Nat → Nat → Nat → Nat × Nat)
    (L : List Nat → List Nat → Nat → List Nat × Nat)
    (hL : ∀ x xs y ys c, L (x :: xs) (y :: ys) c
      = ((g x y c).1 :: (L xs ys (g x y c).2).1, (L xs ys (g x y c).2).2))
    (a b result : Nat) (S : Memory × Nat → Nat → Memory × Nat)
    (hS : ∀ st i, S st i = (st.1.storeWord result i
      (g ((st.1 a).getD i 0) ((st.1 b).getD i 0) st.2).1,
      (g ((st.1 a).getD i 0) ((st.1 b).getD i 0) st.2).2))
    (m : Memory) (n : Nat) (ha : (m a).length = n) (hb : (m b).length = n)
    (hr : (m result).length = n) :
    ∀ k, k ≤ n → ∃ done : List Nat, done.length = k ∧
      ((List.range k).foldl S (m, 0)).1 result = done ++ (m result).drop k ∧
      (∀ q, q ≠ result → ((List.range k).foldl S (m, 0)).1 q = m q) ∧
      L (m a) (m b) 0 =
        (done ++ (L ((m a).drop k) ((m b).drop k) ((List.range k).foldl S (m, 0)).2).1,
          (L ((m a).drop k) ((m b).drop k) ((List.range k).foldl S (m, 0)).2).2) := by
  intro k
  induction k with
  | zero =>
    intro _
    exact ⟨[], rfl, by simp, by simp, by simp⟩
  | succ k ih =>
    intro hk
    obtain ⟨done, d1, d2, d3, d4⟩ := ih (by omega)
    rw [List.range_succ, List.foldl_append, List.foldl_cons, List.foldl_nil]
    generalize (List.range k).foldl S (m, 0) = st at d2 d3 d4
    have hread : ∀ p, (m p).length = n → (st.1 p).getD k 0 = (m p).getD k 0 := by
      intro p hp
      by_cases hpr : p = result
      · rw [hpr, d2]
        rw [List.getD_eq_getElem?_getD, List.getD_eq_getElem?_getD,
          List.getElem?_append_right (by omega), d1, Nat.sub_self, List.getElem?_drop]
        rfl
      · rw [d3 p hpr]
    have hdrop : ∀ l : List Nat, l.length = n → l.drop k = l.getD k 0 :: l.drop (k + 1) := by
      intro l hl
      rw [List.getD_eq_getElem l 0 (by omega)]
      exact List.drop_eq_getElem_cons (by omega)
    rw [hS, hread a ha, hread b hb]
    refine ⟨done ++ [(g ((m a).getD k 0) ((m b).getD k 0) st.2).1], ?_, ?_, ?_, ?_⟩
    · simp [d1]
    · simp only [Memory.storeWord, store_same]
      rw [d2, hdrop (m result) hr, List.set_append_right _ _ (by omega), d1, Nat.sub_self]
      simp
    · intro q hq
      simp only [Memory.storeWord]
      rw [store_other _ _ _ _ hq]
      exact d3 q hq
    · rw [d4, hdrop (m a) ha, hdrop (m b) hb, hL]
      simp

/-- The loop of `uint512_add` on storage: for every choice of the three addresses the
status and the stored result are those of `uint512_add` on the values that `a` and `b`
held at the call, and no other storage changes. -/
theorem uint512_add_mem_spec (m : Memory) (a b result : Nat)
    (ha : (m a).length = 8) (hb : (m b).length = 8) (hr : (m result).length = 8) :
    (uint512_add_mem m a b result).1 = (uint512_add ⟨m a⟩ ⟨m b⟩).1 ∧
    (uint512_add_mem m a b result).2 result = (uint512_add ⟨m a⟩ ⟨m b⟩).2.words ∧
    ∀ q, q ≠ result → (uint512_add_mem m a b result).2 q = m q := by
  obtain ⟨done, d1, d2, d3, d4⟩ := ripple_mem
    (fun x y c => ((((x + c) % 2 ^ 64) + y) % 2 ^ 64,
      (if (x + c) % 2 ^ 64 < c then 1 else 0)
        + (if (((x + c) % 2 ^ 64) + y) % 2 ^ 64 < y then 1 else 0)))
    uint512_add_loop (fun x xs y ys c => rfl) a b result
    (uint512_add_mem_step a b result) (fun st i => rfl) m 8 ha hb hr 8 (by omega)
  have ea : (m a).drop 8 = [] := List.drop_eq_nil_of_le (by omega)
  have er : (m result).drop 8 = [] := List.drop_eq_nil_of_le (by omega)
  rw [ea] at d4
  rw [er, List.append_nil] at d2
  simp only [uint512_add_loop, List.append_nil] at d4
  simp only [uint512_add_mem, uint512_add, d4]
  exact ⟨trivial, d2, d3⟩

/-- The loop of `uint512_sub` on storage: for every choice of the three addresses the
status and the stored result are those of `uint512_sub` on the values that `a` and `b`
held at the call, and no other storage changes. -/
theorem uint512_sub_mem_spec (m : Memory) (a b result : Nat)
    (ha : (m a).length = 8) (hb : (m b).length = 8) (hr : (m result).length = 8) :
    (uint512_sub_mem m a b result).1 = (uint512_sub ⟨m a⟩ ⟨m b⟩).1 ∧
    (uint512_sub_mem m a b result).2 result = (uint512_sub ⟨m a⟩ ⟨m b⟩).2.words ∧
    ∀ q, q ≠ result → (uint512_sub_mem m a b result).2 q = m q := by
  obtain ⟨done, d1, d2, d3, d4⟩ := ripple_mem
    (fun x y c => ((((x + 2 ^ 64 - c) % 2 ^ 64) + 2 ^ 64 - y) % 2 ^ 64,
      (if (x + 2 ^ 64 - c) % 2 ^ 64 > x then 1 else 0)
        + (if (((x + 2 ^ 64 - c) % 2 ^ 64) + 2 ^ 64 - y) % 2 ^ 64
            > (x + 2 ^ 64 - c) % 2 ^ 64 then 1 else 0)))
    uint512_sub_loop (fun x xs y ys c => rfl) a b result
    (uint512_sub_mem_step a b result) (fun st i => rfl) m 8 ha hb hr 8 (by omega)
  have ea : (m a).drop 8 = [] := List.drop_eq_nil_of_le (by omega)
  have er : (m result).drop 8 = [] := List.drop_eq_nil_of_le (by omega)
  rw [ea] at d4
  rw [er, List.append_nil] at d2
  simp only [uint512_sub_loop, List.append_nil] at d4
  simp only [uint512_sub_mem, uint512_sub, d4]
  exact ⟨trivial, d2, d3⟩

/-- Source `uint512_mul` on storage: for every choice of the three addresses the status
and the stored result are those of `uint512_mul` on the values that `a` and `b` held at
the call, and no other storage changes. -/
theorem uint512_mul_mem_spec (m : Memory) (a b result : Nat) :
    (uint512_mul_mem m a b result).1 = (uint512_mul ⟨m a⟩ ⟨m b⟩).1 ∧
    (uint512_mul_mem m a b result).2 result = (uint512_mul ⟨m a⟩ ⟨m b⟩).2.words ∧
    ∀ q, q ≠ result → (uint512_mul_mem m a b result).2 q = m q := by
  refine ⟨rfl, ?_, ?_⟩
  · simp only [uint512_mul_mem, uint512_mul, store_same]
  · intro q hq
    simp only [uint512_mul_mem]
    exact store_other _ _ _ _ hq
/-- The long-division loop on storage, when the quotient storage is neither the
dividend nor the divisor: it computes what the loop computes on copies of them. -/
theorem uint512_div_mem_loop_spec (a b quotient : Nat) (hqa : quotient ≠ a)
    (hqb : quotient ≠ b) (A B : List Nat) :
    ∀ (i : Nat) (cur : List Nat) (m : Memory), m a = A → m b = B →
      (uint512_div_mem_loop a b quotient i (cur, m)).1
        = (uint512_div_loop A ⟨B⟩ i (cur, m quotient)).1 ∧
      (uint512_div_mem_loop a b quotient i (cur, m)).2 quotient
        = (uint512_div_loop A ⟨B⟩ i (cur, m quotient)).2 ∧
      ∀ p, p ≠ quotient → (uint512_div_mem_loop a b quotient i (cur, m)).2 p = m p := by
  intro i
  induction i with
  | zero =>
    intro cur m _ _
    exact ⟨rfl, rfl, fun _ _ => rfl⟩
  | succ i ih =>
    intro cur m hA hB
    have key : ∀ c2 : List Nat,
        (if uint512_compare ⟨c2⟩ ⟨B⟩ ≥ 0 then
            uint512_div_mem_loop a b quotient i ((uint512_sub ⟨c2⟩ ⟨B⟩).2.words,
              m.storeWord quotient (i / 64)
                ((m quotient).getD (i / 64) 0 ||| ((1 <<< (i % 64)) % 2 ^ 64)))
          else uint512_div_mem_loop a b quotient i (c2, m)).1
          = (if uint512_compare ⟨c2⟩ ⟨B⟩ ≥ 0 then
              uint512_div_loop A ⟨B⟩ i ((uint512_sub ⟨c2⟩ ⟨B⟩).2.words,
                (m quotient).set (i / 64)
                  ((m quotient).getD (i / 64) 0 ||| ((1 <<< (i % 64)) % 2 ^ 64)))
            else uint512_div_loop A ⟨B⟩ i (c2, m quotient)).1 ∧
        (if uint512_compare ⟨c2⟩ ⟨B⟩ ≥ 0 then
            uint512_div_mem_loop a b quotient i ((uint512_sub ⟨c2⟩ ⟨B⟩).2.words,
              m.storeWord quotient (i / 64)
                ((m quotient).getD (i / 64) 0 ||| ((1 <<< (i % 64)) % 2 ^ 64)))
          else uint512_div_mem_loop a b quotient i (c2, m)).2 quotient
          = (if uint512_compare ⟨c2⟩ ⟨B⟩ ≥ 0 then
              uint512_div_loop A ⟨B⟩ i ((uint512_sub ⟨c2⟩ ⟨B⟩).2.words,
                (m quotient).set (i / 64)
                  ((m quotient).getD (i / 64) 0 ||| ((1 <<< (i % 64)) % 2 ^ 64)))
            else uint512_div_loop A ⟨B⟩ i (c2, m quotient)).2 ∧
        ∀ p, p ≠ quotient →
          (if uint512_compare ⟨c2⟩ ⟨B⟩ ≥ 0 then
            uint512_div_mem_loop a b quotient i ((uint512_sub ⟨c2⟩ ⟨B⟩).2.words,
              m.storeWord quotient (i / 64)
                ((m quotient).getD (i / 64) 0 ||| ((1 <<< (i % 64)) % 2 ^ 64)))
          else uint512_div_mem_loop a b quotient i (c2, m)).2 p = m p := by
      intro c2
      by_cases hc : uint512_compare ⟨c2⟩ ⟨B⟩ ≥ 0
      · simp only [if_pos hc]
        have h1 : (m.storeWord quotient (i / 64)
            ((m quotient).getD (i / 64) 0 ||| ((1 <<< (i % 64)) % 2 ^ 64))) a = A := by
          simp only [Memory.storeWord]
          rw [store_other _ _ _ _ (Ne.symm hqa), hA]
        have h2 : (m.storeWord quotient (i / 64)
            ((m quotient).getD (i / 64) 0 ||| ((1 <<< (i % 64)) % 2 ^ 64))) b = B := by
          simp only [Memory.storeWord]
          rw [store_other _ _ _ _ (Ne.symm hqb), hB]
        obtain ⟨i1, i2, i3⟩ := ih (uint512_sub ⟨c2⟩ ⟨B⟩).2.words _ h1 h2
        have h3 : (m.storeWord quotient (i / 64)
            ((m quotient).getD (i / 64) 0 ||| ((1 <<< (i % 64)) % 2 ^ 64))) quotient
            = (m quotient).set (i / 64)
              ((m quotient).getD (i / 64) 0 ||| ((1 <<< (i % 64)) % 2 ^ 64)) := by
          simp only [Memory.storeWord, store_same]
        rw [h3] at i1 i2
        refine ⟨i1, i2, ?_⟩
        intro p hp
        rw [i3 p hp]
        simp only [Memory.storeWord]
        exact store_other _ _ _ _ hp
      · simp only [if_neg hc]
        exact ih c2 m hA hB
    simp only [uint512_div_mem_loop, uint512_div_loop, hA, hB]
    exact key _

/-- Source `uint512_div` on storage, when the quotient storage is none of the other
three and the remainder storage is not the divisor (it may be the dividend): the status
and the stored quotient and remainder are those of `uint512_div` on the values that `a`
and `b` held at the call, and no other storage changes. -/
theorem uint512_div_mem_spec (m : Memory) (a b quotient remainder : Nat)
    (ha : WordsWF (m a)) (hb : WordsWF (m b)) (hb0 : wordsVal (m b) ≠ 0)
    (hqa : quotient ≠ a) (hqb : quotient ≠ b) (hqr : quotient ≠ remainder)
    (hrb : remainder ≠ b) :
    ∃ (q r : uint512_t) (m2 : Memory),
      uint512_div ⟨m a⟩ ⟨m b⟩ = some (INT512_OK, some (q, r)) ∧
      uint512_div_mem m a b quotient remainder = some (INT512_OK, m2) ∧
      m2 quotient = q.words ∧ m2 remainder = r.words ∧
      ∀ p, p ≠ quotient → p ≠ remainder → m2 p = m p := by
  have hz : uint512_is_zero ⟨m b⟩ = false := by
    cases h : uint512_is_zero ⟨m b⟩
    · rfl
    · exact absurd ((uint512_is_zero_iff ⟨m b⟩).mp h) hb0
  have e1 : ((m.store quotient UINT512_ZERO.words).store remainder
      ((m.store quotient UINT512_ZERO.words) a)) a = m a := by
    by_cases h : a = remainder
    · rw [h, store_same, store_other _ _ _ _ (Ne.symm hqr)]
    · rw [store_other _ _ _ _ h, store_other _ _ _ _ (Ne.symm hqa)]
  have e2 : ((m.store quotient UINT512_ZERO.words).store remainder
      ((m.store quotient UINT512_ZERO.words) a)) b = m b := by
    rw [store_other _ _ _ _ (Ne.symm hrb), store_other _ _ _ _ (Ne.symm hqb)]
  have e3 : ((m.store quotient UINT512_ZERO.words).store remainder
      ((m.store quotient UINT512_ZERO.words) a)) quotient = UINT512_ZERO.words := by
    rw [store_other _ _ _ _ hqr, store_same]
  have e4 : ((m.store quotient UINT512_ZERO.words).store remainder
      ((m.store quotient UINT512_ZERO.words) a)) remainder = m a := by
    rw [store_same, store_other _ _ _ _ (Ne.symm hqa)]
  have e5 : ∀ p, p ≠ quotient → p ≠ remainder →
      ((m.store quotient UINT512_ZERO.words).store remainder
        ((m.store quotient UINT512_ZERO.words) a)) p = m p := by
    intro p h1 h2
    rw [store_other _ _ _ _ h2, store_other _ _ _ _ h1]
  simp only [uint512_div_mem, uint512_div, hz, Bool.false_eq_true, if_false, e1, e2]
  generalize (m.store quotient UINT512_ZERO.words).store remainder
      ((m.store quotient UINT512_ZERO.words) a) = m1 at e1 e2 e3 e4 e5
  by_cases hc : uint512_compare ⟨m a⟩ ⟨m b⟩ < 0
  · simp only [if_pos hc]
    exact ⟨UINT512_ZERO, ⟨m a⟩, m1, rfl, rfl, e3, e4, e5⟩
  · simp only [if_neg hc]
    have hge := (uint512_compare_ge_iff ⟨m a⟩ ⟨m b⟩ ha hb).mp (by omega)
    have hge2 : wordsVal (m b) ≤ wordsVal (m a) := hge
    obtain ⟨d, hd, hd512, _, _⟩ := highest_bit_spec (m a) ha.2 8 (by
      rw [ha.1.symm.trans rfl, List.take_of_length_le (by omega)]
      omega)
    obtain ⟨d2, hd2, _, _, _⟩ := highest_bit_spec (m b) hb.2 8 (by
      rw [hb.1.symm.trans rfl, List.take_of_length_le (by omega)]
      omega)
    rw [hd, hd2]
    simp only [if_neg (by omega : ¬ d ≥ 512)]
    obtain ⟨l1, l2, l3⟩ := uint512_div_mem_loop_spec a b quotient hqa hqb (m a) (m b)
      (d + 1) UINT512_ZERO.words m1 e1 e2
    rw [e3] at l1 l2
    refine ⟨_, _, _, rfl, rfl, ?_, ?_, ?_⟩
    · rw [store_other _ _ _ _ hqr]
      exact l2
    · rw [store_same]
      exact l1
    · intro p h1 h2
      rw [store_other _ _ _ _ h2, l3 p h1]
      exact e5 p h1 h2

/-- Claim C27 at its failing inputs. The storage at address 0 holds 100 and the storage
at address 1 holds 30. With the quotient at address 2 and the remainder at address 3,
`uint512_div` on the storage gives the quotient 3 and the remainder 10. With the
quotient stored over the dividend it gives the quotient 0 and the remainder 0; with the
quotient stored over the divisor it gives 65 and 36; with the remainder stored over the
divisor it gives 1 and 0. The status is OK each time. With the remainder stored over the
dividend it gives 3 and 10. -/
theorem C27_failing_input :
    (uint512_div_mem (fun p => if p = 0 then [100, 0, 0, 0, 0, 0, 0, 0]
        else if p = 1 then [30, 0, 0, 0, 0, 0, 0, 0] else [7, 7, 7, 7, 7, 7, 7, 7])
        0 1 2 3).map (fun r => (r.1, r.2 2, r.2 3))
      = some (INT512_OK, [3, 0, 0, 0, 0, 0, 0, 0], [10, 0, 0, 0, 0, 0, 0, 0]) ∧
    (uint512_div_mem (fun p => if p = 0 then [100, 0, 0, 0, 0, 0, 0, 0]
        else if p = 1 then [30, 0, 0, 0, 0, 0, 0, 0] else [7, 7, 7, 7, 7, 7, 7, 7])
        0 1 0 3).map (fun r => (r.1, r.2 0, r.2 3))
      = some (INT512_OK, [0, 0, 0, 0, 0, 0, 0, 0], [0, 0, 0, 0, 0, 0, 0, 0]) ∧
    (uint512_div_mem (fun p => if p = 0 then [100, 0, 0, 0, 0, 0, 0, 0]
        else if p = 1 then [30, 0, 0, 0, 0, 0, 0, 0] else [7, 7, 7, 7, 7, 7, 7, 7])
        0 1 1 3).map (fun r => (r.1, r.2 1, r.2 3))
      = some (INT512_OK, [65, 0, 0, 0, 0, 0, 0, 0], [36, 0, 0, 0, 0, 0, 0, 0]) ∧
    (uint512_div_mem (fun p => if p = 0 then [100, 0, 0, 0, 0, 0, 0, 0]
        else if p = 1 then [30, 0, 0, 0, 0, 0, 0, 0] else [7, 7, 7, 7, 7, 7, 7, 7])
        0 1 2 1).map (fun r => (r.1, r.2 2, r.2 1))
      = some (INT512_OK, [1, 0, 0, 0, 0, 0, 0, 0], [0, 0, 0, 0, 0, 0, 0, 0]) ∧
    (uint512_div_mem (fun p => if p = 0 then [100, 0, 0, 0, 0, 0, 0, 0]
        else if p = 1 then [30, 0, 0, 0, 0, 0, 0, 0] else [7, 7, 7, 7, 7, 7, 7, 7])
        0 1 2 0).map (fun r => (r.1, r.2 2, r.2 0))
      = some (INT512_OK, [3, 0, 0, 0, 0, 0, 0, 0], [10, 0, 0, 0, 0, 0, 0, 0]) ∧
    uint512_div ⟨[100, 0, 0, 0, 0, 0, 0, 0]⟩ ⟨[30, 0, 0, 0, 0, 0, 0, 0]⟩
      = some (INT512_OK, some (⟨[3, 0, 0, 0, 0, 0, 0, 0]⟩, ⟨[10, 0, 0, 0, 0, 0, 0, 0]⟩)) := by
  refine ⟨by decide, by decide, by decide, by decide, by decide, by decide⟩

/-! ## Sign extension and narrowing -/

/-- The 512-bit temporary of the signed mixed-size wrappers: for every `x` in the range
of `int64_t` it is well formed and its two's-complement value is `x`. -/
theorem sign_extend_spec (x : Int) (hx : -2 ^ 63 ≤ x ∧ x < 2 ^ 63) :
    int512_t.WF (if x < 0 then
        ⟨[u64_of_int x, UINT64_MAX, UINT64_MAX, UINT64_MAX,
          UINT64_MAX, UINT64_MAX, UINT64_MAX, UINT64_MAX]⟩
      else ⟨[u64_of_int x, 0, 0, 0, 0, 0, 0, 0]⟩) ∧
    int512_t.val (if x < 0 then
        ⟨[u64_of_int x, UINT64_MAX, UINT64_MAX, UINT64_MAX,
          UINT64_MAX, UINT64_MAX, UINT64_MAX, UINT64_MAX]⟩
      else ⟨[u64_of_int x, 0, 0, 0, 0, 0, 0, 0]⟩) = x := by
  have hu : u64_of_int x < 2 ^ 64 := by
    unfold u64_of_int
    omega
  have hmax : UINT64_MAX < 2 ^ 64 := by decide
  by_cases h : x < 0
  · simp only [if_pos h]
    have hux : (u64_of_int x : Int) = x + 2 ^ 64 := by
      unfold u64_of_int
      omega
    constructor
    · refine ⟨rfl, ?_⟩
      intro w hw
      simp only [List.mem_cons, List.mem_singleton, List.not_mem_nil, or_false] at hw
      rcases hw with h1 | h1 | h1 | h1 | h1 | h1 | h1 | h1 <;> rw [h1] <;>
        first | exact hu | exact hmax
    · have hv : wordsVal [u64_of_int x, UINT64_MAX, UINT64_MAX, UINT64_MAX,
          UINT64_MAX, UINT64_MAX, UINT64_MAX, UINT64_MAX]
          = u64_of_int x + (2 ^ 512 - 2 ^ 64) := by
        simp only [wordsVal, UINT64_MAX]
        omega
      unfold int512_t.val
      simp only [hv]
      rw [if_neg (by omega)]
      omega
  · simp only [if_neg h]
    have hux : (u64_of_int x : Int) = x := by
      unfold u64_of_int
      omega
    constructor
    · refine ⟨rfl, ?_⟩
      intro w hw
      simp only [List.mem_cons, List.mem_singleton, List.not_mem_nil, or_false] at hw
      rcases hw with h1 | h1 | h1 | h1 | h1 | h1 | h1 | h1 <;> rw [h1] <;>
        first | exact hu | exact Nat.two_pow_pos 64
    · have hv : wordsVal [u64_of_int x, 0, 0, 0, 0, 0, 0, 0] = u64_of_int x := by
        simp only [wordsVal]
        omega
      unfold int512_t.val
      simp only [hv]
      rw [if_pos (by omega)]
      exact hux

/-- The conversion `(int8_t)r.words[0]` of a 512-bit value in the range of `int8_t`
gives that value. -/
theorem int8_of_word (r : int512_t) (hr : r.WF) (h : -128 ≤ r.val ∧ r.val ≤ 127) :
    int8_of_u64 (r.words.getD 0 0) = r.val := by
  have e := getD_eq_div_mod r.words hr.2 0
  simp only [Nat.mul_zero, Nat.pow_zero, Nat.div_one] at e
  have hlt := hr.val_lt
  rw [e]
  unfold int8_of_u64
  unfold int512_t.val at h ⊢
  generalize wordsVal r.words = W at *
  by_cases h1 : W < 2 ^ 511
  · rw [if_pos h1] at h ⊢
    have e2 : W % 2 ^ 64 % 2 ^ 8 = W := by omega
    rw [e2, if_pos (by omega)]
  · rw [if_neg h1] at h ⊢
    have e2 : ((W % 2 ^ 64 % 2 ^ 8 : Nat) : Int) = (W : Int) - 2 ^ 512 + 2 ^ 8 := by omega
    rw [if_neg (by omega), e2]
    omega

/-- The range of the two's-complement value. -/
theorem int512_val_range (a : int512_t) (ha : a.WF) :
    -2 ^ 511 ≤ a.val ∧ a.val ≤ 2 ^ 511 - 1 := by
  have hlt := ha.val_lt
  rcases int512_val_cases a ha with ⟨_, a2, a3⟩ | ⟨_, a2, a3⟩ <;> omega

/-- Claim C31: the named constants are the extremes of their types. `INT512_MIN` has the
value `-2 ^ 511` and `INT512_MAX` the value `2 ^ 511 - 1`, so `int512_compare` never puts
a signed `a` below `INT512_MIN` or above `INT512_MAX`; `UINT512_MAX` has the value
`2 ^ 512 - 1` and `UINT512_ZERO` the value 0, so `uint512_compare` never puts an
unsigned `u` below `UINT512_ZERO` or above `UINT512_MAX`; `int512_is_negative` is true of
`INT512_MIN` and false of `INT512_MAX`, `INT512_ONE` and `INT512_ZERO`. -/
theorem C31_constants (a : int512_t) (ha : a.WF) (u : uint512_t) (hu : u.WF) :
    INT512_MIN.val = -2 ^ 511 ∧ INT512_MAX.val = 2 ^ 511 - 1 ∧
    INT512_MIN.val ≤ a.val ∧ a.val ≤ INT512_MAX.val ∧
    int512_compare INT512_MIN a ≤ 0 ∧ int512_compare a INT512_MAX ≤ 0 ∧
    UINT512_MAX.val = 2 ^ 512 - 1 ∧ UINT512_ZERO.val = 0 ∧
    UINT512_ZERO.val ≤ u.val ∧ u.val ≤ UINT512_MAX.val ∧
    uint512_compare UINT512_ZERO u ≤ 0 ∧ uint512_compare u UINT512_MAX ≤ 0 ∧
    int512_is_negative INT512_MIN = true ∧ int512_is_negative INT512_MAX = false ∧
    int512_is_negative INT512_ONE = false ∧ int512_is_negative INT512_ZERO = false := by
  have hmin : INT512_MIN.val = -2 ^ 511 := by decide
  have hmax : INT512_MAX.val = 2 ^ 511 - 1 := by decide
  have humax : UINT512_MAX.val = 2 ^ 512 - 1 := by decide
  have huz : UINT512_ZERO.val = 0 := by decide
  obtain ⟨r1, r2⟩ := int512_val_range a ha
  have hul : u.val < 2 ^ 512 := hu.val_lt
  obtain ⟨c1, c2, _⟩ := int512_compare_spec INT512_MIN a (by decide) ha
  obtain ⟨d1, d2, _⟩ := int512_compare_spec a INT512_MAX ha (by decide)
  obtain ⟨e1, e2, _⟩ := uint512_compare_spec UINT512_ZERO u (by decide) hu
  obtain ⟨f1, f2, _⟩ := uint512_compare_spec u UINT512_MAX hu (by decide)
  refine ⟨hmin, hmax, by omega, by omega, ?_, ?_, humax, huz, by omega, by omega, ?_, ?_,
    by decide, by decide, by decide, by decide⟩
  · by_cases h : INT512_MIN.val = a.val
    · rw [c2 h]
    · rw [c1 (by omega)]
      decide
  · by_cases h : a.val = INT512_MAX.val
    · rw [d2 h]
    · rw [d1 (by omega)]
      decide
  · by_cases h : UINT512_ZERO.val = u.val
    · rw [e2 h]
    · rw [e1 (by omega)]
      decide
  · by_cases h : u.val = UINT512_MAX.val
    · rw [f2 h]
    · rw [f1 (by omega)]
      decide

theorem C31_constants_witness :
    (int512_t.WF ⟨[12345, 0, 0, 0, 0, 0, 0, 0]⟩ ∧ uint512_t.WF ⟨[0, 7, 0, 0, 0, 0, 0, 0]⟩) ∧
    (INT512_MIN.val = -2 ^ 511 ∧ INT512_MAX.val = 2 ^ 511 - 1 ∧
    INT512_MIN.val ≤ int512_t.val ⟨[12345, 0, 0, 0, 0, 0, 0, 0]⟩ ∧
    int512_t.val ⟨[12345, 0, 0, 0, 0, 0, 0, 0]⟩ ≤ INT512_MAX.val ∧
    int512_compare INT512_MIN ⟨[12345, 0, 0, 0, 0, 0, 0, 0]⟩ ≤ 0 ∧
    int512_compare ⟨[12345, 0, 0, 0, 0, 0, 0, 0]⟩ INT512_MAX ≤ 0 ∧
    UINT512_MAX.val = 2 ^ 512 - 1 ∧ UINT512_ZERO.val = 0 ∧
    UINT512_ZERO.val ≤ uint512_t.val ⟨[0, 7, 0, 0, 0, 0, 0, 0]⟩ ∧
    uint512_t.val ⟨[0, 7, 0, 0, 0, 0, 0, 0]⟩ ≤ UINT512_MAX.val ∧
    uint512_compare UINT512_ZERO ⟨[0, 7, 0, 0, 0, 0, 0, 0]⟩ ≤ 0 ∧
    uint512_compare ⟨[0, 7, 0, 0, 0, 0, 0, 0]⟩ UINT512_MAX ≤ 0 ∧
    int512_is_negative INT512_MIN = true ∧ int512_is_negative INT512_MAX = false ∧
    int512_is_negative INT512_ONE = false ∧ int512_is_negative INT512_ZERO = false) :=
  ⟨⟨by decide, by decide⟩,
    C31_constants ⟨[12345, 0, 0, 0, 0, 0, 0, 0]⟩ (by decide) ⟨[0, 7, 0, 0, 0, 0, 0, 0]⟩
      (by decide)⟩

/-- Claim C32: narrowing the remainder in the mixed-size divide wrappers loses nothing.
For every unsigned `a` and every non-zero `uint16_t` value `b`, `uint512_div_u16`
returns OK with the quotient `floor(a / b)` and the `uint16_t` remainder `a mod b`. For
every signed `c` and every non-zero `int8_t` value `d`, -128 included, `int512_div_i8`
returns OK with an `int8_t` remainder equal to the remainder of `int512_div` on `c` and
the sign-extended `d`, which is the truncating remainder of `c` by `d`. 1000 / 30 gives
the quotient 33 and the remainder 10. -/
theorem C32_div_remainder_narrowing (a : uint512_t) (ha : a.WF) (b : Nat)
    (hb : b < 2 ^ 16) (hb0 : b ≠ 0) (c : int512_t) (hc : c.WF) (d : Int)
    (hd : -128 ≤ d ∧ d ≤ 127) (hd0 : d ≠ 0) :
    (∃ q : uint512_t, uint512_div_u16 a b = some (INT512_OK, some q, some (a.val % b)) ∧
      q.WF ∧ q.val = a.val / b ∧ a.val % b < 2 ^ 16) ∧
    (∃ t q r : int512_t, t.WF ∧ t.val = d ∧
      int512_div c t = some (INT512_OK, some (q, r)) ∧
      int512_div_i8 c d = some (INT512_OK, some q, some r.val) ∧
      r.val = c.val.tmod d ∧ -128 ≤ r.val ∧ r.val ≤ 127) ∧
    uint512_div_u16 ⟨[1000, 0, 0, 0, 0, 0, 0, 0]⟩ 30
      = some (INT512_OK, some ⟨[33, 0, 0, 0, 0, 0, 0, 0]⟩, some 10) := by
  refine ⟨?_, ?_, by decide⟩
  · obtain ⟨bw, bv⟩ := small_word_spec b (by omega)
    obtain ⟨q, r, hdiv, hq, hr, hqv, hrv⟩ := uint512_div_spec a ⟨[b, 0, 0, 0, 0, 0, 0, 0]⟩
      ha bw (by rw [bv]; exact hb0)
    rw [bv] at hqv hrv
    have hrlt : r.val < b := by rw [hrv]; exact Nat.mod_lt _ (by omega)
    have hw0 : r.words.getD 0 0 % 2 ^ 16 = a.val % b := by
      have e := getD_eq_div_mod r.words hr.2 0
      simp only [Nat.mul_zero, Nat.pow_zero, Nat.div_one] at e
      rw [e, ← hrv]
      simp only [uint512_t.val] at hrlt ⊢
      omega
    refine ⟨q, ?_, hq, hqv, by omega⟩
    simp only [uint512_div_u16, hdiv, if_true, Option.map_some', hw0]
  · obtain ⟨tw, tv⟩ := sign_extend_spec d (by omega)
    obtain ⟨q, r, hdiv, hq, hr, hrv, _, _⟩ := int512_div_spec c _ hc tw (by rw [tv]; exact hd0)
    rw [tv] at hrv
    obtain ⟨m1, _, _⟩ := int_tmod_facts c.val d hd0
    have hrange : -128 ≤ r.val ∧ r.val ≤ 127 := by
      rw [hrv]
      omega
    refine ⟨_, q, r, tw, tv, hdiv, ?_, hrv, hrange.1, hrange.2⟩
    simp only [int512_div_i8, hdiv, if_true, Option.map_some', int8_of_word r hr hrange]

theorem C32_div_remainder_narrowing_witness :
    (uint512_t.WF ⟨[1000, 0, 0, 0, 0, 0, 0, 0]⟩ ∧ 30 < 2 ^ 16 ∧ 30 ≠ 0 ∧ INT512_MIN.WF ∧
      ((-128 : Int) ≤ -128 ∧ (-128 : Int) ≤ 127) ∧ (-128 : Int) ≠ 0) ∧
    ((∃ q : uint512_t, uint512_div_u16 ⟨[1000, 0, 0, 0, 0, 0, 0, 0]⟩ 30
        = some (INT512_OK, some q,
            some (uint512_t.val ⟨[1000, 0, 0, 0, 0, 0, 0, 0]⟩ % 30)) ∧
      q.WF ∧ q.val = uint512_t.val ⟨[1000, 0, 0, 0, 0, 0, 0, 0]⟩ / 30 ∧
      uint512_t.val ⟨[1000, 0, 0, 0, 0, 0, 0, 0]⟩ % 30 < 2 ^ 16) ∧
    (∃ t q r : int512_t, t.WF ∧ t.val = -128 ∧
      int512_div INT512_MIN t = some (INT512_OK, some (q, r)) ∧
      int512_div_i8 INT512_MIN (-128) = some (INT512_OK, some q, some r.val) ∧
      r.val = INT512_MIN.val.tmod (-128) ∧ -128 ≤ r.val ∧ r.val ≤ 127) ∧
    uint512_div_u16 ⟨[1000, 0, 0, 0, 0, 0, 0, 0]⟩ 30
      = some (INT512_OK, some ⟨[33, 0, 0, 0, 0, 0, 0, 0]⟩, some 10)) :=
  ⟨⟨by decide, by decide, by decide, by decide, by decide, by decide⟩,
    C32_div_remainder_narrowing ⟨[1000, 0, 0, 0, 0, 0, 0, 0]⟩ (by decide) 30 (by decide)
      (by decide) INT512_MIN (by decide) (-128) (by decide) (by decide)⟩

/-- Claim C34: the sign handling of `int512_from_string` is a prefix step over the
unsigned parser. For every radix in `[2, 36]` and every text `s`, `int512_from_string` on
`-` followed by `s` returns the status of `uint512_from_string` on `s`, and, when that is
OK, the two's-complement negation of its result. So `-+5` and `- 5` are accepted and
parse to -5, while `+-5` and `--5` are INVALID_STRING. -/
theorem C34_minus_prefix (base : Int) (hb : 2 ≤ base ∧ base ≤ 36) (s : List Char) :
    (int512_from_string ('-' :: s) base).1 = (uint512_from_string s base).1 ∧
    ((uint512_from_string s base).1 = INT512_OK →
      ∃ r : uint512_t, uint512_from_string s base = (INT512_OK, some r) ∧
        int512_from_string ('-' :: s) base = (INT512_OK, some (int512_negate r.toI))) ∧
    (int512_from_string "-+5".toList 10).1 = INT512_OK ∧
    (int512_from_string "-+5".toList 10).2.map int512_t.val = some (-5) ∧
    (int512_from_string "- 5".toList 10).1 = INT512_OK ∧
    (int512_from_string "- 5".toList 10).2.map int512_t.val = some (-5) ∧
    (int512_from_string "+-5".toList 10).1 = INT512_ERR_INVALID_STRING ∧
    (int512_from_string "--5".toList 10).1 = INT512_ERR_INVALID_STRING := by
  have h2 : ¬ (base < 2 ∨ base > 36) := by omega
  have hminus : ¬ (('-' : Char) = ' ' ∨ ('-' : Char) = '\t') := by decide
  have hdef : int512_from_string ('-' :: s) base
      = if (uint512_from_string s base).1 ≠ INT512_OK then
          ((uint512_from_string s base).1, (uint512_from_string s base).2.map uint512_t.toI)
        else (INT512_OK, (uint512_from_string s base).2.map (fun x => int512_negate x.toI)) := by
    simp only [int512_from_string, if_neg h2, skip_blanks, if_neg hminus, List.headD_cons,
      if_true, List.tail_cons]
  refine ⟨?_, ?_, by decide, by decide, by decide, by decide, by decide, by decide⟩
  · rw [hdef]
    by_cases h : (uint512_from_string s base).1 = INT512_OK
    · rw [if_neg (by simp [h]), h]
    · rw [if_pos h]
  · intro h
    have hsome : ∃ r, (uint512_from_string s base).2 = some r := by
      simp only [uint512_from_string, if_neg h2]
      split <;> split <;> exact ⟨_, rfl⟩
    obtain ⟨r, hr⟩ := hsome
    refine ⟨r, ?_, ?_⟩
    · rw [← h, ← hr]
    · rw [hdef, if_neg (by simp [h]), hr]
      rfl

theorem C34_minus_prefix_witness :
    ((2 : Int) ≤ 16 ∧ (16 : Int) ≤ 36) ∧
    ((int512_from_string ('-' :: " +fF".toList) 16).1
      = (uint512_from_string " +fF".toList 16).1 ∧
    ((uint512_from_string " +fF".toList 16).1 = INT512_OK →
      ∃ r : uint512_t, uint512_from_string " +fF".toList 16 = (INT512_OK, some r) ∧
        int512_from_string ('-' :: " +fF".toList) 16
          = (INT512_OK, some (int512_negate r.toI))) ∧
    (int512_from_string "-+5".toList 10).1 = INT512_OK ∧
    (int512_from_string "-+5".toList 10).2.map int512_t.val = some (-5) ∧
    (int512_from_string "- 5".toList 10).1 = INT512_OK ∧
    (int512_from_string "- 5".toList 10).2.map int512_t.val = some (-5) ∧
    (int512_from_string "+-5".toList 10).1 = INT512_ERR_INVALID_STRING ∧
    (int512_from_string "--5".toList 10).1 = INT512_ERR_INVALID_STRING) :=
  ⟨by decide, C34_minus_prefix 16 (by decide) " +fF".toList⟩

/-! ## The invariant of the long division -/

theorem uint512_div_loop_step (a : List Nat) (b : uint512_t) (i : Nat)
    (st : List Nat × List Nat) :
    uint512_div_loop a b (i + 1) st = uint512_div_loop a b i (uint512_div_step a b i st) := by
  obtain ⟨cur, q⟩ := st
  simp only [uint512_div_loop, uint512_div_step, uint512_div_shift_in]
  by_cases h : uint512_compare
      ⟨if a.getD (i / 64) 0 &&& ((1 <<< (i % 64)) % 2 ^ 64) ≠ 0 then
          (shift_left_one cur 0).set 0 ((shift_left_one cur 0).getD 0 0 ||| 1)
        else shift_left_one cur 0⟩ b ≥ 0
  · rw [if_pos h, if_pos h]
  · rw [if_neg h, if_neg h]

/-- The loop run to its end from the start is the loop run to its end from the state
after `k` iterations. -/
theorem uint512_div_loop_after (a : List Nat) (b : uint512_t) (d : Nat) :
    ∀ k : Nat, k ≤ d + 1 →
    uint512_div_loop a b (d + 1) (UINT512_ZERO.words, UINT512_ZERO.words)
      = uint512_div_loop a b (d + 1 - k) (uint512_div_after a b d k) := by
  intro k
  induction k with
  | zero =>
    intro _
    rfl
  | succ k ih =>
    intro hk
    rw [ih (by omega)]
    have e : d + 1 - k = (d - k) + 1 := by omega
    have e2 : d + 1 - (k + 1) = d - k := by omega
    rw [e, e2, uint512_div_loop_step]
    rfl

/-- One iteration of the long division, for bit `i`, from a state that satisfies the
invariant for the bits above `i`. -/
theorem uint512_div_step_spec (a : List Nat) (b : uint512_t) (ha : WordsWF a) (hb : b.WF)
    (B : Nat) (hB : wordsVal b.words = B) (hb0 : 0 < B) (i : Nat) (hi : i < 512)
    (cur q : List Nat) (hc : WordsWF cur) (hq : WordsWF q)
    (hvc : wordsVal cur = (wordsVal a / 2 ^ (i + 1)) % B)
    (hvq : wordsVal q = 2 ^ (i + 1) * ((wordsVal a / 2 ^ (i + 1)) / B)) :
    (wordsVal cur < B ∧ wordsVal cur < 2 ^ 511 ∧
      wordsVal (shift_left_one cur 0) = 2 * wordsVal cur) ∧
    (WordsWF (uint512_div_shift_in a i cur) ∧
      wordsVal (uint512_div_shift_in a i cur)
        = 2 * wordsVal cur + (if (wordsVal a).testBit i then 1 else 0)) ∧
    (uint512_compare ⟨uint512_div_shift_in a i cur⟩ b ≥ 0 →
      B ≤ wordsVal (uint512_div_shift_in a i cur) ∧
      (uint512_sub ⟨uint512_div_shift_in a i cur⟩ b).1 = INT512_OK) ∧
    WordsWF (uint512_div_step a b i (cur, q)).1 ∧
    WordsWF (uint512_div_step a b i (cur, q)).2 ∧
    wordsVal (uint512_div_step a b i (cur, q)).1 = (wordsVal a / 2 ^ i) % B ∧
    wordsVal (uint512_div_step a b i (cur, q)).2 = 2 ^ i * ((wordsVal a / 2 ^ i) / B) := by
  have hA := div_pow_succ (wordsVal a) i
  have hla := ha.val_lt
  have hA1 : wordsVal a / 2 ^ (i + 1) < 2 ^ 511 := by
    apply Nat.div_lt_of_lt_mul
    have : (2:Nat) ^ 1 ≤ 2 ^ (i + 1) := Nat.pow_le_pow_right (by decide) (by omega)
    have h2 : (2:Nat) ^ 1 * 2 ^ 511 ≤ 2 ^ (i + 1) * 2 ^ 511 := Nat.mul_le_mul_right _ this
    omega
  obtain ⟨A1, hA1def⟩ : ∃ A1, A1 = wordsVal a / 2 ^ (i + 1) := ⟨_, rfl⟩
  obtain ⟨A0, hA0def⟩ : ∃ A0, A0 = wordsVal a / 2 ^ i := ⟨_, rfl⟩
  rw [← hA1def] at hA hA1 hvc hvq
  rw [← hA0def] at hA ⊢
  have hdm := Nat.div_add_mod A1 B
  have hml := Nat.mod_lt A1 hb0
  have hmle := Nat.mod_le A1 B
  have hr : i % 64 < 64 := Nat.mod_lt _ (by decide)
  have hcur511 : wordsVal cur < 2 ^ 511 := by omega
  obtain ⟨s1, s2⟩ := shift_inject cur hc ((wordsVal a).testBit i) (by omega)
  obtain ⟨sl, sw, top, st⟩ := shift_left_one_spec cur 0 hc.2 (by omega)
  have hshift : wordsVal (shift_left_one cur 0) = 2 * wordsVal cur := by
    have hwf : WordsWF (shift_left_one cur 0) := ⟨by rw [sl, hc.1], sw⟩
    have hlt := hwf.val_lt
    rw [hc.1] at st
    have e512 : (2 : Nat) ^ (64 * 8) = 2 ^ 512 := by norm_num
    rw [e512] at st
    have htop : top = 0 := by
      by_contra h
      have : 2 ^ 512 * 1 ≤ 2 ^ 512 * top := Nat.mul_le_mul_left _ (by omega)
      omega
    rw [htop] at st
    omega
  have hcond : (a.getD (i / 64) 0 &&& ((1 <<< (i % 64)) % 2 ^ 64) ≠ 0)
      ↔ (wordsVal a).testBit i = true := by
    rw [and_mask_ne_zero _ _ hr, testBit_getD a ha.2]
  have hin : uint512_div_shift_in a i cur
      = (if (wordsVal a).testBit i = true then
          (shift_left_one cur 0).set 0 ((shift_left_one cur 0).getD 0 0 ||| 1)
        else shift_left_one cur 0) := by
    simp only [uint512_div_shift_in]
    rw [if_congr hcond rfl rfl]
  have hstep : uint512_div_step a b i (cur, q)
      = if uint512_compare ⟨uint512_div_shift_in a i cur⟩ b ≥ 0 then
          ((uint512_sub ⟨uint512_div_shift_in a i cur⟩ b).2.words,
            q.set (i / 64) (q.getD (i / 64) 0 ||| ((1 <<< (i % 64)) % 2 ^ 64)))
        else (uint512_div_shift_in a i cur, q) := rfl
  rw [hstep, hin]
  generalize (if (wordsVal a).testBit i = true then
      (shift_left_one cur 0).set 0 ((shift_left_one cur 0).getD 0 0 ||| 1)
    else shift_left_one cur 0) = cur1 at s1 s2 ⊢
  have hge := uint512_compare_ge_iff ⟨cur1⟩ b s1 hb
  simp only [uint512_t.val] at hge
  rw [hB] at hge
  have hlb := hb.val_lt
  rw [hB] at hlb
  have hl1 := s1.val_lt
  have e1 : B * (2 * (A1 / B) + 1) = 2 * (B * (A1 / B)) + B := by ring
  have e2 : B * (2 * (A1 / B)) = 2 * (B * (A1 / B)) := by ring
  obtain ⟨u1, u2, _, u4⟩ := uint512_sub_spec ⟨cur1⟩ b s1 hb
  simp only [uint512_t.val, uint512_t.WF] at u1 u2 u4
  rw [hB] at u2 u4
  refine ⟨⟨by omega, hcur511, hshift⟩, ⟨s1, s2⟩, ?_, ?_⟩
  · intro hcmp
    exact ⟨hge.mp hcmp, u4.mpr (hge.mp hcmp)⟩
  generalize B * (A1 / B) = BQ at hdm e1 e2
  generalize A1 % B = R at hdm hml hmle hvc
  have hbit : (if (wordsVal a).testBit i = true then 1 else 0) ≤ 1 := by
    split_ifs <;> omega
  generalize (if (wordsVal a).testBit i = true then 1 else 0) = bit at hA s2 hbit
  by_cases hcmp : uint512_compare ⟨cur1⟩ b ≥ 0
  · rw [if_pos hcmp]
    have hge1 := hge.mp hcmp
    obtain ⟨q1, q2⟩ := set_quotient_bit q hq i (A1 / B) (by omega) hvq
    have hdiv : A0 / B = 2 * (A1 / B) + 1 ∧ A0 % B = wordsVal cur1 - B := by
      rw [Nat.div_mod_unique hb0]
      constructor
      · rw [e1]; omega
      · omega
    refine ⟨u1, q1, ?_, ?_⟩
    · show wordsVal (uint512_sub ⟨cur1⟩ b).2.words = A0 % B
      rw [u2, hdiv.2]
      omega
    · show wordsVal (q.set (i / 64) (q.getD (i / 64) 0 ||| ((1 <<< (i % 64)) % 2 ^ 64)))
        = 2 ^ i * (A0 / B)
      rw [q2, hvq, hdiv.1, Nat.pow_succ]
      ring
  · rw [if_neg hcmp]
    have hlt1 : wordsVal cur1 < B := by
      by_contra h
      exact hcmp (hge.mpr (by omega))
    have hdiv : A0 / B = 2 * (A1 / B) ∧ A0 % B = wordsVal cur1 := by
      rw [Nat.div_mod_unique hb0]
      constructor
      · rw [e2]; omega
      · exact hlt1
    refine ⟨s1, hq, ?_, ?_⟩
    · show wordsVal cur1 = A0 % B
      rw [hdiv.2]
    · show wordsVal q = 2 ^ i * (A0 / B)
      rw [hvq, hdiv.1, Nat.pow_succ]
      ring

/-- The state after `k` iterations satisfies the invariant for the bits it has processed. -/
theorem uint512_div_after_spec (a : List Nat) (b : uint512_t) (ha : WordsWF a) (hb : b.WF)
    (B : Nat) (hB : wordsVal b.words = B) (hb0 : 0 < B) (d : Nat) (hd : d < 512)
    (htop : wordsVal a < 2 ^ (d + 1)) :
    ∀ k : Nat, k ≤ d + 1 →
    WordsWF (uint512_div_after a b d k).1 ∧ WordsWF (uint512_div_after a b d k).2 ∧
    wordsVal (uint512_div_after a b d k).1 = (wordsVal a / 2 ^ (d + 1 - k)) % B ∧
    wordsVal (uint512_div_after a b d k).2
      = 2 ^ (d + 1 - k) * ((wordsVal a / 2 ^ (d + 1 - k)) / B) := by
  intro k
  induction k with
  | zero =>
    intro _
    have hsmall : wordsVal a / 2 ^ (d + 1) = 0 := Nat.div_eq_of_lt htop
    refine ⟨wordsWF_zero, wordsWF_zero, ?_, ?_⟩
    · show wordsVal UINT512_ZERO.words = _
      rw [Nat.sub_zero, hsmall, wordsVal_zero]
      simp
    · show wordsVal UINT512_ZERO.words = _
      rw [Nat.sub_zero, hsmall, wordsVal_zero]
      simp
  | succ k ih =>
    intro hk
    obtain ⟨i1, i2, i3, i4⟩ := ih (by omega)
    have e : d + 1 - k = (d - k) + 1 := by omega
    have e2 : d + 1 - (k + 1) = d - k := by omega
    rw [e] at i3 i4
    rw [e2]
    obtain ⟨_, _, _, s1, s2, s3, s4⟩ := uint512_div_step_spec a b ha hb B hB hb0 (d - k)
      (by omega) (uint512_div_after a b d k).1 (uint512_div_after a b d k).2 i1 i2 i3 i4
    exact ⟨s1, s2, s3, s4⟩

/-- Claim C35: the invariant of the long division in `uint512_div`, for `a ≥ b > 0`.
Both bit scans end with the index of the highest set bit. At the start of every
iteration the partial remainder `current` is below `b` and below `2 ^ 511`, so the
shift by one bit discards no set bit; `uint512_sub(current, b)` runs only when
`current ≥ b` and returns OK; and after the iteration for bit `i`, `current` is
`(a >> i) mod b` and the quotient holds `floor((a >> i) / b)` in its bits from `i`
upwards, with zeros below. The state after the last iteration is what `uint512_div`
returns. -/
theorem C35_long_division_invariant (a b : uint512_t) (ha : a.WF) (hb : b.WF)
    (hb0 : 0 < b.val) (hab : b.val ≤ a.val) :
    ∃ dividend_bits divisor_bits : Nat,
      highest_bit a.words 8 = some dividend_bits ∧
      highest_bit b.words 8 = some divisor_bits ∧
      dividend_bits < 512 ∧ divisor_bits < 512 ∧
      2 ^ dividend_bits ≤ a.val ∧ a.val < 2 ^ (dividend_bits + 1) ∧
      2 ^ divisor_bits ≤ b.val ∧ b.val < 2 ^ (divisor_bits + 1) ∧
      (∀ k : Nat, k < dividend_bits + 1 →
        wordsVal (uint512_div_after a.words b dividend_bits k).1 < b.val ∧
        wordsVal (uint512_div_after a.words b dividend_bits k).1 < 2 ^ 511 ∧
        wordsVal (shift_left_one (uint512_div_after a.words b dividend_bits k).1 0)
          = 2 * wordsVal (uint512_div_after a.words b dividend_bits k).1 ∧
        (uint512_compare ⟨uint512_div_shift_in a.words (dividend_bits - k)
            (uint512_div_after a.words b dividend_bits k).1⟩ b ≥ 0 →
          b.val ≤ wordsVal (uint512_div_shift_in a.words (dividend_bits - k)
            (uint512_div_after a.words b dividend_bits k).1) ∧
          (uint512_sub ⟨uint512_div_shift_in a.words (dividend_bits - k)
            (uint512_div_after a.words b dividend_bits k).1⟩ b).1 = INT512_OK)) ∧
      (∀ k : Nat, k ≤ dividend_bits + 1 →
        WordsWF (uint512_div_after a.words b dividend_bits k).1 ∧
        WordsWF (uint512_div_after a.words b dividend_bits k).2 ∧
        wordsVal (uint512_div_after a.words b dividend_bits k).1
          = (a.val / 2 ^ (dividend_bits + 1 - k)) % b.val ∧
        wordsVal (uint512_div_after a.words b dividend_bits k).2
          = 2 ^ (dividend_bits + 1 - k) * ((a.val / 2 ^ (dividend_bits + 1 - k)) / b.val)) ∧
      uint512_div a b = some (INT512_OK,
        some (⟨(uint512_div_after a.words b dividend_bits (dividend_bits + 1)).2⟩,
          ⟨(uint512_div_after a.words b dividend_bits (dividend_bits + 1)).1⟩)) := by
  have ea : a.words.take 8 = a.words := List.take_of_length_le (by rw [ha.1])
  have eb : b.words.take 8 = b.words := List.take_of_length_le (by rw [hb.1])
  obtain ⟨da, a1, a2, a3, a4⟩ := highest_bit_spec a.words ha.2 8
    (by rw [ea]; simp only [uint512_t.val] at hab hb0; omega)
  obtain ⟨db, b1, b2, b3, b4⟩ := highest_bit_spec b.words hb.2 8
    (by rw [eb]; simp only [uint512_t.val] at hb0; omega)
  rw [ea] at a3 a4
  rw [eb] at b3 b4
  have hinv := uint512_div_after_spec a.words b ha hb b.val rfl hb0 da (by omega) a4
  refine ⟨da, db, a1, b1, by omega, by omega, a3, a4, b3, b4, ?_, hinv, ?_⟩
  · intro k hk
    obtain ⟨i1, i2, i3, i4⟩ := hinv k (by omega)
    have e : da + 1 - k = (da - k) + 1 := by omega
    rw [e] at i3 i4
    obtain ⟨⟨s1, s2, s3⟩, _, s4, _⟩ := uint512_div_step_spec a.words b ha hb b.val rfl hb0
      (da - k) (by omega) (uint512_div_after a.words b da k).1
      (uint512_div_after a.words b da k).2 i1 i2 i3 i4
    exact ⟨s1, s2, s3, s4⟩
  · have hnz : uint512_is_zero b = false := by
      cases h : uint512_is_zero b
      · rfl
      · have := (uint512_is_zero_iff b).mp h
        omega
    have hcmp : ¬ uint512_compare a b < 0 := by
      intro h
      have := (uint512_compare_lt_iff a b ha hb).mp h
      omega
    simp only [uint512_div, hnz, Bool.false_eq_true, if_false, if_neg hcmp, a1, b1]
    rw [uint512_div_loop_after a.words b da (da + 1) (by omega), Nat.sub_self]
    rfl

theorem C35_long_division_invariant_witness :
    (uint512_t.WF ⟨[100, 0, 0, 0, 0, 0, 0, 0]⟩ ∧ uint512_t.WF ⟨[30, 0, 0, 0, 0, 0, 0, 0]⟩ ∧
      0 < uint512_t.val ⟨[30, 0, 0, 0, 0, 0, 0, 0]⟩ ∧
      uint512_t.val ⟨[30, 0, 0, 0, 0, 0, 0, 0]⟩ ≤ uint512_t.val ⟨[100, 0, 0, 0, 0, 0, 0, 0]⟩) ∧
    ∃ dividend_bits divisor_bits : Nat,
      highest_bit [100, 0, 0, 0, 0, 0, 0, 0] 8 = some dividend_bits ∧
      highest_bit [30, 0, 0, 0, 0, 0, 0, 0] 8 = some divisor_bits ∧
      dividend_bits < 512 ∧ divisor_bits < 512 ∧
      2 ^ dividend_bits ≤ uint512_t.val ⟨[100, 0, 0, 0, 0, 0, 0, 0]⟩ ∧
      uint512_t.val ⟨[100, 0, 0, 0, 0, 0, 0, 0]⟩ < 2 ^ (dividend_bits + 1) ∧
      2 ^ divisor_bits ≤ uint512_t.val ⟨[30, 0, 0, 0, 0, 0, 0, 0]⟩ ∧
      uint512_t.val ⟨[30, 0, 0, 0, 0, 0, 0, 0]⟩ < 2 ^ (divisor_bits + 1) ∧
      (∀ k : Nat, k < dividend_bits + 1 →
        wordsVal (uint512_div_after [100, 0, 0, 0, 0, 0, 0, 0] ⟨[30, 0, 0, 0, 0, 0, 0, 0]⟩
          dividend_bits k).1 < uint512_t.val ⟨[30, 0, 0, 0, 0, 0, 0, 0]⟩ ∧
        wordsVal (uint512_div_after [100, 0, 0, 0, 0, 0, 0, 0] ⟨[30, 0, 0, 0, 0, 0, 0, 0]⟩
          dividend_bits k).1 < 2 ^ 511 ∧
        wordsVal (shift_left_one (uint512_div_after [100, 0, 0, 0, 0, 0, 0, 0]
            ⟨[30, 0, 0, 0, 0, 0, 0, 0]⟩ dividend_bits k).1 0)
          = 2 * wordsVal (uint512_div_after [100, 0, 0, 0, 0, 0, 0, 0]
            ⟨[30, 0, 0, 0, 0, 0, 0, 0]⟩ dividend_bits k).1 ∧
        (uint512_compare ⟨uint512_div_shift_in [100, 0, 0, 0, 0, 0, 0, 0] (dividend_bits - k)
            (uint512_div_after [100, 0, 0, 0, 0, 0, 0, 0] ⟨[30, 0, 0, 0, 0, 0, 0, 0]⟩
              dividend_bits k).1⟩ ⟨[30, 0, 0, 0, 0, 0, 0, 0]⟩ ≥ 0 →
          uint512_t.val ⟨[30, 0, 0, 0, 0, 0, 0, 0]⟩
            ≤ wordsVal (uint512_div_shift_in [100, 0, 0, 0, 0, 0, 0, 0] (dividend_bits - k)
              (uint512_div_after [100, 0, 0, 0, 0, 0, 0, 0] ⟨[30, 0, 0, 0, 0, 0, 0, 0]⟩
                dividend_bits k).1) ∧
          (uint512_sub ⟨uint512_div_shift_in [100, 0, 0, 0, 0, 0, 0, 0] (dividend_bits - k)
            (uint512_div_after [100, 0, 0, 0, 0, 0, 0, 0] ⟨[30, 0, 0, 0, 0, 0, 0, 0]⟩
              dividend_bits k).1⟩ ⟨[30, 0, 0, 0, 0, 0, 0, 0]⟩).1 = INT512_OK)) ∧
      (∀ k : Nat, k ≤ dividend_bits + 1 →
        WordsWF (uint512_div_after [100, 0, 0, 0, 0, 0, 0, 0] ⟨[30, 0, 0, 0, 0, 0, 0, 0]⟩
          dividend_bits k).1 ∧
        WordsWF (uint512_div_after [100, 0, 0, 0, 0, 0, 0, 0] ⟨[30, 0, 0, 0, 0, 0, 0, 0]⟩
          dividend_bits k).2 ∧
        wordsVal (uint512_div_after [100, 0, 0, 0, 0, 0, 0, 0] ⟨[30, 0, 0, 0, 0, 0, 0, 0]⟩
            dividend_bits k).1
          = (uint512_t.val ⟨[100, 0, 0, 0, 0, 0, 0, 0]⟩ / 2 ^ (dividend_bits + 1 - k))
            % uint512_t.val ⟨[30, 0, 0, 0, 0, 0, 0, 0]⟩ ∧
        wordsVal (uint512_div_after [100, 0, 0, 0, 0, 0, 0, 0] ⟨[30, 0, 0, 0, 0, 0, 0, 0]⟩
            dividend_bits k).2
          = 2 ^ (dividend_bits + 1 - k)
            * ((uint512_t.val ⟨[100, 0, 0, 0, 0, 0, 0, 0]⟩ / 2 ^ (dividend_bits + 1 - k))
              / uint512_t.val ⟨[30, 0, 0, 0, 0, 0, 0, 0]⟩)) ∧
      uint512_div ⟨[100, 0, 0, 0, 0, 0, 0, 0]⟩ ⟨[30, 0, 0, 0, 0, 0, 0, 0]⟩
        = some (INT512_OK,
          some (⟨(uint512_div_after [100, 0, 0, 0, 0, 0, 0, 0] ⟨[30, 0, 0, 0, 0, 0, 0, 0]⟩
              dividend_bits (dividend_bits + 1)).2⟩,
            ⟨(uint512_div_after [100, 0, 0, 0, 0, 0, 0, 0] ⟨[30, 0, 0, 0, 0, 0, 0, 0]⟩
              dividend_bits (dividend_bits + 1)).1⟩)) :=
  ⟨⟨by decide, by decide, by decide, by decide⟩,
    C35_long_division_invariant ⟨[100, 0, 0, 0, 0, 0, 0, 0]⟩ ⟨[30, 0, 0, 0, 0, 0, 0, 0]⟩
      (by decide) (by decide) (by decide) (by decide)⟩

end Int512
